import Mathlib

/-! Job-shop genetic algorithm: simulator and genetic operators.

A shallow embedding of `code.go` (package `main`): the tick-based simulator
`totalTime`, the helper `okToQueue`, and the genetic operators `Crossover`
and `Mutate`.

Modelling conventions.

* Go `int` is modelled by `Int`.  No arithmetic of the program can leave the
  64-bit range before the tick counter has been incremented `2^63` times, so
  integers are not wrapped.
* A run-time panic (index out of range, `Intn` with a non-positive bound) is
  modelled by `none` / `Outcome.panic`.
* The unbounded `for time := 0; ; time++` loop is modelled with a fuel
  argument; `Outcome.running` means that the fuel ran out before the loop
  returned.
* `rand.Intn n` is modelled by `Intn n raw`, where `raw` is an arbitrary
  natural number standing for the state of the generator: it returns
  `raw % n`, so every value of `[0, n)` and no other value can be produced.
-/

namespace GeneticAlgorithms

/-! ## Data model -/

/-- A Task is the machine it should run on and the time taken (`[2]int`). -/
abbrev Task := Int × Int

/-- An Operation is a reference to a Task: (job identifier, task index), both 1-based. -/
abbrev Operation := Int × Int

/-- A Job is a list of tasks. -/
abbrev Job := List Task

/-- A Shop is a list of jobs and a number of machines. -/
structure Shop where
  Jobs : List Job
  Machines : Int
deriving DecidableEq, Repr

/-- A Gene is a list of job identifiers. -/
abbrev Gene := List Int

/-- The simulator state of one machine. -/
structure machine where
  CompletedTasks : List Operation
  CurrentTask : Operation
  Queue : List Operation
  TimeLeft : Int
deriving DecidableEq, Repr

/-- Result of running the simulator with a bounded number of loop iterations. -/
inductive Outcome where
  | value (time : Int)
  | panic
  | running
deriving DecidableEq, Repr

/-- Indexing `l[i]` with a Go `int` index: fails when `i` is out of range. -/
def index {α : Type} (l : List α) (i : Int) : Option α :=
  if i < 0 then none else l[i.toNat]?

/-- The zero value `machine{}`. -/
def emptyMachine : machine :=
  { CompletedTasks := [], CurrentTask := (0, 0), Queue := [], TimeLeft := 0 }

/-- The expression `shop.Jobs[o[0]-1][o[1]-1]`. -/
def taskOf (shop : Shop) (o : Operation) : Option Task :=
  match index shop.Jobs (o.1 - 1) with
  | none => none
  | some job => index job (o.2 - 1)

/-! ## `totalTime`: decoding (lines 73-82) -/

/-- Assignment `seen[k] = v` on a Go map, modelled as a partial function. -/
def mapSet (seen : Int → Option Int) (k v : Int) : Int → Option Int :=
  fun k' => if k' = k then some v else seen k'

/-- One iteration of the decoding loop for the gene value `x`. -/
def decodeStep (st : (Int → Option Int) × List Operation) (x : Int) :
    (Int → Option Int) × List Operation :=
  let seen :=
    match st.1 x with
    | none => mapSet st.1 x 1
    | some c => mapSet st.1 x (c + 1)
  (seen, st.2 ++ [(x, (seen x).getD 0)])

/-- The schedule built by the first loop of `totalTime`. -/
def decode (gene : Gene) : List Operation :=
  (gene.foldl decodeStep (fun _ => none, [])).2

/-! ## `totalTime`: machines and queues (lines 84-90) -/

/-- The body of the loop `for _, s := range schedule`: append `s` to the queue of its machine. -/
def enqueue (shop : Shop) (machines : List machine) (s : Operation) : Option (List machine) :=
  match taskOf shop s with
  | none => none
  | some t =>
    match index machines t.1 with
    | none => none
    | some m => some (machines.set t.1.toNat { m with Queue := m.Queue ++ [s] })

/-- The machines with their queues filled, as they stand before the tick loop. -/
def initMachines (shop : Shop) (schedule : List Operation) : Option (List machine) :=
  schedule.foldlM (enqueue shop) (List.replicate shop.Machines.toNat emptyMachine)

/-! ## `okToQueue` (lines 240-252) -/

/-- May operation `o` start: it is a first task, or its predecessor is in a completed list. -/
def okToQueue (o : Operation) (mach : List machine) : Bool :=
  if o.2 = 1 then true
  else mach.any (fun m => m.CompletedTasks.any (fun op => o.1 = op.1 ∧ o.2 - 1 = op.2))

/-! ## `totalTime`: the tick loop (lines 91-132) -/

/-- The loop computing `done` (lines 93-102). -/
def allDone (machines : List machine) : Bool :=
  machines.foldl
    (fun done m =>
      let done := if m.Queue.length > 0 then false else done
      if m.TimeLeft > 0 then false else done)
    true

/-- The body of the dispatch loop for index `i` (lines 108-116). -/
def dispatchAt (shop : Shop) (machines : List machine) (i : Nat) : Option (List machine) :=
  match machines[i]? with
  | none => none
  | some m =>
    match m.Queue with
    | [] => some machines
    | q :: rest =>
      if m.TimeLeft ≠ 0 then some machines
      else if okToQueue q machines then
        match taskOf shop q with
        | none => none
        | some t =>
          some (machines.set i { m with CurrentTask := q, Queue := rest, TimeLeft := t.2 })
      else some machines

/-- The dispatch loop (lines 107-117), machines visited in index order. -/
def dispatch (shop : Shop) (machines : List machine) : Option (List machine) :=
  (List.range machines.length).foldlM (dispatchAt shop) machines

/-- The body of the loop "time marches onwards" for one machine (lines 120-130). -/
def advanceOne (m : machine) : machine :=
  let m := if m.TimeLeft > 0 then { m with TimeLeft := m.TimeLeft - 1 } else m
  if m.TimeLeft = 0 then
    if m.CurrentTask.1 = 0 ∧ m.CurrentTask.2 = 0 then m
    else { m with CompletedTasks := m.CompletedTasks ++ [m.CurrentTask], CurrentTask := (0, 0) }
  else m

/-- The body of the advance loop for index `i`. -/
def advanceAt (machines : List machine) (i : Nat) : List machine :=
  match machines[i]? with
  | none => machines
  | some m => machines.set i (advanceOne m)

/-- The advance loop (lines 119-131). -/
def advance (machines : List machine) : List machine :=
  (List.range machines.length).foldl advanceAt machines

/-- One iteration of the tick loop after the `done` test: dispatch, then advance. -/
def tick (shop : Shop) (machines : List machine) : Option (List machine) :=
  match dispatch shop machines with
  | none => none
  | some ms => some (advance ms)

/-- The tick loop, run for at most `fuel` iterations starting at `time`. -/
def tickLoop (shop : Shop) : Nat → Int → List machine → Outcome
  | 0, _, _ => Outcome.running
  | fuel + 1, time, machines =>
    if allDone machines then Outcome.value time
    else
      match tick shop machines with
      | none => Outcome.panic
      | some ms => tickLoop shop fuel (time + 1) ms

/-- The function `totalTime`, with the tick loop bounded by `fuel` iterations. -/
def totalTime (fuel : Nat) (shop : Shop) (gene : Gene) : Outcome :=
  match initMachines shop (decode gene) with
  | none => Outcome.panic
  | some machines => tickLoop shop fuel 0 machines

/-! ## `Crossover` and `Mutate` (lines 137-176) -/

/-- The call `r.Intn(n)`: panics for `n <= 0`, otherwise some value of `[0, n)`. -/
def Intn (n : Int) (raw : Nat) : Option Int :=
  if n ≤ 0 then none else some ((raw : Int) % n)

/-- The slice expression `l[lo:hi]`. -/
def slice {α : Type} (l : List α) (lo hi : Int) : Option (List α) :=
  if 0 ≤ lo ∧ lo ≤ hi ∧ hi ≤ (l.length : Int) then some ((l.take hi.toNat).drop lo.toNat)
  else none

/-- The inner loop of `Crossover` from index `i` on: delete the first `p2[i] == x`. -/
def removeFirstFrom (x : Int) (p2 : List Int) : Nat → Nat → List Int
  | 0, _ => p2
  | fuel + 1, i =>
    match p2[i]? with
    | none => p2
    | some y => if y = x then p2.take i ++ p2.drop (i + 1) else removeFirstFrom x p2 fuel (i + 1)

/-- The inner loop of `Crossover` (lines 152-157). -/
def removeFirst (p2 : List Int) (x : Int) : List Int :=
  removeFirstFrom x p2 p2.length 0

/-- The cut points of `Crossover` (lines 143-147) from the two draws. -/
def cutPoints (length : Int) (r1 r2 : Nat) : Option (Int × Int) :=
  match Intn (length - 2) r1 with
  | none => none
  | some d1 =>
    match Intn (length - 2) r2 with
    | none => none
    | some d2 =>
      let s1 := d1 + 1
      let s2 := d2 + 1
      if s1 > s2 then some (s2, s1) else some (s1, s2)

/-- The function `Crossover`; `r1`, `r2` are the generator outcomes of the two draws. -/
def Crossover (a b : Gene) (r1 r2 : Nat) : Option Gene :=
  let p1 := a
  let p2 := b
  match cutPoints p1.length r1 r2 with
  | none => none
  | some (s1, s2) =>
    match slice p1 s1 s2 with
    | none => none
    | some substring => some (substring.foldl removeFirst p2 ++ substring)

/-- The function `Mutate`; `r0`, `r1`, `r2` are the generator outcomes of the draws. -/
def Mutate (g : Gene) (r0 r1 r2 : Nat) : Option Gene :=
  match Intn 9 r0 with
  | none => none
  | some random =>
    if random < 1 then
      match Intn (g.length - 1) r1 with
      | none => none
      | some i1 =>
        match Intn (g.length - 1) r2 with
        | none => none
        | some i2 =>
          match index g i1, index g i2 with
          | some x1, some x2 => some ((g.set i1.toNat x2).set i2.toNat x1)
          | _, _ => none
    else some g

/-- Data from the example given on the course page. -/
def example_ : Shop :=
  { Jobs := [[(0, 1), (2, 1), (2, 3)], [(0, 1), (0, 2), (1, 3)], [(1, 3), (2, 4)]],
    Machines := 3 }

/-! ## Specification-level definitions -/

/-- Number of tasks of the job with identifier `j` (0 when `j` names no job). -/
def taskCount (shop : Shop) (j : Int) : Nat :=
  match index shop.Jobs (j - 1) with
  | none => 0
  | some job => job.length

/-- The occurrence-count invariant: the gene is a sequence of job identifiers in which
identifier `k+1` occurs exactly as often as job `k` has tasks. -/
def ValidGene (shop : Shop) (gene : Gene) : Prop :=
  (∀ x ∈ gene, 1 ≤ x ∧ x ≤ (shop.Jobs.length : Int)) ∧
  ∀ k, k < shop.Jobs.length → gene.count ((k : Int) + 1) = (shop.Jobs.getD k []).length

instance (shop : Shop) (gene : Gene) : Decidable (ValidGene shop gene) := by
  unfold ValidGene; exact inferInstance

/-- The map `seen` after the decoding loop has read the values `p`. -/
def seenAfter (p : List Int) : Int → Option Int :=
  fun k => if p.count k = 0 then none else some (p.count k : Int)

/-- Spec wording: delete the first occurrence of `x` in a list, keeping the order of the rest. -/
def deleteFirstOccurrence : List Int → Int → List Int
  | [], _ => []
  | y :: ys, x => if y = x then ys else y :: deleteFirstOccurrence ys x

/-- Spec wording: process `vals` left to right, deleting for each value its first remaining
occurrence in the working copy. -/
def deleteEach (b vals : List Int) : List Int :=
  vals.foldl deleteFirstOccurrence b

/-- The dispatch decision for one machine `m`, with `all` the machines whose completed lists
are consulted. -/
def dispatchOne (shop : Shop) (all : List machine) (m : machine) : machine :=
  match m.Queue with
  | [] => m
  | q :: rest =>
    if m.TimeLeft ≠ 0 then m
    else if okToQueue q all then
      match taskOf shop q with
      | none => m
      | some t => { m with CurrentTask := q, Queue := rest, TimeLeft := t.2 }
    else m

/-- One tick for one machine: dispatch decision, then advance. -/
def stepOne (shop : Shop) (all : List machine) (m : machine) : machine :=
  advanceOne (dispatchOne shop all m)

/-- All operations in completed lists. -/
def completedOps (ms : List machine) : List Operation :=
  ms.flatMap (fun m => m.CompletedTasks)

/-- Every queued operation names a task of the shop. -/
def QueuesValid (shop : Shop) (ms : List machine) : Prop :=
  ∀ m ∈ ms, ∀ q ∈ m.Queue, taskOf shop q ≠ none

/-- Duration of the task an operation refers to (0 when it names no task). -/
def duration (shop : Shop) (o : Operation) : Int :=
  match taskOf shop o with
  | none => 0
  | some t => t.2

/-- A machine between two ticks: idle with the sentinel `(0,0)` as current task, or busy with
a proper current task and positive time left. -/
def MachineOK (m : machine) : Prop :=
  (m.TimeLeft = 0 ∧ m.CurrentTask = (0, 0)) ∨ (0 < m.TimeLeft ∧ m.CurrentTask ≠ (0, 0))

/-- The machine does something in this tick: it is busy, or it starts its queue head. -/
def acts (all : List machine) (m : machine) : Bool :=
  decide (0 < m.TimeLeft) ||
    (match m.Queue with
     | [] => false
     | q :: _ => okToQueue q all)

/-- The five ways one machine can pass through one tick. -/
inductive StepCase (shop : Shop) (all : List machine) (m : machine) : machine → Prop where
  | idle (h0 : m.TimeLeft = 0) (hc : m.CurrentTask = (0, 0))
      (hq : m.Queue = [] ∨ ∃ q rest, m.Queue = q :: rest ∧ okToQueue q all = false) :
      StepCase shop all m m
  | run (h1 : 1 < m.TimeLeft) (hc : m.CurrentTask ≠ (0, 0)) :
      StepCase shop all m { m with TimeLeft := m.TimeLeft - 1 }
  | finish (h1 : m.TimeLeft = 1) (hc : m.CurrentTask ≠ (0, 0)) :
      StepCase shop all m
        { m with TimeLeft := 0, CompletedTasks := m.CompletedTasks ++ [m.CurrentTask],
                 CurrentTask := (0, 0) }
  | start (q : Operation) (rest : List Operation) (h0 : m.TimeLeft = 0)
      (hc : m.CurrentTask = (0, 0)) (hq : m.Queue = q :: rest) (hne : q ≠ (0, 0))
      (hok : okToQueue q all = true) (hd : 1 < duration shop q) :
      StepCase shop all m
        { m with CurrentTask := q, Queue := rest, TimeLeft := duration shop q - 1 }
  | startFinish (q : Operation) (rest : List Operation) (h0 : m.TimeLeft = 0)
      (hc : m.CurrentTask = (0, 0)) (hq : m.Queue = q :: rest) (hne : q ≠ (0, 0))
      (hok : okToQueue q all = true) (hd : duration shop q = 0 ∨ duration shop q = 1) :
      StepCase shop all m
        { m with CurrentTask := (0, 0), Queue := rest, TimeLeft := 0,
                 CompletedTasks := m.CompletedTasks ++ [q] }

/-- The operation a busy machine is executing. -/
def current (m : machine) : List Operation :=
  if 0 < m.TimeLeft then [m.CurrentTask] else []

/-- All operations a machine holds: queued, executing, completed. -/
def opsOf (m : machine) : List Operation :=
  m.Queue ++ (current m ++ m.CompletedTasks)

/-- Ticks an operation occupies its machine: its duration, and one tick for duration 0. -/
def cost (shop : Shop) (o : Operation) : Int :=
  max 1 (duration shop o)

/-- Ticks of work a machine still has to do. -/
def work (shop : Shop) (m : machine) : Int :=
  (m.Queue.map (cost shop)).sum + m.TimeLeft

/-- Sum of the durations a machine still has to serve. -/
def backlog (shop : Shop) (m : machine) : Int :=
  (m.Queue.map (duration shop)).sum + m.TimeLeft

/-- Static facts about a schedule: operations are distinct, name tasks of non-negative
duration, are not the sentinel, and each operation follows its predecessor in the job. -/
structure SchedOK (shop : Shop) (sched : List Operation) : Prop where
  nodup : sched.Nodup
  task : ∀ o ∈ sched, ∃ t, taskOf shop o = some t ∧ 0 ≤ t.2
  ne_zero : ∀ o ∈ sched, o ≠ (0, 0)
  pred : ∀ (i : Nat) (o : Operation), sched[i]? = some o → o.2 ≠ 1 →
    ∃ i', i' < i ∧ sched[i']? = some (o.1, o.2 - 1)

/-- Invariant of the tick loop, at the loop head. -/
structure Inv (sched : List Operation) (ms : List machine) : Prop where
  mach : ∀ m ∈ ms, MachineOK m
  queue : ∀ m ∈ ms, m.Queue.Sublist sched
  perm : (ms.flatMap opsOf).Perm sched
  prec : ∀ m ∈ ms, ∀ o ∈ current m ++ m.CompletedTasks, o.2 ≠ 1 →
    (o.1, o.2 - 1) ∈ completedOps ms

/-- Ticks of work all machines together still have to do. -/
def totalWork (shop : Shop) (ms : List machine) : Int :=
  (ms.map (work shop)).sum

/-- Machine index of the task an operation refers to (0 when it names no task). -/
def machineOf (shop : Shop) (o : Operation) : Int :=
  match taskOf shop o with
  | none => 0
  | some t => t.1

/-- The machines as the queue-filling loop leaves them: machine `k` queues, in schedule
order, the operations whose task runs on `k`. -/
def initialMachines (shop : Shop) (sched : List Operation) : List machine :=
  (List.range shop.Machines.toNat).map
    (fun (k : Nat) => { emptyMachine with
      Queue := sched.filter (fun o => decide (machineOf shop o = (k : Int))) })

/-- Every task names a machine of the shop. -/
def MachinesInRange (shop : Shop) : Prop :=
  ∀ job ∈ shop.Jobs, ∀ t ∈ job, 0 ≤ t.1 ∧ t.1 < shop.Machines

instance (shop : Shop) : Decidable (MachinesInRange shop) := by
  unfold MachinesInRange; exact inferInstance

/-- Every task has a non-negative duration. -/
def DurationsNonneg (shop : Shop) : Prop :=
  ∀ job ∈ shop.Jobs, ∀ t ∈ job, 0 ≤ t.2

instance (shop : Shop) : Decidable (DurationsNonneg shop) := by
  unfold DurationsNonneg; exact inferInstance

/-- Every task has a duration of at least one tick. -/
def DurationsPos (shop : Shop) : Prop :=
  ∀ job ∈ shop.Jobs, ∀ t ∈ job, 1 ≤ t.2

instance (shop : Shop) : Decidable (DurationsPos shop) := by
  unfold DurationsPos; exact inferInstance

/-- Work still to do before the tick loop starts, as a fuel bound. -/
def fuelBound (shop : Shop) (gene : Gene) : Nat :=
  (totalWork shop (initialMachines shop (decode gene))).toNat + 1

/-- The shop of the C6 counterexample: one machine, one job whose first task has duration -1. -/
def negativeShop : Shop := { Jobs := [[(0, -1), (0, 1)]], Machines := 1 }

/-- The state in which the simulation of `negativeShop` is stuck. -/
def stuckMachines : List machine :=
  [{ CompletedTasks := [], CurrentTask := (1, 1), Queue := [(1, 2)], TimeLeft := -1 }]

/-- The machines of `negativeShop` for the gene `[1, 1]` before the tick loop. -/
def negativeStart : List machine :=
  [{ CompletedTasks := [], CurrentTask := (0, 0), Queue := [(1, 1), (1, 2)], TimeLeft := 0 }]

/-- Sum of the durations of all tasks of the shop assigned to machine `m`. -/
def machineLoad (shop : Shop) (m : Int) : Int :=
  ((shop.Jobs.flatten.filter (fun t => decide (t.1 = m))).map (fun t => t.2)).sum

/-- The operations of the jobs `jobs`, numbered from job identifier `j` on. -/
def opsFrom : Int → List Job → List Operation
  | _, [] => []
  | j, job :: rest =>
    (List.range job.length).map (fun (n : Nat) => (j, (n : Int) + 1)) ++ opsFrom (j + 1) rest

/-- The task an operation names when the jobs `jobs` are numbered from `j` on. -/
def taskFrom (j : Int) (jobs : List Job) (o : Operation) : Option Task :=
  match index jobs (o.1 - j) with
  | none => none
  | some job => index job (o.2 - 1)

/-- Contribution of a task to the load of machine `m`. -/
def loadOn (m : Int) : Option Task → Int
  | none => 0
  | some t => if t.1 = m then t.2 else 0

/-- The machines at the head of the `k`-th iteration of the tick loop (`none` when the loop
has returned or panicked before). -/
def stateAt (shop : Shop) (ms0 : List machine) : Nat → Option (List machine)
  | 0 => some ms0
  | k + 1 =>
    match stateAt shop ms0 k with
    | none => none
    | some ms => if allDone ms then none else tick shop ms

/-- Operation `o` is the current task of a machine or in a completed list. -/
def started (ms : List machine) (o : Operation) : Prop :=
  (∃ m ∈ ms, m.CurrentTask = o) ∨ o ∈ completedOps ms

/-- Every queued operation belongs to the schedule. -/
def QueuesIn (sched : List Operation) (ms : List machine) : Prop :=
  ∀ m ∈ ms, ∀ q ∈ m.Queue, q ∈ sched

/-- Two chained tasks of one job on two machines (worked example 8). -/
def chainShop : Shop := { Jobs := [[(0, 2), (1, 3)]], Machines := 2 }

/-- The machines of `chainShop` for the gene `[1, 1]` before the tick loop. -/
def chainStart : List machine :=
  [{ CompletedTasks := [], CurrentTask := (0, 0), Queue := [(1, 1)], TimeLeft := 0 },
   { CompletedTasks := [], CurrentTask := (0, 0), Queue := [(1, 2)], TimeLeft := 0 }]

/-- The machines of `chainShop` for the gene `[1, 1]` at the head of iteration 3. -/
def chainAt3 : List machine :=
  [{ CompletedTasks := [(1, 1)], CurrentTask := (0, 0), Queue := [], TimeLeft := 0 },
   { CompletedTasks := [], CurrentTask := (1, 2), Queue := [], TimeLeft := 2 }]

/-- The maximum task duration of the shop (0 for a shop without tasks). -/
def maxDuration (shop : Shop) : Int :=
  (shop.Jobs.flatten.map (fun t => t.2)).foldr max 0

/-- Every job has exactly one task. -/
def SingleTaskJobs (shop : Shop) : Prop :=
  ∀ job ∈ shop.Jobs, job.length = 1

instance (shop : Shop) : Decidable (SingleTaskJobs shop) := by
  unfold SingleTaskJobs; exact inferInstance

/-- No two tasks of the shop run on the same machine. -/
def DistinctMachines (shop : Shop) : Prop :=
  (shop.Jobs.flatten.map (fun t => t.1)).Nodup

instance (shop : Shop) : Decidable (DistinctMachines shop) := by
  unfold DistinctMachines; exact inferInstance

/-- The job identifiers `1, ..., len(Jobs)`. -/
def jobIds (shop : Shop) : List Int :=
  (List.range shop.Jobs.length).map (fun (k : Nat) => (k : Int) + 1)

/-- Machine index of an optional task. -/
def machineOfTask : Option Task → Int
  | none => 0
  | some t => t.1

/-- Two independent single-task jobs on distinct machines (worked example 7). -/
def parallelShop : Shop := { Jobs := [[(0, 3)], [(1, 4)]], Machines := 2 }

/-- Sum of the durations of all tasks of all jobs. -/
def totalDuration (shop : Shop) : Int :=
  (shop.Jobs.flatten.map (fun t => t.2)).sum

/-- Ticks an optional task occupies its machine. -/
def costOfTask : Option Task → Int
  | none => 1
  | some t => max 1 t.2

/-- One job with a single task of duration 5 (worked example 6). -/
def unitShop : Shop := { Jobs := [[(0, 5)]], Machines := 1 }

/-! ## Definitions for the ranges of the random positions and the dispatch order -/

/-- The two positions drawn by `Mutate` in its swap branch (lines 169-170). -/
def swapDraws (length : Int) (r1 r2 : Nat) : Option (Int × Int) :=
  match Intn (length - 1) r1 with
  | none => none
  | some i1 =>
    match Intn (length - 1) r2 with
    | none => none
    | some i2 => some (i1, i2)

/-- The dispatch loop with the machines visited in the order `order` instead of `0, 1, ...`. -/
def dispatchIn (shop : Shop) (order : List Nat) (machines : List machine) :
    Option (List machine) :=
  order.foldlM (dispatchAt shop) machines

/-- Spec wording: the dispatch decisions of all machines, each evaluated on the state as of
the start of the tick. -/
def dispatchAll (shop : Shop) (machines : List machine) : List machine :=
  machines.map (dispatchOne shop machines)

/-- The machines `acc` after the indices `visited` have been dispatched, starting from `ms`. -/
def Visited (shop : Shop) (ms : List machine) (visited : List Nat) (acc : List machine) : Prop :=
  acc.length = ms.length ∧
  ∀ i : Nat, acc[i]? = if i ∈ visited then (ms[i]?).map (dispatchOne shop ms) else ms[i]?

/-! ## The evolution loop: `initialisePopulation`, `main`, `shuffle` (lines 56-70, 182-226) -/

/-- Data from the real question. -/
def dataset : Shop :=
  { Jobs := [[(0, 1), (2, 1), (2, 3), (3, 3)],
             [(0, 1), (3, 2), (0, 2), (1, 3), (4, 1)],
             [(1, 3), (2, 4), (3, 1), (4, 4)],
             [(2, 1), (3, 1), (0, 1), (4, 1)]],
    Machines := 5 }

/-- GeneAndFitness ties a gene to fitness. The pointer `DNA *Gene` is modelled by the gene it
points to: a gene is written only while it is built (by `shuffle` and `Mutate`), before it is
stored in a population entry. -/
structure GeneAndFitness where
  DNA : Gene
  Fitness : Int
deriving DecidableEq, Repr

/-- Result of a computation that may panic or exceed its iteration bounds. -/
inductive Result (α : Type) where
  | done (a : α)
  | panic
  | running
deriving DecidableEq, Repr

/-- The gene built by the loops of `initialisePopulation` (lines 59-64): job identifier
`jobIndex+1` appended once per task, jobs in shop order. -/
def canonicalGene (shop : Shop) : Gene :=
  shop.Jobs.enum.foldl
    (fun gene p => (List.range p.2.length).foldl (fun g _ => g ++ [(p.1 : Int) + 1]) gene) []

/-- The loop of `shuffle` from counter `i` downwards; `draws i` is the generator outcome used
when the counter is `i`. -/
def shuffleFrom (draws : Nat → Nat) : Nat → Gene → Option Gene
  | 0, g => some g
  | i + 1, g =>
    match Intn ((i : Int) + 1) (draws (i + 1)) with
    | none => none
    | some idx =>
      match index g (i : Int), index g idx with
      | some x, some y => shuffleFrom draws i ((g.set i y).set idx.toNat x)
      | _, _ => none

/-- The function `shuffle`. -/
def shuffle (g : Gene) (draws : Nat → Nat) : Option Gene :=
  shuffleFrom draws g.length g

/-- The loop of `initialisePopulation` with `n` iterations left, `k` members built. -/
def initialiseFrom (fuel : Nat) (shop : Shop) (draws : Nat → Nat → Nat) :
    Nat → Nat → List GeneAndFitness → Result (List GeneAndFitness)
  | 0, _, population => Result.done population
  | n + 1, k, population =>
    match shuffle (canonicalGene shop) (draws k) with
    | none => Result.panic
    | some gene =>
      match totalTime fuel shop gene with
      | Outcome.value fitness =>
        initialiseFrom fuel shop draws n (k + 1) (population ++ [{ DNA := gene, Fitness := fitness }])
      | Outcome.panic => Result.panic
      | Outcome.running => Result.running

/-- The function `initialisePopulation`; `draws k` are the generator outcomes of the shuffle
of member `k`, `fuel` bounds the tick loop of each `totalTime` call. -/
def initialisePopulation (fuel : Nat) (shop : Shop) (populationCount : Int)
    (draws : Nat → Nat → Nat) : Result (List GeneAndFitness) :=
  initialiseFrom fuel shop draws populationCount.toNat 0 []

/-- The sum computed by the first loop of a generation (lines 186-193). -/
def sumFitness (previousGeneration : List GeneAndFitness) : Int :=
  previousGeneration.foldl (fun sum x => sum + x.Fitness) 0

/-- The test `float64(Fitness) <= mean - 0.7` with `mean = sum / len`, in exact rational
arithmetic. -/
def belowMean (sum : Int) (len : Nat) (fitness : Int) : Prop :=
  (fitness : ℚ) ≤ (sum : ℚ) / (len : ℚ) - 7 / 10

instance (sum : Int) (len : Nat) (fitness : Int) : Decidable (belowMean sum len fitness) := by
  unfold belowMean; exact inferInstance

/-- The selection loop (lines 196-203): survivors in population order, at most 50. -/
def select (previousGeneration : List GeneAndFitness) : List GeneAndFitness :=
  previousGeneration.foldl
    (fun nextGeneration x =>
      if belowMean (sumFitness previousGeneration) previousGeneration.length x.Fitness then
        if nextGeneration.length < 50 then nextGeneration ++ [x] else nextGeneration
      else nextGeneration)
    []

/-- The parents `nextGeneration[i]` and `nextGeneration[i*2]` of iteration `i`. -/
def parentsAt (nextGeneration : List GeneAndFitness) (i : Nat) :
    Option (GeneAndFitness × GeneAndFitness) :=
  match nextGeneration[i]?, nextGeneration[i * 2]? with
  | some p1, some p2 => some (p1, p2)
  | _, _ => none

/-- The body of the breed loop (lines 205-210) for iteration `i`; `draws` are the generator
outcomes of `Crossover` and `Mutate` in this iteration. -/
def breedBody (fuel : Nat) (shop : Shop) (draws : Nat → Nat) (i : Nat)
    (nextGeneration : List GeneAndFitness) : Result (List GeneAndFitness) :=
  match parentsAt nextGeneration i with
  | none => Result.panic
  | some (p1, p2) =>
    match Crossover p1.DNA p2.DNA (draws 0) (draws 1) with
    | none => Result.panic
    | some newChild =>
      match Mutate newChild (draws 2) (draws 3) (draws 4) with
      | none => Result.panic
      | some newChild =>
        match totalTime fuel shop newChild with
        | Outcome.value fitness =>
          Result.done (nextGeneration ++ [{ DNA := newChild, Fitness := fitness }])
        | Outcome.panic => Result.panic
        | Outcome.running => Result.running

/-- The breed loop (lines 204-211) from iteration `i` on, for at most `steps` evaluations of
the loop condition `i < len(nextGeneration)/2`. -/
def breedLoop (fuel : Nat) (shop : Shop) (draws : Nat → Nat → Nat) :
    Nat → Nat → List GeneAndFitness → Result (List GeneAndFitness)
  | 0, _, _ => Result.running
  | steps + 1, i, nextGeneration =>
    if i < nextGeneration.length / 2 then
      match breedBody fuel shop (draws i) i nextGeneration with
      | Result.done next => breedLoop fuel shop draws steps (i + 1) next
      | Result.panic => Result.panic
      | Result.running => Result.running
    else Result.done nextGeneration

/-- One generation of the loop of `main` (lines 186-213): select, breed, replace. -/
def generation (fuel steps : Nat) (shop : Shop) (draws : Nat → Nat → Nat)
    (previousGeneration : List GeneAndFitness) : Result (List GeneAndFitness) :=
  breedLoop fuel shop draws steps 0 (select previousGeneration)

/-- The population at the start of generation `g + 1` of the loop of `main`, for the
population `population` at the start of generation 1; `draws g` are the generator outcomes of
generation `g + 1`. -/
def evolve (fuel steps : Nat) (shop : Shop) (draws : Nat → Nat → Nat → Nat) :
    Nat → List GeneAndFitness → Result (List GeneAndFitness)
  | 0, population => Result.done population
  | g + 1, population =>
    match evolve fuel steps shop draws g population with
    | Result.done previousGeneration => generation fuel steps shop (draws g) previousGeneration
    | Result.panic => Result.panic
    | Result.running => Result.running

/-! ## Specification-level definitions for the evolution loop -/

/-- The canonical gene of the jobs `jobs`, numbered from `j` on. -/
def geneFrom : Int → List Job → Gene
  | _, [] => []
  | j, job :: rest => List.replicate job.length j ++ geneFrom (j + 1) rest

/-- A number of loop iterations that suffices for `totalTime` on every valid gene: one more
than the ticks of work of all tasks of the shop. -/
def workBound (shop : Shop) : Nat :=
  ((shop.Jobs.flatten.map (fun (t : Task) => max 1 t.2)).sum).toNat + 1

/-- A shop whose only task names machine 0 although the shop has no machine. -/
def noMachineShop : Shop := { Jobs := [[(0, 1)]], Machines := 0 }

/-- A population entry is well formed for `shop`: its gene satisfies the occurrence-count
invariant, has at least three values, and its fitness is the makespan `totalTime` returns. -/
def WellFormed (shop : Shop) (m : GeneAndFitness) : Prop :=
  ValidGene shop m.DNA ∧ 3 ≤ m.DNA.length ∧
    ∃ fuel : Nat, totalTime fuel shop m.DNA = Outcome.value m.Fitness

/-- The pool at the head of iteration `i` of the breed loop started on `pool` (`none` when
the loop has ended before). -/
def breedStateAt (fuel : Nat) (shop : Shop) (draws : Nat → Nat → Nat)
    (pool : List GeneAndFitness) : Nat → Option (List GeneAndFitness)
  | 0 => some pool
  | i + 1 =>
    match breedStateAt fuel shop draws pool i with
    | none => none
    | some next =>
      if i < next.length / 2 then
        match breedBody fuel shop (draws i) i next with
        | Result.done next' => some next'
        | Result.panic => none
        | Result.running => none
      else none

/-- A pool of four well-formed entries for the shop `example_`. -/
def examplePool : List GeneAndFitness :=
  [{ DNA := [1, 1, 2, 2, 3, 1, 2, 3], Fitness := 9 },
   { DNA := [1, 1, 2, 2, 3, 1, 2, 3], Fitness := 9 },
   { DNA := [1, 1, 2, 2, 3, 1, 2, 3], Fitness := 9 },
   { DNA := [1, 1, 2, 2, 3, 1, 2, 3], Fitness := 9 }]

/-- Two well-formed entries for the shop `dataset`. -/
def datasetPool : List GeneAndFitness :=
  [{ DNA := [1, 1, 1, 2, 2, 2, 2, 2, 3, 3, 3, 3, 4, 4, 4, 4, 1], Fitness := 22 },
   { DNA := [1, 1, 1, 1, 2, 2, 2, 2, 2, 3, 3, 3, 3, 4, 4, 4, 4], Fitness := 28 }]

/-- A population of 50 for `dataset`: 26 members of fitness 22, then 24 of fitness 28. -/
def skewedPopulation : List GeneAndFitness :=
  List.replicate 26
    { DNA := [1, 1, 1, 2, 2, 2, 2, 2, 3, 3, 3, 3, 4, 4, 4, 4, 1], Fitness := 22 } ++
  List.replicate 24
    { DNA := [1, 1, 1, 1, 2, 2, 2, 2, 2, 3, 3, 3, 3, 4, 4, 4, 4], Fitness := 28 }

/-- Shuffle draws that give `skewedPopulation`: all zero for the first 26 members, then the
draws that leave the canonical gene unchanged. -/
def skewedDraws (k i : Nat) : Nat := if k < 26 then 0 else i - 1

/-! # Theorems -/

/-! ## Crossover -/

theorem removeFirstFrom_eq (x : Int) (p2 : List Int) :
    ∀ (fuel i : Nat), p2.length ≤ i + fuel →
      removeFirstFrom x p2 fuel i = p2.take i ++ (p2.drop i).erase x := by
  intro fuel
  induction fuel with
  | zero =>
    intro i h
    have h1 : p2.length ≤ i := by omega
    simp [removeFirstFrom, List.drop_eq_nil_of_le h1, List.take_of_length_le h1]
  | succ n ih =>
    intro i h
    unfold removeFirstFrom
    cases hy : p2[i]? with
    | none =>
      have h1 : p2.length ≤ i := List.getElem?_eq_none_iff.mp hy
      simp [List.drop_eq_nil_of_le h1, List.take_of_length_le h1]
    | some y =>
      obtain ⟨hi, hyi⟩ := List.getElem?_eq_some_iff.mp hy
      have hd : p2.drop i = y :: p2.drop (i + 1) := by
        rw [← hyi]; exact List.drop_eq_getElem_cons hi
      have ht : p2.take (i + 1) = p2.take i ++ [y] := by
        rw [List.take_succ, hy]; rfl
      by_cases hx : y = x
      · subst hx
        simp [hd]
      · simp only [hx, if_false]
        rw [ih (i + 1) (by omega), hd, ht]
        have : (y == x) = false := by simpa using hx
        simp [List.erase_cons, this]

theorem removeFirst_eq_erase (p2 : List Int) (x : Int) : removeFirst p2 x = p2.erase x := by
  unfold removeFirst
  rw [removeFirstFrom_eq x p2 p2.length 0 (by omega)]
  simp

theorem deleteFirstOccurrence_eq_erase (l : List Int) (x : Int) :
    deleteFirstOccurrence l x = l.erase x := by
  induction l with
  | nil => rfl
  | cons y ys ih =>
    by_cases h : y = x
    · subst h; simp [deleteFirstOccurrence]
    · have : (y == x) = false := by simpa using h
      simp [deleteFirstOccurrence, h, ih, List.erase_cons, this]

theorem foldl_removeFirst_eq_diff (sub b : List Int) : sub.foldl removeFirst b = b.diff sub := by
  rw [List.diff_eq_foldl]
  congr 1
  funext p x
  exact removeFirst_eq_erase p x

theorem deleteEach_eq_diff (b sub : List Int) : deleteEach b sub = b.diff sub := by
  unfold deleteEach
  rw [List.diff_eq_foldl]
  congr 1
  funext p x
  exact deleteFirstOccurrence_eq_erase p x

theorem count_diff_eq (j : Int) (t : List Int) :
    ∀ l : List Int, (l.diff t).count j = l.count j - t.count j := by
  induction t with
  | nil => intro l; simp
  | cons x t ih =>
    intro l
    rw [List.diff_cons, ih, List.count_erase, List.count_cons]
    by_cases h : x = j
    · subst h; simp; omega
    · have : (x == j) = false := by simpa using h
      simp [this]

theorem cutPoints_eq (L : Nat) (r1 r2 : Nat) (h : 3 ≤ L) :
    cutPoints (L : Int) r1 r2 =
      some (((min (r1 % (L - 2)) (r2 % (L - 2)) + 1 : Nat) : Int),
            ((max (r1 % (L - 2)) (r2 % (L - 2)) + 1 : Nat) : Int)) := by
  have hpos : ¬ ((L : Int) - 2 ≤ 0) := by omega
  have e : ((L : Int) - 2) = ((L - 2 : Nat) : Int) := by omega
  unfold cutPoints Intn
  simp only [hpos, if_false]
  rw [e]
  have e1 : ((r1 : Int) % ((L - 2 : Nat) : Int)) = ((r1 % (L - 2) : Nat) : Int) := by
    push_cast; rfl
  have e2 : ((r2 : Int) % ((L - 2 : Nat) : Int)) = ((r2 % (L - 2) : Nat) : Int) := by
    push_cast; rfl
  rw [e1, e2]
  rcases Nat.lt_or_ge (r2 % (L - 2)) (r1 % (L - 2)) with hlt | hge
  · have : ((r1 % (L - 2) : Nat) : Int) + 1 > ((r2 % (L - 2) : Nat) : Int) + 1 := by omega
    simp only [this, if_true]
    rw [min_eq_right (le_of_lt hlt), max_eq_left (le_of_lt hlt)]
    push_cast; rfl
  · have : ¬ (((r1 % (L - 2) : Nat) : Int) + 1 > ((r2 % (L - 2) : Nat) : Int) + 1) := by omega
    simp only [this, if_false]
    rw [min_eq_left hge, max_eq_right hge]
    push_cast; rfl

theorem slice_eq {α : Type} (l : List α) (s1 s2 : Nat) (h1 : s1 ≤ s2) (h2 : s2 ≤ l.length) :
    slice l (s1 : Int) (s2 : Int) = some ((l.take s2).drop s1) := by
  unfold slice
  have : (0 : Int) ≤ (s1 : Int) ∧ (s1 : Int) ≤ (s2 : Int) ∧ (s2 : Int) ≤ (l.length : Int) := by
    omega
  simp [this]

theorem Crossover_eq (a b : Gene) (r1 r2 : Nat) (ha : 3 ≤ a.length) :
    Crossover a b r1 r2 =
      some (b.diff ((a.take (max (r1 % (a.length - 2)) (r2 % (a.length - 2)) + 1)).drop
              (min (r1 % (a.length - 2)) (r2 % (a.length - 2)) + 1)) ++
            (a.take (max (r1 % (a.length - 2)) (r2 % (a.length - 2)) + 1)).drop
              (min (r1 % (a.length - 2)) (r2 % (a.length - 2)) + 1)) := by
  unfold Crossover
  simp only
  rw [cutPoints_eq a.length r1 r2 ha]
  simp only
  have hm : r1 % (a.length - 2) < a.length - 2 := Nat.mod_lt _ (by omega)
  have hm2 : r2 % (a.length - 2) < a.length - 2 := Nat.mod_lt _ (by omega)
  have hmax : max (r1 % (a.length - 2)) (r2 % (a.length - 2)) < a.length - 2 := max_lt hm hm2
  rw [slice_eq a _ _ (by
      have := min_le_max (a := r1 % (a.length - 2)) (b := r2 % (a.length - 2)); omega)
    (by omega)]
  simp only
  rw [foldl_removeFirst_eq_diff]

/-- C3 (crossover structure). For `a` of length at least 3, any `b` and any draws, the cut
points satisfy `s1 ≤ s2` and `Crossover a b = r ++ a[s1:s2]`, where `r` is obtained from `b`
by deleting, for each value of `a[s1:s2]` from left to right, its first remaining occurrence;
`r` keeps the relative order of `b`. The copied substring is the tail of the child. -/
theorem Crossover_structure (a b : Gene) (r1 r2 : Nat) (ha : 3 ≤ a.length) :
    ∃ s1 s2 : Nat,
      cutPoints (a.length : Int) r1 r2 = some ((s1 : Int), (s2 : Int)) ∧ s1 ≤ s2 ∧
      Crossover a b r1 r2 =
        some (deleteEach b ((a.take s2).drop s1) ++ (a.take s2).drop s1) ∧
      (deleteEach b ((a.take s2).drop s1)).Sublist b := by
  refine ⟨min (r1 % (a.length - 2)) (r2 % (a.length - 2)) + 1,
    max (r1 % (a.length - 2)) (r2 % (a.length - 2)) + 1, cutPoints_eq _ _ _ ha, ?_, ?_, ?_⟩
  · have := min_le_max (a := r1 % (a.length - 2)) (b := r2 % (a.length - 2)); omega
  · rw [Crossover_eq a b r1 r2 ha, deleteEach_eq_diff]
  · rw [deleteEach_eq_diff]; exact List.diff_sublist _ _

theorem Crossover_structure_witness :
    ∃ s1 s2 : Nat,
      cutPoints (([1, 2, 3, 1, 2, 3] : Gene).length : Int) 0 2 = some ((s1 : Int), (s2 : Int)) ∧
      s1 ≤ s2 ∧
      Crossover [1, 2, 3, 1, 2, 3] [3, 3, 2, 2, 1, 1] 0 2 =
        some (deleteEach [3, 3, 2, 2, 1, 1] ((([1, 2, 3, 1, 2, 3] : Gene).take s2).drop s1) ++
          (([1, 2, 3, 1, 2, 3] : Gene).take s2).drop s1) ∧
      (deleteEach [3, 3, 2, 2, 1, 1] ((([1, 2, 3, 1, 2, 3] : Gene).take s2).drop s1)).Sublist
        [3, 3, 2, 2, 1, 1] :=
  Crossover_structure [1, 2, 3, 1, 2, 3] [3, 3, 2, 2, 1, 1] 0 2 (by decide)

/-- C2 (crossover composition invariant). For two genes `a`, `b` of equal length at least 3
that contain every job identifier equally often, and for every pair of draws, `Crossover a b`
returns a child of the same length as the parents that contains every job identifier exactly
as often as each parent. -/
theorem Crossover_composition (a b : Gene) (r1 r2 : Nat) (hlen : a.length = b.length)
    (ha : 3 ≤ a.length) (hcount : ∀ j : Int, a.count j = b.count j) :
    ∃ c : Gene, Crossover a b r1 r2 = some c ∧ c.length = a.length ∧ c.length = b.length ∧
      ∀ j : Int, c.count j = a.count j ∧ c.count j = b.count j := by
  refine ⟨_, Crossover_eq a b r1 r2 ha, ?_⟩
  set sub := (a.take (max (r1 % (a.length - 2)) (r2 % (a.length - 2)) + 1)).drop
      (min (r1 % (a.length - 2)) (r2 % (a.length - 2)) + 1) with hsub
  have hsl : sub.Sublist a := (List.drop_sublist _ _).trans (List.take_sublist _ _)
  have hc : ∀ j : Int, (b.diff sub ++ sub).count j = a.count j := by
    intro j
    have h1 : sub.count j ≤ a.count j := hsl.count_le j
    rw [List.count_append, count_diff_eq, ← hcount j]
    omega
  have hperm : (b.diff sub ++ sub).Perm a := List.perm_iff_count.mpr hc
  refine ⟨hperm.length_eq, hperm.length_eq.trans hlen, fun j => ⟨hc j, (hc j).trans (hcount j)⟩⟩

theorem Crossover_composition_witness :
    ∃ c : Gene, Crossover [1, 2, 3, 1, 2, 3] [3, 3, 2, 2, 1, 1] 0 2 = some c ∧
      c.length = ([1, 2, 3, 1, 2, 3] : Gene).length ∧
      c.length = ([3, 3, 2, 2, 1, 1] : Gene).length ∧
      ∀ j : Int, c.count j = ([1, 2, 3, 1, 2, 3] : Gene).count j ∧
        c.count j = ([3, 3, 2, 2, 1, 1] : Gene).count j :=
  Crossover_composition [1, 2, 3, 1, 2, 3] [3, 3, 2, 2, 1, 1] 0 2 (by decide) (by decide)
    (by
      intro j
      by_cases h1 : j = 1
      · subst h1; decide
      by_cases h2 : j = 2
      · subst h2; decide
      by_cases h3 : j = 3
      · subst h3; decide
      have e1 : ((1 : Int) == j) = false := by simpa using Ne.symm h1
      have e2 : ((2 : Int) == j) = false := by simpa using Ne.symm h2
      have e3 : ((3 : Int) == j) = false := by simpa using Ne.symm h3
      simp [List.count_cons, e1, e2, e3])

/-! ## Mutate -/

theorem Intn_eq (n : Nat) (raw : Nat) (h : 0 < n) :
    Intn (n : Int) raw = some (((raw % n : Nat)) : Int) := by
  unfold Intn
  have : ¬ ((n : Int) ≤ 0) := by omega
  simp only [this, if_false]
  push_cast; rfl

theorem index_natCast {α : Type} (l : List α) (i : Nat) : index l (i : Int) = l[i]? := by
  unfold index
  have : ¬ ((i : Int) < 0) := by omega
  simp [this]

theorem count_swap (g : List Int) (i1 i2 : Nat) (h1 : i1 < g.length) (h2 : i2 < g.length)
    (j : Int) : ((g.set i1 g[i2]).set i2 g[i1]).count j = g.count j := by
  have hl : i2 < (g.set i1 g[i2]).length := by simpa using h2
  rw [List.count_set _ _ _ _ hl, List.count_set _ _ _ _ h1]
  have hp1 : 0 < g.count g[i1] := List.count_pos_iff.mpr (List.getElem_mem h1)
  have hp2 : 0 < g.count g[i2] := List.count_pos_iff.mpr (List.getElem_mem h2)
  rw [List.getElem_set]
  have q1 : g[i1] = j → 0 < g.count j := fun h => h ▸ hp1
  have q2 : g[i2] = j → 0 < g.count j := fun h => h ▸ hp2
  by_cases e : i1 = i2
  · subst e
    simp only [if_true]
    by_cases c : g[i1] = j
    · have := q1 c
      simp [c]
      omega
    · have : (g[i1] == j) = false := by simpa using c
      simp [this]
  · simp only [e, if_false]
    by_cases c1 : g[i1] = j <;> by_cases c2 : g[i2] = j
    · have := q1 c1
      simp [c1, c2]
      omega
    · have := q1 c1
      have : (g[i2] == j) = false := by simpa using c2
      simp [c1, this]
      omega
    · have := q2 c2
      have : (g[i1] == j) = false := by simpa using c1
      simp [c2, this]
    · have : (g[i1] == j) = false := by simpa using c1
      have : (g[i2] == j) = false := by simpa using c2
      simp [*]

theorem Mutate_eq_swap (g : Gene) (r0 r1 r2 : Nat) (hg : 2 ≤ g.length) (h0 : r0 % 9 = 0)
    (h1 : r1 % (g.length - 1) < g.length) (h2 : r2 % (g.length - 1) < g.length) :
    Mutate g r0 r1 r2 =
      some ((g.set (r1 % (g.length - 1)) g[r2 % (g.length - 1)]).set (r2 % (g.length - 1))
        g[r1 % (g.length - 1)]) := by
  unfold Mutate
  have e9 : Intn 9 r0 = some (((r0 % 9 : Nat)) : Int) := Intn_eq 9 r0 (by decide)
  have en : ((g.length : Int) - 1) = ((g.length - 1 : Nat) : Int) := by omega
  rw [e9, en, Intn_eq _ r1 (by omega), Intn_eq _ r2 (by omega)]
  simp only [h0, index_natCast, Int.toNat_ofNat]
  rw [List.getElem?_eq_getElem h1, List.getElem?_eq_getElem h2]
  simp

theorem Mutate_eq_self (g : Gene) (r0 r1 r2 : Nat) (h0 : 1 ≤ r0 % 9) :
    Mutate g r0 r1 r2 = some g := by
  unfold Mutate
  have e9 : Intn 9 r0 = some (((r0 % 9 : Nat)) : Int) := Intn_eq 9 r0 (by decide)
  rw [e9]
  have : ¬ (((r0 % 9 : Nat) : Int) < 1) := by omega
  simp only [this, if_false]

/-- C10 (mutation locality). For a gene `g` of length at least 2 and every outcome of the
draws, `Mutate g` returns a gene of the same length that agrees with `g` outside the two drawn
positions `r1 % (len-1)` and `r2 % (len-1)`; when a swap happens the values at these two
positions are exchanged; every job identifier occurs as often as in `g`; and when the first
draw is one of `1..8` the result is `g` itself. -/
theorem Mutate_locality (g : Gene) (r0 r1 r2 : Nat) (hg : 2 ≤ g.length) :
    ∃ g' : Gene, Mutate g r0 r1 r2 = some g' ∧ g'.length = g.length ∧
      (∀ k : Nat, k ≠ r1 % (g.length - 1) → k ≠ r2 % (g.length - 1) → g'[k]? = g[k]?) ∧
      (r0 % 9 = 0 → g'[r1 % (g.length - 1)]? = g[r2 % (g.length - 1)]? ∧
        g'[r2 % (g.length - 1)]? = g[r1 % (g.length - 1)]?) ∧
      (∀ j : Int, g'.count j = g.count j) ∧
      (1 ≤ r0 % 9 → g' = g) := by
  have h1 : r1 % (g.length - 1) < g.length - 1 := Nat.mod_lt _ (by omega)
  have h2 : r2 % (g.length - 1) < g.length - 1 := Nat.mod_lt _ (by omega)
  by_cases h0 : r0 % 9 = 0
  · refine ⟨_, Mutate_eq_swap g r0 r1 r2 hg h0 (by omega) (by omega), by simp, ?_, ?_, ?_, ?_⟩
    · intro k hk1 hk2
      rw [List.getElem?_set_ne (Ne.symm hk2), List.getElem?_set_ne (Ne.symm hk1)]
    · intro _
      constructor
      · rw [List.getElem?_set]
        by_cases e : r2 % (g.length - 1) = r1 % (g.length - 1)
        · have hlt : r1 % (g.length - 1) < g.length := by omega
          simp [e, hlt]
        · simp only [e, if_false]
          rw [List.getElem?_set_self (by omega)]
          rw [List.getElem?_eq_getElem]
      · rw [List.getElem?_set_self (by simp; omega), List.getElem?_eq_getElem]
    · intro j
      exact count_swap g _ _ (by omega) (by omega) j
    · intro h; omega
  · refine ⟨g, Mutate_eq_self g r0 r1 r2 (by omega), rfl, fun _ _ _ => rfl, fun h => absurd h h0,
      fun _ => rfl, fun _ => rfl⟩

theorem Mutate_locality_witness :
    ∃ g' : Gene, Mutate [1, 2, 3] 0 0 1 = some g' ∧ g'.length = ([1, 2, 3] : Gene).length ∧
      (∀ k : Nat, k ≠ 0 % (([1, 2, 3] : Gene).length - 1) →
        k ≠ 1 % (([1, 2, 3] : Gene).length - 1) → g'[k]? = ([1, 2, 3] : Gene)[k]?) ∧
      (0 % 9 = 0 → g'[0 % (([1, 2, 3] : Gene).length - 1)]? =
          ([1, 2, 3] : Gene)[1 % (([1, 2, 3] : Gene).length - 1)]? ∧
        g'[1 % (([1, 2, 3] : Gene).length - 1)]? =
          ([1, 2, 3] : Gene)[0 % (([1, 2, 3] : Gene).length - 1)]?) ∧
      (∀ j : Int, g'.count j = ([1, 2, 3] : Gene).count j) ∧
      (1 ≤ 0 % 9 → g' = [1, 2, 3]) :=
  Mutate_locality [1, 2, 3] 0 0 1 (by decide)

/-! ## Decoding -/

theorem decodeStep_seenAfter (p : List Int) (s : List Operation) (x : Int) :
    decodeStep (seenAfter p, s) x = (seenAfter (p ++ [x]), s ++ [(x, (p.count x : Int) + 1)]) := by
  have hmap : ∀ v : Int, v = (p.count x : Int) + 1 →
      mapSet (seenAfter p) x v = seenAfter (p ++ [x]) := by
    intro v hv
    funext k
    by_cases hk : k = x
    · subst hk; simp [mapSet, seenAfter, List.count_append, hv]
    · have : (x == k) = false := by simpa using (Ne.symm hk)
      simp [mapSet, seenAfter, hk, List.count_append, List.count_cons, this]
  have hget : (seenAfter (p ++ [x]) x).getD 0 = (p.count x : Int) + 1 := by
    simp [seenAfter, List.count_append]
  unfold decodeStep
  by_cases hc : p.count x = 0
  · have h1 : seenAfter p x = none := by simp [seenAfter, hc]
    simp only [h1]
    rw [hmap 1 (by simp [hc]), hget]
  · have h1 : seenAfter p x = some (p.count x : Int) := by simp [seenAfter, hc]
    simp only [h1]
    rw [hmap _ rfl, hget]

theorem foldl_decodeStep (p : List Int) :
    (p.foldl decodeStep (fun _ => none, [])).1 = seenAfter p := by
  induction p using List.reverseRecOn with
  | nil => funext k; simp [seenAfter]
  | append_singleton p x ih =>
    rw [List.foldl_append, List.foldl_cons, List.foldl_nil]
    have : p.foldl decodeStep (fun _ => none, []) =
        (seenAfter p, (p.foldl decodeStep (fun _ => none, [])).2) := by
      rw [← ih]
    rw [this, decodeStep_seenAfter]

theorem decode_append_singleton (p : List Int) (x : Int) :
    decode (p ++ [x]) = decode p ++ [(x, (p.count x : Int) + 1)] := by
  unfold decode
  rw [List.foldl_append, List.foldl_cons, List.foldl_nil]
  have : p.foldl decodeStep (fun _ => none, []) =
      (seenAfter p, (p.foldl decodeStep (fun _ => none, [])).2) := by
    rw [← foldl_decodeStep]
  rw [this, decodeStep_seenAfter]

theorem decode_nil : decode [] = [] := rfl

theorem decode_length (gene : Gene) : (decode gene).length = gene.length := by
  induction gene using List.reverseRecOn with
  | nil => rfl
  | append_singleton p x ih => rw [decode_append_singleton]; simp [ih]

theorem decode_getElem? (gene : Gene) :
    ∀ i x, gene[i]? = some x →
      (decode gene)[i]? = some (x, (((gene.take (i + 1)).count x : Nat) : Int)) := by
  induction gene using List.reverseRecOn with
  | nil => intro i x h; simp at h
  | append_singleton p y ih =>
    intro i x h
    rw [decode_append_singleton]
    rcases Nat.lt_or_ge i p.length with hi | hi
    · rw [List.getElem?_append_left hi] at h
      rw [List.getElem?_append_left (by rw [decode_length]; exact hi), ih i x h]
      rw [List.take_append_of_le_length (by omega)]
    · have hi' : i = p.length := by
        have := (List.getElem?_eq_some_iff.mp h).1
        simp at this; omega
      subst hi'
      rw [List.getElem?_append_right (by rw [decode_length])] 
      simp at h
      subst h
      simp [decode_length, List.count_append, List.take_of_length_le]

theorem decode_count (gene : Gene) (j n : Int) :
    (decode gene).count (j, n) = if 1 ≤ n ∧ n ≤ (gene.count j : Int) then 1 else 0 := by
  induction gene using List.reverseRecOn with
  | nil =>
    have : ¬ (1 ≤ n ∧ n ≤ 0) := by omega
    simp [decode_nil, this]
  | append_singleton p x ih =>
    rw [decode_append_singleton, List.count_append, ih, List.count_singleton,
      List.count_append, List.count_singleton]
    by_cases hx : x = j
    · subst hx
      simp only [beq_self_eq_true, if_true]
      by_cases hn : n = (p.count x : Int) + 1
      · subst hn
        have h3 : ((x, (p.count x : Int) + 1) == (x, (p.count x : Int) + 1)) = true := by simp
        have h1 : ¬ (1 ≤ ((p.count x : Int) + 1) ∧ ((p.count x : Int) + 1) ≤ (p.count x : Int)) := by
          omega
        have h2 : (1 ≤ ((p.count x : Int) + 1) ∧
            ((p.count x : Int) + 1) ≤ ((p.count x + 1 : Nat) : Int)) := by omega
        rw [h3, if_neg h1, if_pos h2]
        rfl
      · have h3 : ((x, (p.count x : Int) + 1) == (x, n)) = false := by
          simp; omega
        rw [h3]
        by_cases h1 : 1 ≤ n ∧ n ≤ (p.count x : Int)
        · have h2 : (1 ≤ n ∧ n ≤ ((p.count x + 1 : Nat) : Int)) := by omega
          rw [if_pos h1, if_pos h2]; rfl
        · have h2 : ¬ (1 ≤ n ∧ n ≤ ((p.count x + 1 : Nat) : Int)) := by omega
          rw [if_neg h1, if_neg h2]; rfl
    · have h3 : ((x, (p.count x : Int) + 1) == (j, n)) = false := by
        simp; intro h; exact absurd h hx
      have h4 : (x == j) = false := by simpa using hx
      rw [h3, h4]
      simp

theorem index_eq_some {α : Type} (l : List α) (i : Int) (x : α) :
    index l i = some x ↔ 0 ≤ i ∧ l[i.toNat]? = some x := by
  unfold index
  by_cases h : i < 0
  · simp [h]
  · simp [h]; intro _; omega

theorem taskCount_of_valid (shop : Shop) (gene : Gene) (hv : ValidGene shop gene) (j : Int) :
    gene.count j = taskCount shop j := by
  unfold taskCount index
  by_cases h : j - 1 < 0
  · simp only [h, if_true]
    refine List.count_eq_zero.mpr ?_
    intro hj
    have := (hv.1 j hj).1
    omega
  · simp only [h, if_false]
    rcases Nat.lt_or_ge (j - 1).toNat shop.Jobs.length with hlt | hge
    · have h2 := hv.2 _ hlt
      have e : (((j - 1).toNat : Nat) : Int) + 1 = j := by omega
      rw [e] at h2
      rw [h2, List.getD_eq_getElem?_getD, List.getElem?_eq_getElem hlt]
      simp
    · rw [List.getElem?_eq_none_iff.mpr hge]
      refine List.count_eq_zero.mpr ?_
      intro hj
      have := (hv.1 j hj).2
      omega

theorem decode_increasing (gene : Gene) (i i' : Nat) (o o' : Operation) (hlt : i < i')
    (h : (decode gene)[i]? = some o) (h' : (decode gene)[i']? = some o') (hj : o.1 = o'.1) :
    o.2 < o'.2 := by
  have hi : i < gene.length := by
    have := (List.getElem?_eq_some_iff.mp h).1; rwa [decode_length] at this
  have hi' : i' < gene.length := by
    have := (List.getElem?_eq_some_iff.mp h').1; rwa [decode_length] at this
  rw [decode_getElem? gene i gene[i] (List.getElem?_eq_getElem hi)] at h
  rw [decode_getElem? gene i' gene[i'] (List.getElem?_eq_getElem hi')] at h'
  cases h; cases h'
  simp only at hj ⊢
  rw [← hj]
  have e : gene.take (i' + 1) = gene.take i' ++ [gene[i']] := by
    rw [List.take_succ, List.getElem?_eq_getElem hi']; rfl
  rw [e, List.count_append, ← hj]
  have := (List.take_sublist_take_left gene (show i + 1 ≤ i' by omega)).count_le gene[i]
  simp
  omega

/-- C4 (decoding). For every gene, the schedule built by `totalTime` has one operation per
position, the operation for position `i` is `(gene[i], n)` with `n` the number of occurrences
of `gene[i]` in `gene[0..i]`, and operations of one job appear with increasing task index.
For a gene satisfying the occurrence-count invariant the schedule contains the operation
`(j, n)` exactly once when `1 ≤ n ≤ taskCount j`, and not at all otherwise. -/
theorem decode_spec (shop : Shop) (gene : Gene) :
    (decode gene).length = gene.length ∧
    (∀ i x, gene[i]? = some x →
      (decode gene)[i]? = some (x, (((gene.take (i + 1)).count x : Nat) : Int))) ∧
    (∀ (i i' : Nat) (o o' : Operation), i < i' → (decode gene)[i]? = some o → (decode gene)[i']? = some o' →
      o.1 = o'.1 → o.2 < o'.2) ∧
    (ValidGene shop gene → ∀ j n : Int,
      (decode gene).count (j, n) = if 1 ≤ n ∧ n ≤ (taskCount shop j : Int) then 1 else 0) := by
  refine ⟨decode_length gene, decode_getElem? gene, ?_, ?_⟩
  · intro i i' o o' hlt h h' hj
    exact decode_increasing gene i i' o o' hlt h h' hj
  · intro hv j n
    rw [decode_count, taskCount_of_valid shop gene hv j]

theorem decode_spec_witness :
    ValidGene example_ [1, 1, 2, 2, 3, 1, 2, 3] ∧
    ∀ j n : Int, (decode [1, 1, 2, 2, 3, 1, 2, 3]).count (j, n) =
      if 1 ≤ n ∧ n ≤ (taskCount example_ j : Int) then 1 else 0 :=
  ⟨by decide, (decode_spec example_ [1, 1, 2, 2, 3, 1, 2, 3]).2.2.2 (by decide)⟩

/-! ## Malformed genes -/

theorem taskOf_succ_taskCount (shop : Shop) (j : Int) :
    taskOf shop (j, (taskCount shop j : Int) + 1) = none := by
  unfold taskOf taskCount
  cases hj : index shop.Jobs (j - 1) with
  | none => rfl
  | some job =>
    simp only
    unfold index
    have : ¬ ((job.length : Int) + 1 - 1 < 0) := by omega
    simp only [this, if_false]
    have e : ((job.length : Int) + 1 - 1).toNat = job.length := by omega
    rw [e]
    exact List.getElem?_eq_none_iff.mpr (le_refl _)

theorem foldlM_enqueue_none (shop : Shop) (l : List Operation) :
    ∀ init : List machine, (∃ o ∈ l, taskOf shop o = none) →
      l.foldlM (enqueue shop) init = none := by
  induction l with
  | nil => intro init h; obtain ⟨o, ho, _⟩ := h; simp at ho
  | cons a l ih =>
    intro init h
    rw [List.foldlM_cons]
    cases he : enqueue shop init a with
    | none => rfl
    | some ms =>
      simp only [Option.bind_eq_bind, Option.some_bind]
      apply ih
      obtain ⟨o, ho, ht⟩ := h
      rcases List.mem_cons.mp ho with rfl | hm
      · unfold enqueue at he
        rw [ht] at he
        simp at he
      · exact ⟨o, hm, ht⟩

/-- C5 (amended). When some identifier occurs in the gene more often than the job it names
has tasks (an identifier that names no job has task count 0), `totalTime` fails with a panic,
whatever the fuel: the queue-filling loop indexes past the job's task list. -/
theorem totalTime_panics_on_excess (shop : Shop) (gene : Gene) (fuel : Nat)
    (h : ∃ j : Int, taskCount shop j < gene.count j) :
    totalTime fuel shop gene = Outcome.panic := by
  obtain ⟨j, hj⟩ := h
  have hmem : (j, (taskCount shop j : Int) + 1) ∈ decode gene := by
    apply List.count_pos_iff.mp
    rw [decode_count]
    have : 1 ≤ (taskCount shop j : Int) + 1 ∧ (taskCount shop j : Int) + 1 ≤ (gene.count j : Int) := by
      omega
    simp [this]
  unfold totalTime initMachines
  rw [foldlM_enqueue_none shop (decode gene) _ ⟨_, hmem, taskOf_succ_taskCount shop j⟩]

theorem totalTime_panics_on_excess_witness :
    (∃ j : Int, taskCount example_ j < ([1, 1, 2, 2, 3, 1, 2, 3, 3] : Gene).count j) ∧
    totalTime 100 example_ [1, 1, 2, 2, 3, 1, 2, 3, 3] = Outcome.panic :=
  ⟨⟨3, by decide⟩, totalTime_panics_on_excess example_ [1, 1, 2, 2, 3, 1, 2, 3, 3] 100 ⟨3, by decide⟩⟩

/-- C5, counterexample: for the shop with the single job `[(0,2),(1,3)]` the gene `[1]` holds
job 1 once although the job has two tasks, and `totalTime` returns the makespan 2 instead of
failing. -/
theorem totalTime_accepts_short_gene :
    ([1] : Gene).count 1 ≠ taskCount ⟨[[(0, 2), (1, 3)]], 2⟩ 1 ∧
    ¬ ValidGene ⟨[[(0, 2), (1, 3)]], 2⟩ [1] ∧
    totalTime 10 ⟨[[(0, 2), (1, 3)]], 2⟩ [1] = Outcome.value 2 := by
  decide

/-! ## The loops of the simulator -/

theorem allDone_foldl (ms : List machine) (b : Bool) :
    ms.foldl
      (fun done m =>
        let done := if m.Queue.length > 0 then false else done
        if m.TimeLeft > 0 then false else done) b =
      (b && ms.all (fun m => decide (m.Queue = [] ∧ m.TimeLeft ≤ 0))) := by
  induction ms generalizing b with
  | nil => simp
  | cons m ms ih =>
    rw [List.foldl_cons, ih]
    cases hq : m.Queue with
    | nil =>
      by_cases ht : m.TimeLeft > 0
      · have : ¬ m.TimeLeft ≤ 0 := by omega
        simp [hq, ht, this]
      · have : m.TimeLeft ≤ 0 := by omega
        simp [hq, ht, this]
    | cons q r => simp [hq]

theorem allDone_iff (ms : List machine) :
    allDone ms = true ↔ ∀ m ∈ ms, m.Queue = [] ∧ m.TimeLeft ≤ 0 := by
  unfold allDone
  rw [allDone_foldl]
  simp

theorem okToQueue_iff (o : Operation) (ms : List machine) :
    okToQueue o ms = true ↔ o.2 = 1 ∨ (o.1, o.2 - 1) ∈ completedOps ms := by
  unfold okToQueue completedOps
  by_cases h : o.2 = 1
  · simp [h]
  · simp only [h, if_false, false_or, List.any_eq_true, List.mem_flatMap, decide_eq_true_eq]
    constructor
    · rintro ⟨m, hm, op, hop, h1, h2⟩
      exact ⟨m, hm, by rw [h1, h2]; exact hop⟩
    · rintro ⟨m, hm, hop⟩
      exact ⟨m, hm, _, hop, rfl, rfl⟩

theorem okToQueue_congr (o : Operation) (ms ms' : List machine)
    (h : completedOps ms = completedOps ms') : okToQueue o ms = okToQueue o ms' := by
  rw [Bool.eq_iff_iff, okToQueue_iff, okToQueue_iff, h]

theorem dispatchOne_completed (shop : Shop) (all : List machine) (m : machine) :
    (dispatchOne shop all m).CompletedTasks = m.CompletedTasks := by
  unfold dispatchOne
  split
  · rfl
  · split
    · rfl
    · split
      · split <;> rfl
      · rfl

theorem dispatchOne_congr (shop : Shop) (ms ms' : List machine) (m : machine)
    (h : completedOps ms = completedOps ms') : dispatchOne shop ms m = dispatchOne shop ms' m := by
  unfold dispatchOne
  split
  · rfl
  · rw [okToQueue_congr _ ms ms' h]

theorem set_of_getElem? {α : Type} (l : List α) (k : Nat) (x : α) (h : l[k]? = some x) :
    l.set k x = l := by
  apply List.ext_getElem?
  intro n
  rw [List.getElem?_set]
  by_cases e : k = n
  · subst e
    have := (List.getElem?_eq_some_iff.mp h).1
    simp [this, h]
  · simp [e]

theorem dispatchAt_eq (shop : Shop) (acc : List machine) (k : Nat) (m : machine)
    (hk : acc[k]? = some m) (hv : ∀ q ∈ m.Queue, taskOf shop q ≠ none) :
    dispatchAt shop acc k = some (acc.set k (dispatchOne shop acc m)) := by
  have hself : acc.set k m = acc := set_of_getElem? acc k m hk
  unfold dispatchAt dispatchOne
  rw [hk]
  simp only
  cases hq : m.Queue with
  | nil => simp [hself]
  | cons q rest =>
    simp only
    by_cases ht : m.TimeLeft ≠ 0
    · simp [ht, hself]
    · simp only [ht, if_false]
      by_cases hok : okToQueue q acc = true
      · simp only [hok, if_true]
        cases htask : taskOf shop q with
        | none => exact absurd htask (hv q (by rw [hq]; exact List.mem_cons_self _ _))
        | some t => rfl
      · simp [hok, hself]

theorem completedOps_eq_of_map (ms ms' : List machine)
    (h : ms.map (fun m => m.CompletedTasks) = ms'.map (fun m => m.CompletedTasks)) :
    completedOps ms = completedOps ms' := by
  unfold completedOps
  rw [List.flatMap_def, List.flatMap_def, h]

/-- State of the dispatch loop after the machines `0..k-1` have been visited. -/
theorem dispatch_upto (shop : Shop) (ms : List machine) (hv : QueuesValid shop ms) :
    ∀ k, k ≤ ms.length →
      (List.range k).foldlM (dispatchAt shop) ms =
        some ((ms.take k).map (dispatchOne shop ms) ++ ms.drop k) := by
  intro k
  induction k with
  | zero => intro _; simp
  | succ k ih =>
    intro hk
    have hlt : k < ms.length := by omega
    rw [List.range_succ, List.foldlM_append, ih (by omega)]
    simp only [Option.bind_eq_bind, Option.some_bind, List.foldlM_cons, List.foldlM_nil]
    set acc := (ms.take k).map (dispatchOne shop ms) ++ ms.drop k with hacc
    have hget : acc[k]? = some ms[k] := by
      rw [hacc, List.getElem?_append_right (by simp)]
      simp [List.getElem?_drop, Nat.min_eq_left (le_of_lt hlt)]
    have hcomp : completedOps acc = completedOps ms := by
      apply completedOps_eq_of_map
      rw [hacc, List.map_append, List.map_map]
      have : ((fun m => m.CompletedTasks) ∘ dispatchOne shop ms) = fun m => m.CompletedTasks := by
        funext m; exact dispatchOne_completed shop ms m
      rw [this, ← List.map_append, List.take_append_drop]
    rw [dispatchAt_eq shop acc k ms[k] hget (hv _ (List.getElem_mem hlt)),
      dispatchOne_congr shop acc ms _ hcomp]
    show some (acc.set k (dispatchOne shop ms ms[k])) = _
    congr 1
    apply List.ext_getElem?
    intro n
    rw [List.getElem?_set]
    have hlen : acc.length = ms.length := by simp [hacc]; omega
    by_cases e : k = n
    · subst e
      rw [if_pos rfl, if_pos (by omega)]
      rw [List.getElem?_append_left (by simp; omega)]
      simp [List.getElem?_take, hlt]
    · simp only [e, if_false]
      rcases Nat.lt_or_ge n k with h1 | h1
      · rw [hacc, List.getElem?_append_left (by simp; omega),
          List.getElem?_append_left (by simp; omega)]
        simp [List.getElem?_take, h1, show n < k + 1 by omega]
      · have h2 : k + 1 ≤ n := by omega
        rw [hacc, List.getElem?_append_right (by simp; omega),
          List.getElem?_append_right (by simp; omega)]
        simp [List.getElem?_drop, Nat.min_eq_left (le_of_lt hlt), Nat.min_eq_left hk]
        congr 1; omega

theorem dispatch_eq_map (shop : Shop) (ms : List machine) (hv : QueuesValid shop ms) :
    dispatch shop ms = some (ms.map (dispatchOne shop ms)) := by
  unfold dispatch
  rw [dispatch_upto shop ms hv ms.length (le_refl _)]
  simp

theorem advance_upto (ms : List machine) :
    ∀ k, k ≤ ms.length →
      (List.range k).foldl advanceAt ms = (ms.take k).map advanceOne ++ ms.drop k := by
  intro k
  induction k with
  | zero => intro _; simp
  | succ k ih =>
    intro hk
    have hlt : k < ms.length := by omega
    rw [List.range_succ, List.foldl_append, ih (by omega)]
    simp only [List.foldl_cons, List.foldl_nil]
    set acc := (ms.take k).map advanceOne ++ ms.drop k with hacc
    have hget : acc[k]? = some ms[k] := by
      rw [hacc, List.getElem?_append_right (by simp)]
      simp [List.getElem?_drop, Nat.min_eq_left (le_of_lt hlt)]
    unfold advanceAt
    rw [hget]
    simp only
    apply List.ext_getElem?
    intro n
    rw [List.getElem?_set]
    have hlen : acc.length = ms.length := by simp [hacc]; omega
    by_cases e : k = n
    · subst e
      rw [if_pos rfl, if_pos (by omega)]
      rw [List.getElem?_append_left (by simp; omega)]
      simp [List.getElem?_take, hlt]
    · simp only [e, if_false]
      rcases Nat.lt_or_ge n k with h1 | h1
      · rw [hacc, List.getElem?_append_left (by simp; omega),
          List.getElem?_append_left (by simp; omega)]
        simp [List.getElem?_take, h1, show n < k + 1 by omega]
      · have h2 : k + 1 ≤ n := by omega
        rw [hacc, List.getElem?_append_right (by simp; omega),
          List.getElem?_append_right (by simp; omega)]
        simp [List.getElem?_drop, Nat.min_eq_left (le_of_lt hlt), Nat.min_eq_left hk]
        congr 1; omega

theorem advance_eq_map (ms : List machine) : advance ms = ms.map advanceOne := by
  unfold advance
  rw [advance_upto ms ms.length (le_refl _)]
  simp

theorem tick_eq_map (shop : Shop) (ms : List machine) (hv : QueuesValid shop ms) :
    tick shop ms = some (ms.map (stepOne shop ms)) := by
  unfold tick
  rw [dispatch_eq_map shop ms hv]
  simp only
  rw [advance_eq_map, List.map_map]
  rfl

/-! ## One machine, one tick -/

theorem stepOne_case (shop : Shop) (all : List machine) (m : machine) (hm : MachineOK m)
    (hq : ∀ q ∈ m.Queue, q ≠ (0, 0) ∧ ∃ t, taskOf shop q = some t ∧ 0 ≤ t.2) :
    StepCase shop all m (stepOne shop all m) := by
  obtain ⟨CT, cur, Q, T⟩ := m
  simp only [MachineOK] at hm
  simp only at hq
  rcases hm with ⟨h0, hc⟩ | ⟨hpos, hc⟩
  · subst h0; subst hc
    cases Q with
    | nil =>
      have : stepOne shop all ⟨CT, (0, 0), [], 0⟩ = ⟨CT, (0, 0), [], 0⟩ := by
        simp [stepOne, dispatchOne, advanceOne]
      rw [this]
      exact StepCase.idle rfl rfl (Or.inl rfl)
    | cons q rest =>
      obtain ⟨hne, t, ht, hnn⟩ := hq q (List.mem_cons_self _ _)
      by_cases hok : okToQueue q all = true
      · have hdur : duration shop q = t.2 := by simp [duration, ht]
        have hq0 : ¬ (q.1 = 0 ∧ q.2 = 0) := by
          intro h; exact hne (Prod.ext h.1 h.2)
        rcases lt_or_ge 1 t.2 with hbig | hsmall
        · have : stepOne shop all ⟨CT, (0, 0), q :: rest, 0⟩ =
              ⟨CT, q, rest, duration shop q - 1⟩ := by
            have h1 : 0 < t.2 := by omega
            have h2 : ¬ (t.2 - 1 = 0) := by omega
            simp [stepOne, dispatchOne, advanceOne, hok, ht, hdur, h1, h2]
          rw [this]
          exact StepCase.start q rest rfl rfl rfl hne hok (by rw [hdur]; exact hbig)
        · have : stepOne shop all ⟨CT, (0, 0), q :: rest, 0⟩ =
              ⟨CT ++ [q], (0, 0), rest, 0⟩ := by
            rcases (show t.2 = 0 ∨ t.2 = 1 by omega) with h | h
            · simp [stepOne, dispatchOne, advanceOne, hok, ht, h, hq0]
            · simp [stepOne, dispatchOne, advanceOne, hok, ht, h, hq0]
          rw [this]
          exact StepCase.startFinish q rest rfl rfl rfl hne hok (by rw [hdur]; omega)
      · have hok' : okToQueue q all = false := by simpa using hok
        have : stepOne shop all ⟨CT, (0, 0), q :: rest, 0⟩ = ⟨CT, (0, 0), q :: rest, 0⟩ := by
          simp [stepOne, dispatchOne, advanceOne, hok']
        rw [this]
        exact StepCase.idle rfl rfl (Or.inr ⟨q, rest, rfl, hok'⟩)
  · have hT : T ≠ 0 := by omega
    have hdisp : dispatchOne shop all ⟨CT, cur, Q, T⟩ = ⟨CT, cur, Q, T⟩ := by
      cases Q with
      | nil => simp [dispatchOne]
      | cons q rest => simp [dispatchOne, hT]
    have hc0 : ¬ (cur.1 = 0 ∧ cur.2 = 0) := by
      intro h; exact hc (Prod.ext h.1 h.2)
    rcases lt_or_ge 1 T with hbig | hsmall
    · have : stepOne shop all ⟨CT, cur, Q, T⟩ = ⟨CT, cur, Q, T - 1⟩ := by
        have h2 : ¬ (T - 1 = 0) := by omega
        simp [stepOne, hdisp, advanceOne, hpos, h2]
      rw [this]
      exact StepCase.run hbig hc
    · have h1 : T = 1 := by omega
      subst h1
      have : stepOne shop all ⟨CT, cur, Q, 1⟩ = ⟨CT ++ [cur], (0, 0), Q, 0⟩ := by
        simp [stepOne, hdisp, advanceOne, hc0]
      rw [this]
      exact StepCase.finish rfl hc

theorem StepCase.machineOK {shop : Shop} {all : List machine} {m m' : machine}
    (h : StepCase shop all m m') : MachineOK m' := by
  cases h with
  | idle h0 hc hq => exact Or.inl ⟨h0, hc⟩
  | run h1 hc => exact Or.inr ⟨by simp; omega, hc⟩
  | finish h1 hc => exact Or.inl ⟨rfl, rfl⟩
  | start q rest h0 hc hq hne hok hd => exact Or.inr ⟨by simp; omega, hne⟩
  | startFinish q rest h0 hc hq hne hok hd => exact Or.inl ⟨rfl, rfl⟩

theorem StepCase.queue_sublist {shop : Shop} {all : List machine} {m m' : machine}
    (h : StepCase shop all m m') : m'.Queue.Sublist m.Queue := by
  cases h with
  | idle h0 hc hq => exact List.Sublist.refl _
  | run h1 hc => exact List.Sublist.refl _
  | finish h1 hc => exact List.Sublist.refl _
  | start q rest h0 hc hq hne hok hd => simp only [hq]; exact List.sublist_cons_self _ _
  | startFinish q rest h0 hc hq hne hok hd => simp only [hq]; exact List.sublist_cons_self _ _

theorem StepCase.completed_subset {shop : Shop} {all : List machine} {m m' : machine}
    (h : StepCase shop all m m') : ∀ o ∈ m.CompletedTasks, o ∈ m'.CompletedTasks := by
  intro o ho
  cases h with
  | idle h0 hc hq => exact ho
  | run h1 hc => exact ho
  | finish h1 hc => exact List.mem_append_left _ ho
  | start q rest h0 hc hq hne hok hd => exact ho
  | startFinish q rest h0 hc hq hne hok hd => exact List.mem_append_left _ ho

theorem StepCase.opsOf_perm {shop : Shop} {all : List machine} {m m' : machine}
    (h : StepCase shop all m m') : (opsOf m').Perm (opsOf m) := by
  cases h with
  | idle h0 hc hq => exact List.Perm.refl _
  | run h1 hc =>
    have a : (0 : Int) < m.TimeLeft := by omega
    have b : (0 : Int) < m.TimeLeft - 1 := by omega
    simp [opsOf, current, a, b]
  | finish h1 hc =>
    simp only [opsOf, current, h1]
    simp only [lt_self_iff_false, if_false, zero_lt_one, if_true, List.nil_append]
    refine List.Perm.append_left _ ?_
    exact List.perm_append_comm
  | start q rest h0 hc hq hne hok hd =>
    have b : (0 : Int) < duration shop q - 1 := by omega
    simp only [opsOf, current, h0, hq, b]
    simp only [lt_self_iff_false, if_false, if_true, List.nil_append]
    simp only [List.cons_append, List.nil_append]
    exact List.perm_middle
  | startFinish q rest h0 hc hq hne hok hd =>
    simp only [opsOf, current, h0, hq]
    simp only [lt_self_iff_false, if_false, List.nil_append, List.cons_append]
    have : (rest ++ (m.CompletedTasks ++ [q])).Perm (rest ++ q :: m.CompletedTasks) :=
      List.Perm.append_left _ (List.perm_append_comm.trans (List.Perm.refl _))
    exact this.trans List.perm_middle

theorem StepCase.started {shop : Shop} {all : List machine} {m m' : machine}
    (h : StepCase shop all m m') :
    ∀ o ∈ current m' ++ m'.CompletedTasks,
      o ∈ current m ++ m.CompletedTasks ∨ (okToQueue o all = true ∧ o ∈ m.Queue) := by
  intro o ho
  cases h with
  | idle h0 hc hq => exact Or.inl ho
  | run h1 hc =>
    have a : (0 : Int) < m.TimeLeft := by omega
    have b : (0 : Int) < m.TimeLeft - 1 := by omega
    simp only [current, a, b, if_true] at ho ⊢
    exact Or.inl ho
  | finish h1 hc =>
    simp only [current, h1] at ho ⊢
    simp only [lt_self_iff_false, if_false, zero_lt_one, if_true, List.nil_append] at ho ⊢
    left
    rcases List.mem_append.mp ho with h | h
    · exact List.mem_append_right _ h
    · exact List.mem_append_left _ h
  | start q rest h0 hc hq hne hok hd =>
    have b : (0 : Int) < duration shop q - 1 := by omega
    simp only [current, b, if_true, h0] at ho ⊢
    rcases List.mem_append.mp ho with h | h
    · simp at h; subst h
      exact Or.inr ⟨hok, by rw [hq]; exact List.mem_cons_self _ _⟩
    · exact Or.inl (List.mem_append_right _ h)
  | startFinish q rest h0 hc hq hne hok hd =>
    simp only [current, h0] at ho ⊢
    simp only [lt_self_iff_false, if_false, List.nil_append] at ho ⊢
    rcases List.mem_append.mp ho with h | h
    · exact Or.inl h
    · simp at h; subst h
      exact Or.inr ⟨hok, by rw [hq]; exact List.mem_cons_self _ _⟩

theorem StepCase.work_eq {shop : Shop} {all : List machine} {m m' : machine}
    (h : StepCase shop all m m') :
    work shop m' = work shop m - (if acts all m = true then 1 else 0) := by
  cases h with
  | idle h0 hc hq =>
    have : acts all m = false := by
      rcases hq with hq | ⟨q, rest, hq, hno⟩
      · simp [acts, h0, hq]
      · simp [acts, h0, hq, hno]
    simp [this]
  | run h1 hc =>
    have : acts all m = true := by
      have a : (0 : Int) < m.TimeLeft := by omega
      simp [acts, a]
    simp only [this, if_true, work]; omega
  | finish h1 hc =>
    have : acts all m = true := by simp [acts, h1]
    simp only [this, if_true, work, h1]; omega
  | start q rest h0 hc hq hne hok hd =>
    have : acts all m = true := by simp [acts, hq, hok]
    have hcost : cost shop q = duration shop q := by unfold cost; omega
    simp only [this, if_true, work, hq, h0, List.map_cons, List.sum_cons, hcost]; omega
  | startFinish q rest h0 hc hq hne hok hd =>
    have : acts all m = true := by simp [acts, hq, hok]
    have hcost : cost shop q = 1 := by unfold cost; omega
    simp only [this, if_true, work, hq, h0, List.map_cons, List.sum_cons, hcost]; omega

theorem StepCase.backlog_bounds {shop : Shop} {all : List machine} {m m' : machine}
    (h : StepCase shop all m m') :
    backlog shop m - 1 ≤ backlog shop m' ∧ backlog shop m' ≤ backlog shop m := by
  cases h with
  | idle h0 hc hq => constructor <;> omega
  | run h1 hc => simp only [backlog]; constructor <;> omega
  | finish h1 hc => simp only [backlog, h1]; constructor <;> omega
  | start q rest h0 hc hq hne hok hd =>
    simp only [backlog, hq, h0, List.map_cons, List.sum_cons]; constructor <;> omega
  | startFinish q rest h0 hc hq hne hok hd =>
    simp only [backlog, hq, h0, List.map_cons, List.sum_cons]; constructor <;> omega

/-! ## The invariant of the tick loop -/

theorem Inv.queuesValid {shop : Shop} {sched : List Operation} {ms : List machine}
    (hs : SchedOK shop sched) (hi : Inv sched ms) : QueuesValid shop ms := by
  intro m hm q hq
  obtain ⟨t, ht, _⟩ := hs.task q ((hi.queue m hm).subset hq)
  rw [ht]; simp

theorem Inv.stepCase {shop : Shop} {sched : List Operation} {ms : List machine}
    (hs : SchedOK shop sched) (hi : Inv sched ms) (m : machine) (hm : m ∈ ms) :
    StepCase shop ms m (stepOne shop ms m) := by
  apply stepOne_case shop ms m (hi.mach m hm)
  intro q hq
  have hmem := (hi.queue m hm).subset hq
  exact ⟨hs.ne_zero q hmem, hs.task q hmem⟩

theorem completedOps_mono {shop : Shop} {sched : List Operation} {ms : List machine}
    (hs : SchedOK shop sched) (hi : Inv sched ms) (o : Operation)
    (ho : o ∈ completedOps ms) : o ∈ completedOps (ms.map (stepOne shop ms)) := by
  unfold completedOps at ho ⊢
  obtain ⟨m, hm, hom⟩ := List.mem_flatMap.mp ho
  exact List.mem_flatMap.mpr ⟨stepOne shop ms m, List.mem_map_of_mem _ hm,
    (hi.stepCase hs m hm).completed_subset o hom⟩

theorem Inv.step {shop : Shop} {sched : List Operation} {ms : List machine}
    (hs : SchedOK shop sched) (hi : Inv sched ms) : Inv sched (ms.map (stepOne shop ms)) := by
  constructor
  · intro m' hm'
    obtain ⟨m, hm, rfl⟩ := List.mem_map.mp hm'
    exact (hi.stepCase hs m hm).machineOK
  · intro m' hm'
    obtain ⟨m, hm, rfl⟩ := List.mem_map.mp hm'
    exact (hi.stepCase hs m hm).queue_sublist.trans (hi.queue m hm)
  · rw [List.flatMap_map]
    exact (List.Perm.flatMap_left ms (fun m hm => (hi.stepCase hs m hm).opsOf_perm)).trans hi.perm
  · intro m' hm' o ho hne
    obtain ⟨m, hm, rfl⟩ := List.mem_map.mp hm'
    rcases (hi.stepCase hs m hm).started o ho with h | ⟨hok, _⟩
    · exact completedOps_mono hs hi _ (hi.prec m hm o h hne)
    · rcases (okToQueue_iff o ms).mp hok with h1 | h1
      · exact absurd h1 hne
      · exact completedOps_mono hs hi _ h1

theorem Inv.tick {shop : Shop} {sched : List Operation} {ms : List machine}
    (hs : SchedOK shop sched) (hi : Inv sched ms) :
    tick shop ms = some (ms.map (stepOne shop ms)) :=
  tick_eq_map shop ms (hi.queuesValid hs)

/-- If a list without duplicates has `h :: t` as a sublist, then `h` stands at or before
every element of `h :: t`. -/
theorem head_index_le {α : Type} (l : List α) :
    ∀ (h : α) (t : List α) (o : α) (n : Nat), (h :: t).Sublist l → l.Nodup → o ∈ h :: t →
      l[n]? = some o → ∃ i, i ≤ n ∧ l[i]? = some h := by
  induction l with
  | nil => intro h t o n hsub; cases hsub
  | cons a l ih =>
    intro h t o n hsub hnd ho hn
    cases hsub with
    | cons _ hsub' =>
      have hol : o ∈ l := hsub'.subset ho
      have hao : a ≠ o := by
        intro e; subst e
        exact (List.nodup_cons.mp hnd).1 hol
      cases n with
      | zero => simp at hn; exact absurd hn hao
      | succ n =>
        simp only [List.getElem?_cons_succ] at hn
        obtain ⟨i, hi, hih⟩ := ih h t o n hsub' (List.nodup_cons.mp hnd).2 ho hn
        exact ⟨i + 1, by omega, by simpa using hih⟩
    | cons₂ _ hsub' => exact ⟨0, Nat.zero_le _, by simp⟩

/-- No deadlock: while the loop has not finished, some machine acts. -/
theorem Inv.progress {shop : Shop} {sched : List Operation} {ms : List machine}
    (hs : SchedOK shop sched) (hi : Inv sched ms) (hnd : allDone ms = false) :
    ∃ m ∈ ms, acts ms m = true := by
  by_contra hcon
  have hno : ∀ m ∈ ms, acts ms m = false := by
    intro m hm
    by_contra h
    exact hcon ⟨m, hm, by simpa using h⟩
  have hT : ∀ m ∈ ms, m.TimeLeft = 0 := by
    intro m hm
    have h1 := hno m hm
    rcases hi.mach m hm with ⟨h0, _⟩ | ⟨hpos, _⟩
    · exact h0
    · simp [acts, hpos] at h1
  have hhead : ∀ m ∈ ms, ∀ q rest, m.Queue = q :: rest → okToQueue q ms = false := by
    intro m hm q rest hq
    have h1 := hno m hm
    simp only [acts, hq, hT m hm] at h1
    simpa using h1
  -- every operation of the schedule is completed and in no queue
  have key : ∀ (n : Nat) (o : Operation), sched[n]? = some o →
      o ∈ completedOps ms ∧ ∀ m ∈ ms, o ∉ m.Queue := by
    intro n
    induction n using Nat.strong_induction_on with
    | _ n ih =>
      intro o hn
      have hnq : ∀ m ∈ ms, o ∉ m.Queue := by
        intro m hm hoq
        cases hq : m.Queue with
        | nil => rw [hq] at hoq; simp at hoq
        | cons q rest =>
          have hsub : (q :: rest).Sublist sched := hq ▸ hi.queue m hm
          obtain ⟨i, hile, hiq⟩ := head_index_le sched q rest o n hsub hs.nodup (hq ▸ hoq) hn
          have hnok := hhead m hm q rest hq
          have hq1 : q.2 ≠ 1 := by
            intro h1
            have : okToQueue q ms = true := (okToQueue_iff q ms).mpr (Or.inl h1)
            rw [hnok] at this; cases this
          obtain ⟨i', hlt, hi'⟩ := hs.pred i q hiq hq1
          have hc := (ih i' (by omega) _ hi').1
          have : okToQueue q ms = true := (okToQueue_iff q ms).mpr (Or.inr hc)
          rw [hnok] at this; cases this
      refine ⟨?_, hnq⟩
      have hmem : o ∈ sched := List.getElem?_mem hn
      have : o ∈ ms.flatMap opsOf := hi.perm.symm.subset hmem
      obtain ⟨m, hm, hom⟩ := List.mem_flatMap.mp this
      unfold opsOf at hom
      rcases List.mem_append.mp hom with h | h
      · exact absurd h (hnq m hm)
      · have hcur : current m = [] := by simp [current, hT m hm]
        rw [hcur, List.nil_append] at h
        exact List.mem_flatMap.mpr ⟨m, hm, h⟩
  -- but the loop has not finished, so some queue is not empty
  have : ¬ (∀ m ∈ ms, m.Queue = [] ∧ m.TimeLeft ≤ 0) := by
    intro h
    have := (allDone_iff ms).mpr h
    rw [hnd] at this; cases this
  apply this
  intro m hm
  refine ⟨?_, by rw [hT m hm]⟩
  cases hq : m.Queue with
  | nil => rfl
  | cons q rest =>
    exfalso
    have hqs : q ∈ sched := (hi.queue m hm).subset (by rw [hq]; exact List.mem_cons_self _ _)
    obtain ⟨n, hn⟩ := List.getElem?_of_mem hqs
    exact (key n q hn).2 m hm (by rw [hq]; exact List.mem_cons_self _ _)

/-! ## Work, termination and the backlog bound -/

theorem cost_pos (shop : Shop) (o : Operation) : 1 ≤ cost shop o := by
  unfold cost; exact le_max_left _ _

theorem sum_cost_nonneg (shop : Shop) (l : List Operation) : 0 ≤ (l.map (cost shop)).sum := by
  induction l with
  | nil => simp
  | cons a l ih =>
    have := cost_pos shop a
    simp only [List.map_cons, List.sum_cons]; omega

theorem sum_cost_pos (shop : Shop) (l : List Operation) (h : l ≠ []) :
    1 ≤ (l.map (cost shop)).sum := by
  cases l with
  | nil => exact absurd rfl h
  | cons a l =>
    have := cost_pos shop a
    have := sum_cost_nonneg shop l
    simp only [List.map_cons, List.sum_cons]; omega

theorem MachineOK.timeLeft_nonneg {m : machine} (h : MachineOK m) : 0 ≤ m.TimeLeft := by
  rcases h with ⟨h0, _⟩ | ⟨h1, _⟩ <;> omega

theorem work_nonneg (shop : Shop) (m : machine) (h : MachineOK m) : 0 ≤ work shop m := by
  have := sum_cost_nonneg shop m.Queue
  have := h.timeLeft_nonneg
  unfold work; omega

theorem sum_nonneg_of_forall (l : List machine) (g : machine → Int) (h : ∀ m ∈ l, 0 ≤ g m) :
    0 ≤ (l.map g).sum := by
  induction l with
  | nil => simp
  | cons a l ih =>
    have h1 := h a (List.mem_cons_self _ _)
    have h2 := ih (fun m hm => h m (List.mem_cons_of_mem _ hm))
    simp only [List.map_cons, List.sum_cons]; omega

theorem sum_map_step (l : List machine) (f : machine → machine) (g : machine → Int)
    (p : machine → Bool) (h : ∀ m ∈ l, g (f m) = g m - (if p m = true then 1 else 0)) :
    ((l.map f).map g).sum = (l.map g).sum - (l.countP p : Int) := by
  induction l with
  | nil => simp
  | cons a l ih =>
    have h1 := h a (List.mem_cons_self _ _)
    have h2 := ih (fun m hm => h m (List.mem_cons_of_mem _ hm))
    simp only [List.map_cons, List.sum_cons, List.countP_cons, h1, h2]
    by_cases hp : p a = true
    · simp [hp]; omega
    · simp [hp]; omega

theorem totalWork_step {shop : Shop} {sched : List Operation} {ms : List machine}
    (hs : SchedOK shop sched) (hi : Inv sched ms) :
    totalWork shop (ms.map (stepOne shop ms)) =
      totalWork shop ms - (ms.countP (acts ms) : Int) := by
  unfold totalWork
  exact sum_map_step ms _ _ _ (fun m hm => (hi.stepCase hs m hm).work_eq)

theorem totalWork_nonneg (shop : Shop) {sched : List Operation} {ms : List machine}
    (hi : Inv sched ms) : 0 ≤ totalWork shop ms :=
  sum_nonneg_of_forall ms _ (fun m hm => work_nonneg shop m (hi.mach m hm))

theorem tickLoop_succ_of_done (shop : Shop) (fuel : Nat) (time : Int) (ms : List machine)
    (h : allDone ms = true) : tickLoop shop (fuel + 1) time ms = Outcome.value time := by
  simp [tickLoop, h]

theorem tickLoop_succ_of_not_done {shop : Shop} {sched : List Operation} {ms : List machine}
    (hs : SchedOK shop sched) (hi : Inv sched ms) (fuel : Nat) (time : Int)
    (h : allDone ms = false) :
    tickLoop shop (fuel + 1) time ms =
      tickLoop shop fuel (time + 1) (ms.map (stepOne shop ms)) := by
  simp [tickLoop, h, hi.tick hs]

/-- The tick loop returns within `n` ticks when at most `n` ticks of work remain. -/
theorem tickLoop_terminates {shop : Shop} {sched : List Operation} (hs : SchedOK shop sched) :
    ∀ (n : Nat) (ms : List machine) (time : Int), Inv sched ms → totalWork shop ms ≤ n →
      ∃ t, tickLoop shop (n + 1) time ms = Outcome.value t ∧ time ≤ t ∧ t ≤ time + n := by
  intro n
  induction n with
  | zero =>
    intro ms time hi hw
    cases hd : allDone ms with
    | true => exact ⟨time, tickLoop_succ_of_done shop 0 time ms hd, le_refl _, by simp⟩
    | false =>
      exfalso
      obtain ⟨m, hm, ha⟩ := hi.progress hs hd
      have h1 := totalWork_step hs hi
      have h2 := totalWork_nonneg shop (hi.step hs)
      have h3 : 0 < ms.countP (acts ms) := List.countP_pos_iff.mpr ⟨m, hm, ha⟩
      have h4 : (0 : Int) < (ms.countP (acts ms) : Int) := by exact_mod_cast h3
      simp at hw
      omega
  | succ n ih =>
    intro ms time hi hw
    cases hd : allDone ms with
    | true =>
      exact ⟨time, tickLoop_succ_of_done shop (n + 1) time ms hd, le_refl _, by push_cast; omega⟩
    | false =>
      obtain ⟨m, hm, ha⟩ := hi.progress hs hd
      have h1 := totalWork_step hs hi
      have h3 : 0 < ms.countP (acts ms) := List.countP_pos_iff.mpr ⟨m, hm, ha⟩
      have h4 : (0 : Int) < (ms.countP (acts ms) : Int) := by exact_mod_cast h3
      obtain ⟨t, ht, hlo, hhi⟩ := ih (ms.map (stepOne shop ms)) (time + 1) (hi.step hs)
        (by push_cast at hw; omega)
      refine ⟨t, ?_, by omega, by push_cast; omega⟩
      rw [tickLoop_succ_of_not_done hs hi (n + 1) time hd]
      exact ht

/-- More fuel does not change a returned value. -/
theorem tickLoop_fuel_mono (shop : Shop) :
    ∀ (fuel k : Nat) (time : Int) (ms : List machine) (t : Int),
      tickLoop shop fuel time ms = Outcome.value t →
        tickLoop shop (fuel + k) time ms = Outcome.value t := by
  intro fuel
  induction fuel with
  | zero => intro k time ms t h; simp [tickLoop] at h
  | succ n ih =>
    intro k time ms t h
    have e : n + 1 + k = (n + k) + 1 := by omega
    rw [e]
    unfold tickLoop at h ⊢
    cases hd : allDone ms with
    | true => simpa [hd] using h
    | false =>
      simp only [hd] at h ⊢
      cases ht : tick shop ms with
      | none => simp [ht] at h
      | some ms' =>
        simp only [ht] at h ⊢
        exact ih k _ _ _ h

/-- A returned makespan is at least the backlog of every machine. -/
theorem tickLoop_ge_backlog {shop : Shop} {sched : List Operation} (hs : SchedOK shop sched) :
    ∀ (fuel : Nat) (ms : List machine) (time t : Int), Inv sched ms →
      tickLoop shop fuel time ms = Outcome.value t →
        ∀ m ∈ ms, time + backlog shop m ≤ t := by
  intro fuel
  induction fuel with
  | zero => intro ms time t _ h; simp [tickLoop] at h
  | succ n ih =>
    intro ms time t hi h m hm
    cases hd : allDone ms with
    | true =>
      rw [tickLoop_succ_of_done shop n time ms hd] at h
      cases h
      obtain ⟨hq, hle⟩ := (allDone_iff ms).mp hd m hm
      simp only [backlog, hq, List.map_nil, List.sum_nil]; omega
    | false =>
      rw [tickLoop_succ_of_not_done hs hi n time hd] at h
      have := ih _ _ _ (hi.step hs) h (stepOne shop ms m) (List.mem_map_of_mem _ hm)
      have hb := (hi.stepCase hs m hm).backlog_bounds
      omega

/-! ## The state before the tick loop -/

theorem initialMachines_getElem? (shop : Shop) (sched : List Operation) (k : Nat)
    (hk : k < shop.Machines.toNat) :
    (initialMachines shop sched)[k]? =
      some { emptyMachine with
        Queue := sched.filter (fun o => decide (machineOf shop o = (k : Int))) } := by
  unfold initialMachines
  rw [List.getElem?_map, List.getElem?_range hk]
  rfl

theorem initialMachines_length (shop : Shop) (sched : List Operation) :
    (initialMachines shop sched).length = shop.Machines.toNat := by
  simp [initialMachines]

theorem enqueue_initialMachines (shop : Shop) (p : List Operation) (s : Operation) (t : Task)
    (ht : taskOf shop s = some t) (h0 : 0 ≤ t.1) (h1 : t.1 < shop.Machines) :
    enqueue shop (initialMachines shop p) s = some (initialMachines shop (p ++ [s])) := by
  have hk : t.1.toNat < shop.Machines.toNat := by omega
  have hidx : index (initialMachines shop p) t.1 = (initialMachines shop p)[t.1.toNat]? := by
    unfold index
    have : ¬ (t.1 < 0) := by omega
    simp [this]
  have hms : machineOf shop s = t.1 := by simp [machineOf, ht]
  unfold enqueue
  rw [ht]
  simp only
  rw [hidx, initialMachines_getElem? shop p _ hk]
  simp only
  congr 1
  apply List.ext_getElem?
  intro n
  rw [List.getElem?_set]
  by_cases e : t.1.toNat = n
  · subst e
    rw [if_pos rfl, if_pos (by rw [initialMachines_length]; exact hk),
      initialMachines_getElem? shop _ _ hk]
    have e2 : ((t.1.toNat : Nat) : Int) = t.1 := by omega
    simp [List.filter_append, List.filter_cons, hms, e2]
  · rw [if_neg e]
    rcases Nat.lt_or_ge n shop.Machines.toNat with hn | hn
    · rw [initialMachines_getElem? shop _ _ hn, initialMachines_getElem? shop _ _ hn]
      have : decide (machineOf shop s = (n : Int)) = false := by
        simp [hms]; omega
      simp [List.filter_append, List.filter_cons, this]
    · rw [List.getElem?_eq_none_iff.mpr (by rw [initialMachines_length]; exact hn),
        List.getElem?_eq_none_iff.mpr (by rw [initialMachines_length]; exact hn)]

theorem initMachines_eq (shop : Shop) (sched : List Operation)
    (h : ∀ o ∈ sched, ∃ t, taskOf shop o = some t ∧ 0 ≤ t.1 ∧ t.1 < shop.Machines) :
    initMachines shop sched = some (initialMachines shop sched) := by
  unfold initMachines
  induction sched using List.reverseRecOn with
  | nil =>
    simp only [List.foldlM_nil]
    show some _ = some _
    congr 1
    apply List.ext_getElem?
    intro n
    rcases Nat.lt_or_ge n shop.Machines.toNat with hn | hn
    · rw [initialMachines_getElem? shop _ _ hn]
      simp [List.getElem?_replicate, hn, emptyMachine]
    · rw [List.getElem?_eq_none_iff.mpr (by rw [List.length_replicate]; exact hn),
        List.getElem?_eq_none_iff.mpr (by rw [initialMachines_length]; exact hn)]
  | append_singleton p s ih =>
    rw [List.foldlM_append, ih (fun o ho => h o (List.mem_append_left _ ho))]
    obtain ⟨t, ht, h0, h1⟩ := h s (List.mem_append_right _ (List.mem_singleton_self _))
    simp only [Option.bind_eq_bind, Option.some_bind, List.foldlM_cons, List.foldlM_nil]
    rw [enqueue_initialMachines shop p s t ht h0 h1]
    rfl

theorem flatMap_filter_perm (g : Operation → Int) (l : List Operation) :
    ∀ M : Nat,
      ((List.range M).flatMap (fun (k : Nat) => l.filter (fun o => decide (g o = (k : Int))))).Perm
        (l.filter (fun o => decide (0 ≤ g o ∧ g o < (M : Int)))) := by
  intro M
  induction M with
  | zero =>
    have : l.filter (fun o => decide (0 ≤ g o ∧ g o < ((0 : Nat) : Int))) = [] := by
      apply List.filter_eq_nil_iff.mpr
      intro a _
      simp
    rw [this]; simp
  | succ M ih =>
    rw [List.range_succ, List.flatMap_append]
    simp only [List.flatMap_cons, List.flatMap_nil, List.append_nil]
    have h1 := List.filter_append_perm (fun o => decide (g o < (M : Int)))
      (l.filter (fun o => decide (0 ≤ g o ∧ g o < ((M + 1 : Nat) : Int))))
    rw [List.filter_filter, List.filter_filter] at h1
    have e1 : l.filter (fun o => decide (g o < (M : Int)) &&
        decide (0 ≤ g o ∧ g o < ((M + 1 : Nat) : Int))) =
        l.filter (fun o => decide (0 ≤ g o ∧ g o < (M : Int))) := by
      apply List.filter_congr
      intro a _
      rw [Bool.eq_iff_iff]; simp; omega
    have e2 : l.filter (fun o => (!decide (g o < (M : Int))) &&
        decide (0 ≤ g o ∧ g o < ((M + 1 : Nat) : Int))) =
        l.filter (fun o => decide (g o = (M : Int))) := by
      apply List.filter_congr
      intro a _
      rw [Bool.eq_iff_iff]; simp; omega
    rw [e1, e2] at h1
    exact (List.Perm.append_right _ ih).trans h1

theorem initialMachines_inv (shop : Shop) (sched : List Operation)
    (h : ∀ o ∈ sched, ∃ t, taskOf shop o = some t ∧ 0 ≤ t.1 ∧ t.1 < shop.Machines) :
    Inv sched (initialMachines shop sched) := by
  constructor
  · intro m hm
    obtain ⟨k, _, rfl⟩ := List.mem_map.mp hm
    exact Or.inl ⟨rfl, rfl⟩
  · intro m hm
    obtain ⟨k, _, rfl⟩ := List.mem_map.mp hm
    exact List.filter_sublist _
  · unfold initialMachines
    rw [List.flatMap_map]
    have e : (fun (k : Nat) => opsOf { emptyMachine with
        Queue := sched.filter (fun o => decide (machineOf shop o = (k : Int))) }) =
        fun (k : Nat) => sched.filter (fun o => decide (machineOf shop o = (k : Int))) := by
      funext k
      simp [opsOf, current, emptyMachine]
    have e' : (opsOf ∘ fun (k : Nat) => { emptyMachine with
        Queue := sched.filter (fun o => decide (machineOf shop o = (k : Int))) }) =
        fun (k : Nat) => sched.filter (fun o => decide (machineOf shop o = (k : Int))) := e
    first
      | rw [e']
      | rw [e]
    refine (flatMap_filter_perm (machineOf shop) sched shop.Machines.toNat).trans ?_
    have : sched.filter (fun o => decide (0 ≤ machineOf shop o ∧
        machineOf shop o < ((shop.Machines.toNat : Nat) : Int))) = sched := by
      apply List.filter_eq_self.mpr
      intro o ho
      obtain ⟨t, ht, h0, h1⟩ := h o ho
      simp [machineOf, ht]; omega
    rw [this]
  · intro m hm o ho
    obtain ⟨k, _, rfl⟩ := List.mem_map.mp hm
    simp [current, emptyMachine] at ho

/-! ## Static facts about a decoded schedule -/

theorem mem_decode (gene : Gene) (o : Operation) :
    o ∈ decode gene ↔ 1 ≤ o.2 ∧ o.2 ≤ (gene.count o.1 : Int) := by
  rw [← List.count_pos_iff, show o = (o.1, o.2) from rfl, decode_count]
  by_cases h : 1 ≤ o.2 ∧ o.2 ≤ (gene.count o.1 : Int)
  · simp [h]
  · simp [h]

theorem decode_nodup (gene : Gene) : (decode gene).Nodup := by
  rw [List.nodup_iff_getElem?_ne_getElem?]
  intro i i' hlt hi' heq
  have hi : i < (decode gene).length := by omega
  rw [List.getElem?_eq_getElem hi, List.getElem?_eq_getElem hi', Option.some.injEq] at heq
  have h1 := decode_increasing gene i i' _ _ hlt (List.getElem?_eq_getElem hi)
    (List.getElem?_eq_getElem hi') (by rw [heq])
  rw [heq] at h1
  exact lt_irrefl _ h1

theorem taskOf_of_le_taskCount (shop : Shop) (j n : Int) (h1 : 1 ≤ n)
    (h2 : n ≤ (taskCount shop j : Int)) :
    ∃ job ∈ shop.Jobs, ∃ t ∈ job, taskOf shop (j, n) = some t := by
  unfold taskCount at h2
  unfold taskOf
  simp only
  cases hj : index shop.Jobs (j - 1) with
  | none => rw [hj] at h2; simp at h2; omega
  | some job =>
    rw [hj] at h2
    simp only at h2 ⊢
    have hjob : job ∈ shop.Jobs := by
      have := (index_eq_some _ _ _).mp hj
      exact List.getElem?_mem this.2
    have hlt : (n - 1).toNat < job.length := by omega
    refine ⟨job, hjob, job[(n - 1).toNat], List.getElem_mem hlt, ?_⟩
    rw [index_eq_some]
    exact ⟨by omega, List.getElem?_eq_getElem hlt⟩

theorem taskOf_of_mem_decode (shop : Shop) (gene : Gene) (hv : ValidGene shop gene)
    (o : Operation) (ho : o ∈ decode gene) :
    ∃ job ∈ shop.Jobs, ∃ t ∈ job, taskOf shop o = some t := by
  obtain ⟨h1, h2⟩ := (mem_decode gene o).mp ho
  rw [taskCount_of_valid shop gene hv] at h2
  exact taskOf_of_le_taskCount shop o.1 o.2 h1 h2

theorem decode_take (gene : Gene) (i : Nat) : decode (gene.take i) = (decode gene).take i := by
  apply List.ext_getElem?
  intro n
  rcases Nat.lt_or_ge n (min i gene.length) with hn | hn
  · have hn1 : n < gene.length := by omega
    have hn2 : n < i := by omega
    have hg : (gene.take i)[n]? = some gene[n] := by
      rw [List.getElem?_take, if_pos hn2, List.getElem?_eq_getElem hn1]
    rw [decode_getElem? _ n _ hg, List.getElem?_take, if_pos hn2,
      decode_getElem? gene n _ (List.getElem?_eq_getElem hn1)]
    rw [List.take_take, Nat.min_eq_left (by omega)]
  · rw [List.getElem?_eq_none_iff.mpr (by rw [decode_length, List.length_take]; exact hn),
      List.getElem?_eq_none_iff.mpr (by rw [List.length_take, decode_length]; exact hn)]

theorem decode_pred (gene : Gene) (i : Nat) (o : Operation) (hi : (decode gene)[i]? = some o)
    (hne : o.2 ≠ 1) : ∃ i', i' < i ∧ (decode gene)[i']? = some (o.1, o.2 - 1) := by
  have hlt : i < gene.length := by
    have := (List.getElem?_eq_some_iff.mp hi).1; rwa [decode_length] at this
  rw [decode_getElem? gene i gene[i] (List.getElem?_eq_getElem hlt)] at hi
  cases hi
  simp only at hne ⊢
  have e : gene.take (i + 1) = gene.take i ++ [gene[i]] := by
    rw [List.take_succ, List.getElem?_eq_getElem hlt]; rfl
  rw [e, List.count_append] at hne ⊢
  simp only [List.count_singleton, beq_self_eq_true, if_true] at hne ⊢
  have hc : 1 ≤ (gene.take i).count gene[i] := by
    by_contra h
    have : (gene.take i).count gene[i] = 0 := by omega
    rw [this] at hne; simp at hne
  have hmem : (gene[i], (((gene.take i).count gene[i] : Nat) : Int)) ∈ decode (gene.take i) := by
    rw [mem_decode]; simp only; omega
  rw [decode_take] at hmem
  obtain ⟨i', hi'⟩ := List.getElem?_of_mem hmem
  have hi'lt : i' < i := by
    have := (List.getElem?_eq_some_iff.mp hi').1
    rw [List.length_take] at this; omega
  refine ⟨i', hi'lt, ?_⟩
  rw [List.getElem?_take, if_pos hi'lt] at hi'
  rw [hi']
  congr 1
  push_cast; simp

theorem decode_schedOK (shop : Shop) (gene : Gene) (hv : ValidGene shop gene)
    (hd : DurationsNonneg shop) : SchedOK shop (decode gene) := by
  constructor
  · exact decode_nodup gene
  · intro o ho
    obtain ⟨job, hjob, t, ht, hto⟩ := taskOf_of_mem_decode shop gene hv o ho
    exact ⟨t, hto, hd job hjob t ht⟩
  · intro o ho e
    have := ((mem_decode gene o).mp ho).1
    rw [e] at this; simp at this
  · intro i o hi hne
    exact decode_pred gene i o hi hne

theorem decode_inRange (shop : Shop) (gene : Gene) (hv : ValidGene shop gene)
    (hm : MachinesInRange shop) :
    ∀ o ∈ decode gene, ∃ t, taskOf shop o = some t ∧ 0 ≤ t.1 ∧ t.1 < shop.Machines := by
  intro o ho
  obtain ⟨job, hjob, t, ht, hto⟩ := taskOf_of_mem_decode shop gene hv o ho
  exact ⟨t, hto, hm job hjob t ht⟩

theorem totalTime_eq_tickLoop (shop : Shop) (gene : Gene) (fuel : Nat)
    (hv : ValidGene shop gene) (hm : MachinesInRange shop) :
    totalTime fuel shop gene = tickLoop shop fuel 0 (initialMachines shop (decode gene)) := by
  unfold totalTime
  rw [initMachines_eq shop (decode gene) (decode_inRange shop gene hv hm)]

/-! ## Termination -/

/-- C6 (amended). For every shop whose machine indices are in range and whose durations are
non-negative, and every gene satisfying the occurrence-count invariant, the tick loop of
`totalTime` terminates: from `fuelBound` iterations on, `totalTime` returns one and the same
makespan `t`, with `0 ≤ t < fuelBound`. -/
theorem totalTime_terminates (shop : Shop) (gene : Gene) (hm : MachinesInRange shop)
    (hd : DurationsNonneg shop) (hv : ValidGene shop gene) :
    ∃ t : Int, 0 ≤ t ∧ t < fuelBound shop gene ∧
      ∀ k : Nat, totalTime (fuelBound shop gene + k) shop gene = Outcome.value t := by
  have hs := decode_schedOK shop gene hv hd
  have hi := initialMachines_inv shop (decode gene) (decode_inRange shop gene hv hm)
  have hnn := totalWork_nonneg shop hi
  obtain ⟨t, ht, hlo, hhi⟩ := tickLoop_terminates hs
    (totalWork shop (initialMachines shop (decode gene))).toNat _ 0 hi (by omega)
  refine ⟨t, hlo, by unfold fuelBound; omega, ?_⟩
  intro k
  rw [totalTime_eq_tickLoop shop gene _ hv hm]
  exact tickLoop_fuel_mono shop _ k 0 _ t ht

theorem totalTime_terminates_witness :
    ∃ t : Int, 0 ≤ t ∧ t < fuelBound example_ [1, 1, 2, 2, 3, 1, 2, 3] ∧
      ∀ k : Nat, totalTime (fuelBound example_ [1, 1, 2, 2, 3, 1, 2, 3] + k) example_
        [1, 1, 2, 2, 3, 1, 2, 3] = Outcome.value t :=
  totalTime_terminates example_ [1, 1, 2, 2, 3, 1, 2, 3] (by decide) (by decide) (by decide)

theorem stuck_forever : ∀ (fuel : Nat) (time : Int),
    tickLoop negativeShop fuel time stuckMachines = Outcome.running := by
  intro fuel
  induction fuel with
  | zero => intro time; rfl
  | succ n ih =>
    intro time
    have h1 : allDone stuckMachines = false := by decide
    have h2 : tick negativeShop stuckMachines = some stuckMachines := by decide
    unfold tickLoop
    simp only [h1, h2]
    exact ih (time + 1)

/-- C6, counterexample. The shop with the single job `[(0,-1),(0,1)]` on one machine has
in-range machine indices and `[1, 1]` satisfies the occurrence-count invariant, yet the tick
loop never returns: `totalTime` runs out of fuel for every amount of fuel. -/
theorem totalTime_negative_duration_diverges :
    MachinesInRange negativeShop ∧ ValidGene negativeShop [1, 1] ∧
    ∀ fuel : Nat, totalTime fuel negativeShop [1, 1] = Outcome.running := by
  refine ⟨by decide, by decide, ?_⟩
  intro fuel
  have h0 : initMachines negativeShop (decode [1, 1]) = some negativeStart := by decide
  unfold totalTime
  rw [h0]
  simp only
  cases fuel with
  | zero => rfl
  | succ n =>
    have h1 : allDone negativeStart = false := by decide
    have h2 : tick negativeShop negativeStart = some stuckMachines := by decide
    unfold tickLoop
    simp only [h1, h2]
    exact stuck_forever n _

/-! ## Machine load -/

theorem mem_opsFrom (jobs : List Job) : ∀ (j : Int) (o : Operation),
    o ∈ opsFrom j jobs ↔
      j ≤ o.1 ∧ 1 ≤ o.2 ∧ ∃ job, index jobs (o.1 - j) = some job ∧ o.2 ≤ (job.length : Int) := by
  induction jobs with
  | nil =>
    intro j o
    simp [opsFrom, index]
  | cons job rest ih =>
    intro j o
    simp only [opsFrom, List.mem_append, List.mem_map, List.mem_range, ih]
    constructor
    · rintro (⟨n, hn, rfl⟩ | ⟨h1, h2, job', hj', hl⟩)
      · refine ⟨le_refl _, by simp only; omega, job, ?_, by simp only; omega⟩
        simp [index]
      · refine ⟨by omega, h2, job', ?_, hl⟩
        rw [index_eq_some] at hj' ⊢
        refine ⟨by omega, ?_⟩
        have e : (o.1 - j).toNat = (o.1 - (j + 1)).toNat + 1 := by omega
        rw [e, List.getElem?_cons_succ]
        exact hj'.2
    · rintro ⟨h1, h2, job', hj', hl⟩
      by_cases e : o.1 = j
      · left
        rw [index_eq_some] at hj'
        have e0 : (o.1 - j).toNat = 0 := by omega
        rw [e0] at hj'
        simp at hj'
        obtain ⟨_, rfl⟩ := hj'
        refine ⟨(o.2 - 1).toNat, by omega, ?_⟩
        apply Prod.ext
        · simp only; exact e.symm
        · simp only; omega
      · right
        refine ⟨by omega, h2, job', ?_, hl⟩
        rw [index_eq_some] at hj' ⊢
        refine ⟨by omega, ?_⟩
        have e : (o.1 - j).toNat = (o.1 - (j + 1)).toNat + 1 := by omega
        rw [e, List.getElem?_cons_succ] at hj'
        exact hj'.2

theorem opsFrom_nodup (jobs : List Job) : ∀ j : Int, (opsFrom j jobs).Nodup := by
  induction jobs with
  | nil => intro j; simp [opsFrom]
  | cons job rest ih =>
    intro j
    simp only [opsFrom]
    rw [List.nodup_append]
    refine ⟨?_, ih (j + 1), ?_⟩
    · apply List.Nodup.map _ (List.nodup_range _)
      intro a b h
      simp only [Prod.mk.injEq, true_and] at h
      omega
    · intro o h1 h2
      obtain ⟨n, _, rfl⟩ := List.mem_map.mp h1
      have := ((mem_opsFrom rest (j + 1) _).mp h2).1
      simp only at this
      omega

theorem map_taskFrom_opsFrom (jobs : List Job) : ∀ j : Int,
    (opsFrom j jobs).map (taskFrom j jobs) = jobs.flatten.map some := by
  induction jobs with
  | nil => intro j; simp [opsFrom]
  | cons job rest ih =>
    intro j
    simp only [opsFrom, List.map_append, List.flatten_cons, List.map_map]
    congr 1
    · apply List.ext_getElem?
      intro n
      rw [List.getElem?_map, List.getElem?_map]
      rcases Nat.lt_or_ge n job.length with hn | hn
      · rw [List.getElem?_range hn, List.getElem?_eq_getElem hn]
        simp only [Option.map_some', Function.comp, taskFrom, sub_self]
        simp only [index]
        simp only [lt_self_iff_false, if_false, Int.toNat_zero, List.getElem?_cons_zero]
        have : ¬ ((n : Int) + 1 - 1 < 0) := by omega
        simp only [this, if_false]
        have e : ((n : Int) + 1 - 1).toNat = n := by omega
        rw [e, List.getElem?_eq_getElem hn]
      · rw [List.getElem?_eq_none_iff.mpr (by simpa using hn),
          List.getElem?_eq_none_iff.mpr hn]
        rfl
    · rw [← ih (j + 1)]
      apply List.map_congr_left
      intro o ho
      have h1 := ((mem_opsFrom rest (j + 1) o).mp ho).1
      unfold taskFrom index
      have a1 : ¬ (o.1 - j < 0) := by omega
      have a2 : ¬ (o.1 - (j + 1) < 0) := by omega
      have e : (o.1 - j).toNat = (o.1 - (j + 1)).toNat + 1 := by omega
      simp only [a1, a2, if_false, e, List.getElem?_cons_succ]

theorem taskFrom_one (shop : Shop) (o : Operation) : taskFrom 1 shop.Jobs o = taskOf shop o := rfl

theorem decode_perm_opsFrom (shop : Shop) (gene : Gene) (hv : ValidGene shop gene) :
    (decode gene).Perm (opsFrom 1 shop.Jobs) := by
  rw [List.perm_ext_iff_of_nodup (decode_nodup gene) (opsFrom_nodup _ _)]
  intro o
  rw [mem_decode, mem_opsFrom, taskCount_of_valid shop gene hv]
  unfold taskCount
  constructor
  · rintro ⟨h1, h2⟩
    cases hj : index shop.Jobs (o.1 - 1) with
    | none => rw [hj] at h2; simp at h2; omega
    | some job =>
      rw [hj] at h2
      have := ((index_eq_some _ _ _).mp hj).1
      exact ⟨by omega, h1, job, rfl, h2⟩
  · rintro ⟨_, h1, job, hj, hl⟩
    rw [hj]
    exact ⟨h1, hl⟩

theorem sum_filter_eq (l : List Operation) (p : Operation → Bool) (f : Operation → Int) :
    ((l.filter p).map f).sum = (l.map (fun o => if p o = true then f o else 0)).sum := by
  induction l with
  | nil => rfl
  | cons a l ih =>
    by_cases h : p a = true
    · simp [List.filter_cons, h, ih]
    · simp [List.filter_cons, h, ih]

theorem sum_filter_task_eq (l : List Task) (m : Int) :
    ((l.filter (fun t => decide (t.1 = m))).map (fun t => t.2)).sum =
      ((l.map some).map (loadOn m)).sum := by
  induction l with
  | nil => rfl
  | cons a l ih =>
    by_cases h : a.1 = m
    · simp [List.filter_cons, h, loadOn] at ih ⊢; rw [ih]
    · simp [List.filter_cons, h, loadOn] at ih ⊢; rw [ih]

/-- The initial backlog of machine `k` is the load of machine `k`. -/
theorem initial_backlog (shop : Shop) (gene : Gene) (hv : ValidGene shop gene) (k : Nat) :
    backlog shop { emptyMachine with
        Queue := (decode gene).filter (fun o => decide (machineOf shop o = (k : Int))) } =
      machineLoad shop k := by
  unfold backlog machineLoad
  simp only [emptyMachine, add_zero]
  rw [sum_filter_eq, sum_filter_task_eq, ← map_taskFrom_opsFrom shop.Jobs 1, List.map_map]
  have hp := decode_perm_opsFrom shop gene hv
  rw [← (hp.map _).sum_eq]
  congr 1
  apply List.map_congr_left
  intro o ho
  simp only [Function.comp, taskFrom_one, machineOf, duration, loadOn, decide_eq_true_eq]
  cases taskOf shop o with
  | none => simp
  | some t => simp

theorem machineLoad_out_of_range (shop : Shop) (hm : MachinesInRange shop) (m : Int)
    (h : m < 0 ∨ shop.Machines ≤ m) : machineLoad shop m = 0 := by
  unfold machineLoad
  have : shop.Jobs.flatten.filter (fun t => decide (t.1 = m)) = [] := by
    apply List.filter_eq_nil_iff.mpr
    intro t ht
    obtain ⟨job, hjob, htj⟩ := List.mem_flatten.mp ht
    have := hm job hjob t htj
    simp; omega
  rw [this]; rfl

/-- C1 (lower bound). For every shop whose machine indices lie in `[0, Machines)` and whose
durations are non-negative, and every gene satisfying the occurrence-count invariant,
`totalTime` returns a makespan `t` (for every fuel from `fuelBound` on), and `t` is at least
the sum of the durations of the tasks assigned to machine `m`, for every machine `m`. -/
theorem totalTime_ge_machineLoad (shop : Shop) (gene : Gene) (hm : MachinesInRange shop)
    (hd : DurationsNonneg shop) (hv : ValidGene shop gene) :
    ∃ t : Int, (∀ k : Nat, totalTime (fuelBound shop gene + k) shop gene = Outcome.value t) ∧
      ∀ m : Int, machineLoad shop m ≤ t := by
  have hs := decode_schedOK shop gene hv hd
  have hi := initialMachines_inv shop (decode gene) (decode_inRange shop gene hv hm)
  have hnn := totalWork_nonneg shop hi
  obtain ⟨t, ht, h0, _⟩ := tickLoop_terminates hs
    (totalWork shop (initialMachines shop (decode gene))).toNat _ 0 hi (by omega)
  refine ⟨t, ?_, ?_⟩
  · intro k
    rw [totalTime_eq_tickLoop shop gene _ hv hm]
    exact tickLoop_fuel_mono shop _ k 0 _ t ht
  · intro m
    by_cases hr : m < 0 ∨ shop.Machines ≤ m
    · rw [machineLoad_out_of_range shop hm m hr]; exact h0
    · have hk : m.toNat < shop.Machines.toNat := by omega
      have hmem := List.getElem?_mem (initialMachines_getElem? shop (decode gene) m.toNat hk)
      have h2 := tickLoop_ge_backlog hs _ _ 0 t hi ht _ hmem
      rw [initial_backlog shop gene hv m.toNat] at h2
      have e : ((m.toNat : Nat) : Int) = m := by omega
      rw [e] at h2
      omega

theorem totalTime_ge_machineLoad_witness :
    ∃ t : Int, (∀ k : Nat, totalTime (fuelBound example_ [1, 1, 2, 2, 3, 1, 2, 3] + k) example_
        [1, 1, 2, 2, 3, 1, 2, 3] = Outcome.value t) ∧
      ∀ m : Int, machineLoad example_ m ≤ t :=
  totalTime_ge_machineLoad example_ [1, 1, 2, 2, 3, 1, 2, 3] (by decide) (by decide) (by decide)

/-! ## Precedence along the run -/

theorem advanceOne_completed_subset (d : machine) :
    ∀ o ∈ d.CompletedTasks, o ∈ (advanceOne d).CompletedTasks := by
  intro o ho
  unfold advanceOne
  simp only
  split_ifs <;> first | exact ho | exact List.mem_append_left _ ho

theorem stepOne_completed_subset (shop : Shop) (all : List machine) (m : machine) :
    ∀ o ∈ m.CompletedTasks, o ∈ (stepOne shop all m).CompletedTasks := by
  intro o ho
  rw [← dispatchOne_completed shop all m] at ho
  exact advanceOne_completed_subset _ o ho

theorem dispatchOne_current (shop : Shop) (all : List machine) (m : machine) :
    (dispatchOne shop all m).CurrentTask = m.CurrentTask ∨
      okToQueue (dispatchOne shop all m).CurrentTask all = true := by
  unfold dispatchOne
  split
  · exact Or.inl rfl
  · split
    · exact Or.inl rfl
    · split
      · split
        · exact Or.inl rfl
        · rename_i hok _ _ _
          exact Or.inr hok
      · exact Or.inl rfl

theorem advanceOne_started (d : machine) (o : Operation)
    (h : (advanceOne d).CurrentTask = o ∨ o ∈ (advanceOne d).CompletedTasks) :
    d.CurrentTask = o ∨ o ∈ d.CompletedTasks ∨ o = (0, 0) := by
  unfold advanceOne at h
  simp only at h
  split_ifs at h <;> (try simp only [List.mem_append, List.mem_singleton] at h) <;>
    rcases h with h | h <;> first
      | exact Or.inl h
      | exact Or.inr (Or.inl h)
      | exact Or.inr (Or.inr h.symm)
      | (rcases h with h | h
         · exact Or.inr (Or.inl h)
         · exact Or.inl h.symm)

theorem stepOne_started (shop : Shop) (all : List machine) (m : machine) (o : Operation)
    (h : (stepOne shop all m).CurrentTask = o ∨ o ∈ (stepOne shop all m).CompletedTasks) :
    (m.CurrentTask = o ∨ o ∈ m.CompletedTasks) ∨ okToQueue o all = true ∨ o = (0, 0) := by
  rcases advanceOne_started (dispatchOne shop all m) o h with h1 | h1 | h1
  · rcases dispatchOne_current shop all m with h2 | h2
    · exact Or.inl (Or.inl (h2 ▸ h1))
    · exact Or.inr (Or.inl (h1 ▸ h2))
  · rw [dispatchOne_completed] at h1
    exact Or.inl (Or.inr h1)
  · exact Or.inr (Or.inr h1)

theorem enqueue_some (shop : Shop) (init ms : List machine) (o : Operation)
    (h : enqueue shop init o = some ms) :
    ms.length = init.length ∧
      ∃ t, taskOf shop o = some t ∧ 0 ≤ t.1 ∧ t.1 < (init.length : Int) := by
  unfold enqueue at h
  cases ht : taskOf shop o with
  | none => rw [ht] at h; simp at h
  | some t =>
    rw [ht] at h
    simp only at h
    cases hi : index init t.1 with
    | none => rw [hi] at h; simp at h
    | some m =>
      rw [hi] at h
      simp only [Option.some.injEq] at h
      obtain ⟨h0, h1⟩ := (index_eq_some _ _ _).mp hi
      have := (List.getElem?_eq_some_iff.mp h1).1
      refine ⟨by rw [← h]; simp, t, rfl, h0, by omega⟩

theorem foldlM_enqueue_some (shop : Shop) (l : List Operation) :
    ∀ (init ms : List machine), l.foldlM (enqueue shop) init = some ms →
      ∀ o ∈ l, ∃ t, taskOf shop o = some t ∧ 0 ≤ t.1 ∧ t.1 < (init.length : Int) := by
  induction l with
  | nil => intro init ms _ o ho; simp at ho
  | cons a l ih =>
    intro init ms h o ho
    rw [List.foldlM_cons] at h
    cases he : enqueue shop init a with
    | none => rw [he] at h; simp at h
    | some init' =>
      rw [he] at h
      simp only [Option.bind_eq_bind, Option.some_bind] at h
      obtain ⟨hlen, hta⟩ := enqueue_some shop init init' a he
      rcases List.mem_cons.mp ho with rfl | hm
      · exact hta
      · have := ih init' ms h o hm
        rw [hlen] at this
        exact this

theorem initMachines_some (shop : Shop) (sched : List Operation) (ms0 : List machine)
    (h : initMachines shop sched = some ms0) :
    (∀ o ∈ sched, ∃ t, taskOf shop o = some t ∧ 0 ≤ t.1 ∧ t.1 < shop.Machines) ∧
      ms0 = initialMachines shop sched := by
  have h1 : ∀ o ∈ sched, ∃ t, taskOf shop o = some t ∧ 0 ≤ t.1 ∧ t.1 < shop.Machines := by
    intro o ho
    obtain ⟨t, ht, h0, h1⟩ := foldlM_enqueue_some shop sched _ ms0 h o ho
    rw [List.length_replicate] at h1
    exact ⟨t, ht, h0, by omega⟩
  refine ⟨h1, ?_⟩
  rw [initMachines_eq shop sched h1] at h
  exact (Option.some.inj h).symm

theorem dispatchOne_queue_subset (shop : Shop) (all : List machine) (m : machine) :
    ∀ q ∈ (dispatchOne shop all m).Queue, q ∈ m.Queue := by
  intro q hq
  unfold dispatchOne at hq
  split at hq
  · exact hq
  · rename_i q0 rest hQ
    split at hq
    · exact hq
    · split at hq
      · split at hq
        · exact hq
        · simp only at hq
          rw [hQ]; exact List.mem_cons_of_mem _ hq
      · exact hq

theorem advanceOne_queue (d : machine) : (advanceOne d).Queue = d.Queue := by
  unfold advanceOne
  simp only
  split_ifs <;> rfl

theorem stepOne_queue_subset (shop : Shop) (all : List machine) (m : machine) :
    ∀ q ∈ (stepOne shop all m).Queue, q ∈ m.Queue := by
  intro q hq
  unfold stepOne at hq
  rw [advanceOne_queue] at hq
  exact dispatchOne_queue_subset shop all m q hq

theorem QueuesIn.toQueuesValid {shop : Shop} {sched : List Operation} {ms : List machine}
    (hq : QueuesIn sched ms) (hs : ∀ o ∈ sched, ∃ t, taskOf shop o = some t ∧ 0 ≤ t.1 ∧
      t.1 < shop.Machines) : QueuesValid shop ms := by
  intro m hm q hqm
  obtain ⟨t, ht, _⟩ := hs q (hq m hm q hqm)
  rw [ht]; simp

theorem stateAt_succ (shop : Shop) (ms0 ms' : List machine) (k : Nat)
    (h : stateAt shop ms0 (k + 1) = some ms') :
    ∃ ms, stateAt shop ms0 k = some ms ∧ allDone ms = false ∧ tick shop ms = some ms' := by
  unfold stateAt at h
  cases hk : stateAt shop ms0 k with
  | none => rw [hk] at h; simp at h
  | some ms =>
    rw [hk] at h
    simp only at h
    cases hd : allDone ms with
    | true => rw [hd] at h; simp at h
    | false =>
      rw [hd] at h
      exact ⟨ms, rfl, hd, by simpa using h⟩

theorem stateAt_queuesIn (shop : Shop) (sched : List Operation)
    (hs : ∀ o ∈ sched, ∃ t, taskOf shop o = some t ∧ 0 ≤ t.1 ∧ t.1 < shop.Machines) :
    ∀ (k : Nat) (ms : List machine),
      stateAt shop (initialMachines shop sched) k = some ms → QueuesIn sched ms := by
  intro k
  induction k with
  | zero =>
    intro ms h
    simp only [stateAt, Option.some.injEq] at h
    subst h
    intro m hm q hq
    obtain ⟨i, _, rfl⟩ := List.mem_map.mp hm
    exact (List.mem_filter.mp hq).1
  | succ k ih =>
    intro ms' h
    obtain ⟨ms, hk, _, ht⟩ := stateAt_succ shop _ ms' k h
    have hq := ih ms hk
    rw [tick_eq_map shop ms (hq.toQueuesValid hs)] at ht
    simp only [Option.some.injEq] at ht
    subst ht
    intro m' hm' q hqm
    obtain ⟨m, hm, rfl⟩ := List.mem_map.mp hm'
    exact hq m hm q (stepOne_queue_subset shop ms m q hqm)

/-- One loop iteration from a reachable state is the simultaneous step of all machines. -/
theorem stateAt_step (shop : Shop) (sched : List Operation)
    (hs : ∀ o ∈ sched, ∃ t, taskOf shop o = some t ∧ 0 ≤ t.1 ∧ t.1 < shop.Machines)
    (k : Nat) (ms' : List machine)
    (h : stateAt shop (initialMachines shop sched) (k + 1) = some ms') :
    ∃ ms, stateAt shop (initialMachines shop sched) k = some ms ∧ allDone ms = false ∧
      ms' = ms.map (stepOne shop ms) := by
  obtain ⟨ms, hk, hd, ht⟩ := stateAt_succ shop _ ms' k h
  have hq := stateAt_queuesIn shop sched hs k ms hk
  rw [tick_eq_map shop ms (hq.toQueuesValid hs)] at ht
  exact ⟨ms, hk, hd, (Option.some.inj ht).symm⟩

theorem completedOps_step (shop : Shop) (ms : List machine) (o : Operation)
    (h : o ∈ completedOps ms) : o ∈ completedOps (ms.map (stepOne shop ms)) := by
  unfold completedOps at h ⊢
  obtain ⟨m, hm, hom⟩ := List.mem_flatMap.mp h
  exact List.mem_flatMap.mpr ⟨stepOne shop ms m, List.mem_map_of_mem _ hm,
    stepOne_completed_subset shop ms m o hom⟩

theorem started_step (shop : Shop) (ms : List machine) (o : Operation)
    (h : started (ms.map (stepOne shop ms)) o) (hne : o ≠ (0, 0)) :
    started ms o ∨ okToQueue o ms = true := by
  have key : ∀ m ∈ ms, ((stepOne shop ms m).CurrentTask = o ∨
      o ∈ (stepOne shop ms m).CompletedTasks) → started ms o ∨ okToQueue o ms = true := by
    intro m hm hmo
    rcases stepOne_started shop ms m o hmo with (h1 | h1) | h1 | h1
    · exact Or.inl (Or.inl ⟨m, hm, h1⟩)
    · exact Or.inl (Or.inr (List.mem_flatMap.mpr ⟨m, hm, h1⟩))
    · exact Or.inr h1
    · exact absurd h1 hne
  rcases h with ⟨m', hm', hc⟩ | h
  · obtain ⟨m, hm, rfl⟩ := List.mem_map.mp hm'
    exact key m hm (Or.inl hc)
  · obtain ⟨m', hm', hc⟩ := List.mem_flatMap.mp h
    obtain ⟨m, hm, rfl⟩ := List.mem_map.mp hm'
    exact key m hm (Or.inr hc)

theorem not_started_initial (shop : Shop) (sched : List Operation) (o : Operation)
    (hne : o ≠ (0, 0)) : ¬ started (initialMachines shop sched) o := by
  rintro (⟨m, hm, hc⟩ | h)
  · obtain ⟨i, _, rfl⟩ := List.mem_map.mp hm
    exact hne hc.symm
  · obtain ⟨m, hm, hc⟩ := List.mem_flatMap.mp h
    obtain ⟨i, _, rfl⟩ := List.mem_map.mp hm
    simp [emptyMachine] at hc

/-- An operation that has started was started in some earlier tick. -/
theorem first_start (shop : Shop) (sched : List Operation)
    (hs : ∀ o ∈ sched, ∃ t, taskOf shop o = some t ∧ 0 ≤ t.1 ∧ t.1 < shop.Machines)
    (o : Operation) (hne : o ≠ (0, 0)) :
    ∀ (k : Nat) (ms : List machine), stateAt shop (initialMachines shop sched) k = some ms →
      started ms o →
      ∃ k0, k0 < k ∧ ∃ b, stateAt shop (initialMachines shop sched) k0 = some b ∧
        ¬ started b o ∧ started (b.map (stepOne shop b)) o ∧
        stateAt shop (initialMachines shop sched) (k0 + 1) = some (b.map (stepOne shop b)) := by
  intro k
  induction k with
  | zero =>
    intro ms h hst
    simp only [stateAt, Option.some.injEq] at h
    subst h
    exact absurd hst (not_started_initial shop sched o hne)
  | succ k ih =>
    intro ms' h hst
    obtain ⟨ms, hk, _, rfl⟩ := stateAt_step shop sched hs k ms' h
    by_cases hprev : started ms o
    · obtain ⟨k0, hlt, rest⟩ := ih ms hk hprev
      exact ⟨k0, by omega, rest⟩
    · exact ⟨k, by omega, ms, hk, hprev, hst, h⟩

/-- An operation in a completed list was moved there in some earlier tick. -/
theorem first_completion (shop : Shop) (sched : List Operation)
    (hs : ∀ o ∈ sched, ∃ t, taskOf shop o = some t ∧ 0 ≤ t.1 ∧ t.1 < shop.Machines)
    (o : Operation) :
    ∀ (k : Nat) (ms : List machine), stateAt shop (initialMachines shop sched) k = some ms →
      o ∈ completedOps ms →
      ∃ k1, k1 < k ∧ ∃ a, stateAt shop (initialMachines shop sched) k1 = some a ∧
        o ∉ completedOps a ∧ o ∈ completedOps (a.map (stepOne shop a)) ∧
        stateAt shop (initialMachines shop sched) (k1 + 1) = some (a.map (stepOne shop a)) := by
  intro k
  induction k with
  | zero =>
    intro ms h hc
    simp only [stateAt, Option.some.injEq] at h
    subst h
    exfalso
    obtain ⟨m, hm, hc⟩ := List.mem_flatMap.mp hc
    obtain ⟨i, _, rfl⟩ := List.mem_map.mp hm
    simp [emptyMachine] at hc
  | succ k ih =>
    intro ms' h hc
    obtain ⟨ms, hk, _, rfl⟩ := stateAt_step shop sched hs k ms' h
    by_cases hprev : o ∈ completedOps ms
    · obtain ⟨k1, hlt, rest⟩ := ih ms hk hprev
      exact ⟨k1, by omega, rest⟩
    · exact ⟨k, by omega, ms, hk, hprev, hc, h⟩

/-- Completed lists only grow along the run. -/
theorem completedOps_stateAt_mono (shop : Shop) (sched : List Operation)
    (hs : ∀ o ∈ sched, ∃ t, taskOf shop o = some t ∧ 0 ≤ t.1 ∧ t.1 < shop.Machines)
    (o : Operation) (k0 : Nat) (a : List machine)
    (ha : stateAt shop (initialMachines shop sched) k0 = some a) (hc : o ∈ completedOps a) :
    ∀ (d : Nat) (ms : List machine),
      stateAt shop (initialMachines shop sched) (k0 + d) = some ms → o ∈ completedOps ms := by
  intro d
  induction d with
  | zero =>
    intro ms h
    rw [Nat.add_zero, ha] at h
    cases h; exact hc
  | succ d ih =>
    intro ms' h
    obtain ⟨ms, hk, _, rfl⟩ := stateAt_step shop sched hs (k0 + d) ms' h
    exact completedOps_step shop ms o (ih ms hk)

/-- C7 (precedence). Let `ms` be the machines at the head of iteration `k` of the tick loop
started by `totalTime`. If operation `(j, n)` with `n > 1` is the current task of a machine or
in a completed list of `ms`, then `(j, n-1)` is in a completed list of `ms`; moreover
`(j, n-1)` was moved to a completed list in some tick `k1` and `(j, n)` was started in some
tick `k0` with `k1 < k0 < k`. -/
theorem precedence_respected (shop : Shop) (gene : Gene) (ms0 ms : List machine) (k : Nat)
    (j n : Int) (h0 : initMachines shop (decode gene) = some ms0)
    (hk : stateAt shop ms0 k = some ms) (hn : 1 < n) (hst : started ms (j, n)) :
    (j, n - 1) ∈ completedOps ms ∧
    ∃ k1 k0 : Nat, k1 < k0 ∧ k0 < k ∧
      ∃ a a' b b' : List machine,
        stateAt shop ms0 k1 = some a ∧ stateAt shop ms0 (k1 + 1) = some a' ∧
        (j, n - 1) ∉ completedOps a ∧ (j, n - 1) ∈ completedOps a' ∧
        stateAt shop ms0 k0 = some b ∧ stateAt shop ms0 (k0 + 1) = some b' ∧
        ¬ started b (j, n) ∧ started b' (j, n) := by
  obtain ⟨hs, rfl⟩ := initMachines_some shop (decode gene) ms0 h0
  have hne : ((j, n) : Operation) ≠ (0, 0) := by
    intro e
    have := congrArg Prod.snd e
    simp only at this
    omega
  obtain ⟨k0, hk0, b, hb, hnb, hsb, hb'⟩ := first_start shop _ hs (j, n) hne k ms hk hst
  have hok : okToQueue (j, n) b = true := by
    rcases started_step shop b (j, n) hsb hne with h | h
    · exact absurd h hnb
    · exact h
  have hpred : (j, n - 1) ∈ completedOps b := by
    rcases (okToQueue_iff (j, n) b).mp hok with h | h
    · simp only at h; omega
    · exact h
  obtain ⟨k1, hk1, a, ha, hna, hca, ha'⟩ := first_completion shop _ hs (j, n - 1) k0 b hb hpred
  refine ⟨?_, k1, k0, hk1, hk0, a, _, b, _, ha, ha', hna, hca, hb, hb', hnb, hsb⟩
  have e : k = k0 + (k - k0) := by omega
  rw [e] at hk
  exact completedOps_stateAt_mono shop _ hs (j, n - 1) k0 b hb hpred (k - k0) ms hk

theorem stateAt_shift (shop : Shop) (ms0 : List machine) :
    ∀ k : Nat, stateAt shop ms0 (k + 1) =
      if allDone ms0 then none
      else match tick shop ms0 with
        | none => none
        | some ms1 => stateAt shop ms1 k := by
  intro k
  induction k with
  | zero =>
    simp only [stateAt]
    split_ifs
    · rfl
    · cases tick shop ms0 <;> rfl
  | succ k ih =>
    rw [stateAt, ih]
    by_cases hd : allDone ms0 = true
    · simp [hd]
    · simp only [hd]
      cases ht : tick shop ms0 with
      | none => simp
      | some ms1 => simp [stateAt]

/-- When the tick loop returns `t`, the state at the head of iteration `t - time` is reachable
and finished. -/
theorem tickLoop_stateAt (shop : Shop) :
    ∀ (fuel : Nat) (time : Int) (ms0 : List machine) (t : Int),
      tickLoop shop fuel time ms0 = Outcome.value t →
        ∃ (k : Nat) (ms : List machine), t = time + k ∧ stateAt shop ms0 k = some ms ∧
          allDone ms = true := by
  intro fuel
  induction fuel with
  | zero => intro time ms0 t h; simp [tickLoop] at h
  | succ n ih =>
    intro time ms0 t h
    unfold tickLoop at h
    cases hd : allDone ms0 with
    | true =>
      simp only [hd, if_true, Outcome.value.injEq] at h
      exact ⟨0, ms0, by simp [h], rfl, hd⟩
    | false =>
      simp only [hd] at h
      cases ht : tick shop ms0 with
      | none => simp [ht] at h
      | some ms1 =>
        simp only [ht] at h
        obtain ⟨k, ms, hk, hs, hdone⟩ := ih _ _ _ h
        refine ⟨k + 1, ms, by push_cast; omega, ?_, hdone⟩
        rw [stateAt_shift, hd, ht]
        simpa using hs

theorem precedence_respected_witness :
    (1, 2 - 1) ∈ completedOps chainAt3 ∧
    ∃ k1 k0 : Nat, k1 < k0 ∧ k0 < 3 ∧
      ∃ a a' b b' : List machine,
        stateAt chainShop chainStart k1 = some a ∧
        stateAt chainShop chainStart (k1 + 1) = some a' ∧
        (1, 2 - 1) ∉ completedOps a ∧ (1, 2 - 1) ∈ completedOps a' ∧
        stateAt chainShop chainStart k0 = some b ∧
        stateAt chainShop chainStart (k0 + 1) = some b' ∧
        ¬ started b (1, 2) ∧ started b' (1, 2) :=
  precedence_respected chainShop [1, 1] chainStart chainAt3 3 1 2 (by decide) (by decide)
    (by decide) (Or.inl ⟨_, List.mem_cons_of_mem _ (List.mem_cons_self _ _), rfl⟩)

/-! ## Independent single-task jobs -/

theorem work_pos_iff_acts {shop : Shop} {sched : List Operation} {ms : List machine}
    (hi : Inv sched ms) (hfirst : ∀ o ∈ sched, o.2 = 1) (m : machine) (hm : m ∈ ms) :
    acts ms m = true ↔ 0 < work shop m := by
  have hT := (hi.mach m hm).timeLeft_nonneg
  unfold acts work
  cases hq : m.Queue with
  | nil =>
    simp only [List.map_nil, List.sum_nil, zero_add, Bool.or_false, decide_eq_true_eq]
  | cons q rest =>
    have hqs : q ∈ sched := (hi.queue m hm).subset (by rw [hq]; exact List.mem_cons_self _ _)
    have hok : okToQueue q ms = true := (okToQueue_iff q ms).mpr (Or.inl (hfirst q hqs))
    have h1 := sum_cost_pos shop (q :: rest) (by simp)
    simp only [hok, Bool.or_true, true_iff]
    omega

theorem work_step_of_first {shop : Shop} {sched : List Operation} {ms : List machine}
    (hs : SchedOK shop sched) (hi : Inv sched ms) (hfirst : ∀ o ∈ sched, o.2 = 1)
    (m : machine) (hm : m ∈ ms) :
    work shop (stepOne shop ms m) = work shop m - (if 0 < work shop m then 1 else 0) := by
  rw [(hi.stepCase hs m hm).work_eq]
  by_cases h : acts ms m = true
  · rw [if_pos h, if_pos ((work_pos_iff_acts hi hfirst m hm).mp h)]
  · rw [if_neg h, if_neg (fun h' => h ((work_pos_iff_acts hi hfirst m hm).mpr h'))]

theorem allDone_of_work_le_zero {shop : Shop} {sched : List Operation} {ms : List machine}
    (hi : Inv sched ms) (h : ∀ m ∈ ms, work shop m ≤ 0) : allDone ms = true := by
  rw [allDone_iff]
  intro m hm
  have hT := (hi.mach m hm).timeLeft_nonneg
  have hw := h m hm
  unfold work at hw
  cases hq : m.Queue with
  | nil => rw [hq] at hw; simp at hw; exact ⟨rfl, hw⟩
  | cons q rest =>
    have h1 := sum_cost_pos shop (q :: rest) (by simp)
    rw [hq] at hw
    omega

theorem work_le_zero_of_allDone (shop : Shop) {ms : List machine}
    (h : allDone ms = true) (m : machine) (hm : m ∈ ms) : work shop m ≤ 0 := by
  obtain ⟨hq, ht⟩ := (allDone_iff ms).mp h m hm
  unfold work
  rw [hq]; simpa using ht

/-- When every operation is a first task, the loop returns after exactly as many ticks as
the busiest machine has work. -/
theorem tickLoop_eq_max_work {shop : Shop} {sched : List Operation} (hs : SchedOK shop sched)
    (hfirst : ∀ o ∈ sched, o.2 = 1) :
    ∀ (B : Nat) (ms : List machine) (time : Int), Inv sched ms →
      (∀ m ∈ ms, work shop m ≤ B) → (∃ m ∈ ms, work shop m = B) →
        tickLoop shop (B + 1) time ms = Outcome.value (time + B) := by
  intro B
  induction B with
  | zero =>
    intro ms time hi hle _
    rw [tickLoop_succ_of_done shop 0 time ms (allDone_of_work_le_zero hi (by simpa using hle))]
    simp
  | succ B ih =>
    intro ms time hi hle hex
    obtain ⟨m0, hm0, hw0⟩ := hex
    have hnd : allDone ms = false := by
      cases hd : allDone ms with
      | false => rfl
      | true =>
        have := work_le_zero_of_allDone shop hd m0 hm0
        rw [hw0] at this
        push_cast at this; omega
    rw [tickLoop_succ_of_not_done hs hi (B + 1) time hnd]
    have hstep := ih (ms.map (stepOne shop ms)) (time + 1) (hi.step hs) ?_ ?_
    · rw [hstep]; congr 1; push_cast; omega
    · intro m' hm'
      obtain ⟨m, hm, rfl⟩ := List.mem_map.mp hm'
      rw [work_step_of_first hs hi hfirst m hm]
      have := hle m hm
      have := work_nonneg shop m (hi.mach m hm)
      push_cast at *
      split_ifs <;> omega
    · refine ⟨stepOne shop ms m0, List.mem_map_of_mem _ hm0, ?_⟩
      rw [work_step_of_first hs hi hfirst m0 hm0, hw0]
      push_cast
      have : (0 : Int) < (B : Int) + 1 := by omega
      rw [if_pos this]; omega

theorem tasks_perm (shop : Shop) (gene : Gene) (hv : ValidGene shop gene) :
    ((decode gene).map (taskOf shop)).Perm (shop.Jobs.flatten.map some) := by
  rw [← map_taskFrom_opsFrom shop.Jobs 1]
  exact (decode_perm_opsFrom shop gene hv).map _

theorem jobIds_nodup (shop : Shop) : (jobIds shop).Nodup := by
  unfold jobIds
  apply List.Nodup.map _ (List.nodup_range _)
  intro a b h
  simp only at h
  omega

theorem validGene_of_perm_jobIds (shop : Shop) (gene : Gene) (h1 : SingleTaskJobs shop)
    (hp : gene.Perm (jobIds shop)) : ValidGene shop gene := by
  constructor
  · intro x hx
    have := hp.subset hx
    unfold jobIds at this
    obtain ⟨k, hk, rfl⟩ := List.mem_map.mp this
    have := List.mem_range.mp hk
    omega
  · intro k hk
    have hmem : ((k : Int) + 1) ∈ jobIds shop :=
      List.mem_map.mpr ⟨k, List.mem_range.mpr hk, rfl⟩
    rw [hp.count_eq, List.count_eq_one_of_mem (jobIds_nodup shop) hmem]
    rw [List.getD_eq_getElem?_getD, List.getElem?_eq_getElem hk]
    exact (h1 _ (List.getElem_mem hk)).symm

theorem decode_first_of_single (shop : Shop) (gene : Gene) (h1 : SingleTaskJobs shop)
    (hv : ValidGene shop gene) : ∀ o ∈ decode gene, o.2 = 1 := by
  intro o ho
  obtain ⟨ha, hb⟩ := (mem_decode gene o).mp ho
  rw [taskCount_of_valid shop gene hv] at hb
  unfold taskCount at hb
  cases hj : index shop.Jobs (o.1 - 1) with
  | none => rw [hj] at hb; simp at hb; omega
  | some job =>
    rw [hj] at hb
    simp only at hb
    have := h1 job (List.getElem?_mem ((index_eq_some _ _ _).mp hj).2)
    omega

theorem machineOf_nodup (shop : Shop) (gene : Gene) (hv : ValidGene shop gene)
    (hd : DistinctMachines shop) : ((decode gene).map (machineOf shop)).Nodup := by
  have h := (tasks_perm shop gene hv).map machineOfTask
  rw [List.map_map, List.map_map] at h
  have e1 : (machineOfTask ∘ taskOf shop) = machineOf shop := by
    funext o
    cases h : taskOf shop o <;> simp [Function.comp, machineOf, machineOfTask, h]
  have e2 : (machineOfTask ∘ some) = fun (t : Task) => t.1 := by
    funext t; rfl
  rw [e1, e2] at h
  exact h.symm.nodup hd

theorem filter_length_le_one (l : List Operation) (f : Operation → Int) (k : Int)
    (h : (l.map f).Nodup) : (l.filter (fun o => decide (f o = k))).length ≤ 1 := by
  induction l with
  | nil => simp
  | cons a l ih =>
    rw [List.map_cons, List.nodup_cons] at h
    by_cases e : f a = k
    · have hnil : l.filter (fun o => decide (f o = k)) = [] := by
        apply List.filter_eq_nil_iff.mpr
        intro b hb hfb
        apply h.1
        rw [e]
        have : f b = k := by simpa using hfb
        rw [← this]
        exact List.mem_map_of_mem _ hb
      simp [List.filter_cons, e, hnil]
    · simp only [List.filter_cons, e, decide_False, Bool.false_eq_true, if_false]
      exact ih h.2

theorem foldr_max_ge (l : List Int) : ∀ x ∈ l, x ≤ l.foldr max 0 := by
  induction l with
  | nil => intro x hx; simp at hx
  | cons a l ih =>
    intro x hx
    rw [List.foldr_cons]
    rcases List.mem_cons.mp hx with rfl | h
    · exact le_max_left _ _
    · exact le_trans (ih x h) (le_max_right _ _)

theorem foldr_max_nonneg (l : List Int) : 0 ≤ l.foldr max 0 := by
  induction l with
  | nil => simp
  | cons a l ih => rw [List.foldr_cons]; exact le_trans ih (le_max_right _ _)

theorem foldr_max_mem (l : List Int) (hne : l ≠ []) (hpos : ∀ x ∈ l, 0 ≤ x) :
    l.foldr max 0 ∈ l := by
  induction l with
  | nil => exact absurd rfl hne
  | cons a l ih =>
    rw [List.foldr_cons]
    by_cases hl : l = []
    · subst hl
      have := hpos a (List.mem_cons_self _ _)
      simp [max_eq_left this]
    · have h1 := ih hl (fun x hx => hpos x (List.mem_cons_of_mem _ hx))
      rcases le_total a (l.foldr max 0) with h | h
      · rw [max_eq_right h]; exact List.mem_cons_of_mem _ h1
      · rw [max_eq_left h]; exact List.mem_cons_self _ _

theorem cost_of_task (shop : Shop) (o : Operation) (t : Task) (h : taskOf shop o = some t)
    (h1 : 1 ≤ t.2) : cost shop o = t.2 := by
  unfold cost duration
  rw [h]
  exact max_eq_right h1

theorem durationsNonneg_of_pos (shop : Shop) (h : DurationsPos shop) : DurationsNonneg shop := by
  intro job hj t ht
  have := h job hj t ht
  omega

theorem work_initial_single (shop : Shop) (gene : Gene) (hv : ValidGene shop gene)
    (hpos : DurationsPos shop) (hdist : DistinctMachines shop) (k : Nat) :
    let m : machine := { emptyMachine with
      Queue := (decode gene).filter (fun o => decide (machineOf shop o = (k : Int))) }
    work shop m ≤ maxDuration shop ∧
      ∀ o ∈ m.Queue, ∀ t, taskOf shop o = some t → work shop m = t.2 := by
  intro m
  have hlen := filter_length_le_one (decode gene) (machineOf shop) (k : Int)
    (machineOf_nodup shop gene hv hdist)
  have hq : m.Queue = (decode gene).filter (fun o => decide (machineOf shop o = (k : Int))) := rfl
  have hT : m.TimeLeft = 0 := rfl
  cases hf : (decode gene).filter (fun o => decide (machineOf shop o = (k : Int))) with
  | nil =>
    refine ⟨?_, ?_⟩
    · unfold work
      rw [hq, hf, hT]
      simp only [List.map_nil, List.sum_nil, add_zero]
      exact foldr_max_nonneg _
    · intro o ho
      rw [hq, hf] at ho
      simp at ho
  | cons o rest =>
    rw [hf] at hlen
    have hrest : rest = [] := by
      cases rest with
      | nil => rfl
      | cons _ _ => simp at hlen
    subst hrest
    have ho : o ∈ decode gene := (List.mem_filter.mp (hf ▸ List.mem_cons_self o [])).1
    obtain ⟨job, hjob, t, ht, hto⟩ := taskOf_of_mem_decode shop gene hv o ho
    have hc := cost_of_task shop o t hto (hpos job hjob t ht)
    have hw : work shop m = t.2 := by
      unfold work
      rw [hq, hf, hT]
      simp only [List.map_cons, List.map_nil, List.sum_cons, List.sum_nil, hc]
      omega
    refine ⟨?_, ?_⟩
    · rw [hw]
      apply foldr_max_ge
      exact List.mem_map.mpr ⟨t, List.mem_flatten.mpr ⟨job, hjob, ht⟩, rfl⟩
    · intro o' ho' t' ht'
      rw [hq, hf] at ho'
      simp only [List.mem_singleton] at ho'
      subst ho'
      rw [hto] at ht'
      cases ht'
      exact hw

/-- C9 (amended: independent jobs run in parallel). For a shop with at least one job, in which
every job has exactly one task of duration at least 1, no two jobs use the same machine and
every task names a machine of the shop (`0 ≤ machine < Machines`), and for every gene that is
a permutation of the job identifiers, `totalTime` returns the maximum task duration, whatever
the order of the gene. -/
theorem independent_jobs_makespan (shop : Shop) (gene : Gene) (hne : shop.Jobs ≠ [])
    (h1 : SingleTaskJobs shop) (hpos : DurationsPos shop) (hdist : DistinctMachines shop)
    (hm : MachinesInRange shop) (hp : gene.Perm (jobIds shop)) :
    ∃ fuel : Nat, ∀ k : Nat,
      totalTime (fuel + k) shop gene = Outcome.value (maxDuration shop) := by
  have hv := validGene_of_perm_jobIds shop gene h1 hp
  have hs := decode_schedOK shop gene hv (durationsNonneg_of_pos shop hpos)
  have hi := initialMachines_inv shop (decode gene) (decode_inRange shop gene hv hm)
  have hfirst := decode_first_of_single shop gene h1 hv
  have hB : 0 ≤ maxDuration shop := foldr_max_nonneg _
  have hle : ∀ m ∈ initialMachines shop (decode gene),
      work shop m ≤ ((maxDuration shop).toNat : Int) := by
    intro m hmem
    obtain ⟨k, _, rfl⟩ := List.mem_map.mp hmem
    have := (work_initial_single shop gene hv hpos hdist k).1
    omega
  have hex : ∃ m ∈ initialMachines shop (decode gene),
      work shop m = ((maxDuration shop).toNat : Int) := by
    have hflat : shop.Jobs.flatten.map (fun t => t.2) ≠ [] := by
      cases hj : shop.Jobs with
      | nil => exact absurd hj hne
      | cons job rest =>
        have := h1 job (by rw [hj]; exact List.mem_cons_self _ _)
        cases job with
        | nil => simp at this
        | cons t ts => simp
    have hmem := foldr_max_mem _ hflat (by
      intro x hx
      obtain ⟨t, ht, rfl⟩ := List.mem_map.mp hx
      obtain ⟨job, hjob, htj⟩ := List.mem_flatten.mp ht
      have := hpos job hjob t htj
      omega)
    obtain ⟨t, ht, hmax⟩ := List.mem_map.mp hmem
    obtain ⟨job, hjob, htj⟩ := List.mem_flatten.mp ht
    have hsome : some t ∈ (decode gene).map (taskOf shop) :=
      (tasks_perm shop gene hv).symm.subset (List.mem_map_of_mem _ ht)
    obtain ⟨o, ho, hto⟩ := List.mem_map.mp hsome
    obtain ⟨hr0, hr1⟩ := hm job hjob t htj
    have hk : t.1.toNat < shop.Machines.toNat := by omega
    refine ⟨_, List.getElem?_mem (initialMachines_getElem? shop (decode gene) t.1.toNat hk), ?_⟩
    have hoq : o ∈ (decode gene).filter
        (fun o => decide (machineOf shop o = ((t.1.toNat : Nat) : Int))) := by
      apply List.mem_filter.mpr
      refine ⟨ho, ?_⟩
      simp only [machineOf, hto, decide_eq_true_eq]
      omega
    have := (work_initial_single shop gene hv hpos hdist t.1.toNat).2 o hoq t hto
    rw [this]
    have : (fun (t : Task) => t.2) t = maxDuration shop := hmax
    simp only at this
    omega
  refine ⟨(maxDuration shop).toNat + 1, ?_⟩
  intro k
  rw [totalTime_eq_tickLoop shop gene _ hv hm]
  have h := tickLoop_eq_max_work hs hfirst (maxDuration shop).toNat _ 0 hi hle hex
  have e : (0 : Int) + ((maxDuration shop).toNat : Int) = maxDuration shop := by omega
  rw [e] at h
  exact tickLoop_fuel_mono shop _ k 0 _ _ h

theorem independent_jobs_makespan_witness :
    (∃ fuel : Nat, ∀ k : Nat,
      totalTime (fuel + k) parallelShop [1, 2] = Outcome.value (maxDuration parallelShop)) ∧
    (∃ fuel : Nat, ∀ k : Nat,
      totalTime (fuel + k) parallelShop [2, 1] = Outcome.value (maxDuration parallelShop)) ∧
    maxDuration parallelShop = 4 :=
  ⟨independent_jobs_makespan parallelShop [1, 2] (by decide) (by decide) (by decide)
      (by decide) (by decide) (by decide),
   independent_jobs_makespan parallelShop [2, 1] (by decide) (by decide) (by decide)
      (by decide) (by decide) (by decide),
   by decide⟩

/-- C9, counterexample. The shop with the single job `[(0,1)]` and no machine has at least one
job, every job has exactly one task of duration at least 1, no two jobs use the same machine,
and `[1]` is a permutation of the job identifiers; yet `totalTime` does not return the maximum
task duration 1: queueing the operation indexes machine 0 of an empty machine list and
panics, whatever the fuel. -/
theorem independent_jobs_machine_out_of_range :
    noMachineShop.Jobs ≠ [] ∧ SingleTaskJobs noMachineShop ∧ DurationsPos noMachineShop ∧
    DistinctMachines noMachineShop ∧ ([1] : Gene).Perm (jobIds noMachineShop) ∧
    maxDuration noMachineShop = 1 ∧
    initMachines noMachineShop (decode [1]) = none ∧
    ∀ fuel : Nat, totalTime fuel noMachineShop [1] = Outcome.panic ∧
      totalTime fuel noMachineShop [1] ≠ Outcome.value (maxDuration noMachineShop) := by
  have h2 : initMachines noMachineShop (decode [1]) = none := by decide
  have h3 : ∀ fuel : Nat, totalTime fuel noMachineShop [1] = Outcome.panic := by
    intro fuel
    unfold totalTime
    rw [h2]
  refine ⟨by decide, by decide, by decide, by decide, by decide, by decide, h2, ?_⟩
  intro fuel
  rw [h3 fuel]
  exact ⟨rfl, by simp⟩

/-! ## A single job -/

theorem countP_le_one_of_pairwise (l : List machine) (p : machine → Bool)
    (h : l.Pairwise (fun a b => ¬ (p a = true ∧ p b = true))) : l.countP p ≤ 1 := by
  induction l with
  | nil => simp
  | cons a l ih =>
    rw [List.pairwise_cons] at h
    rw [List.countP_cons]
    by_cases ha : p a = true
    · have : l.countP p = 0 := by
        rw [List.countP_eq_zero]
        intro b hb hpb
        exact h.1 b hb ⟨ha, hpb⟩
      simp [ha, this]
    · have := ih h.2
      simp [ha]; exact this

/-- An operation that is queued or executing on a machine is in no completed list. -/
theorem not_completed_of_pending {sched : List Operation} {ms : List machine}
    (hnd : sched.Nodup) (hi : Inv sched ms) (m : machine) (hm : m ∈ ms) (o : Operation)
    (ho : o ∈ m.Queue ++ current m) : o ∉ completedOps ms := by
  intro hc
  obtain ⟨m', hm', hc'⟩ := List.mem_flatMap.mp hc
  have hnd' : (ms.flatMap opsOf).Nodup := hi.perm.symm.nodup hnd
  rw [List.nodup_flatMap] at hnd'
  have ho1 : o ∈ opsOf m := by
    unfold opsOf
    rcases List.mem_append.mp ho with h | h
    · exact List.mem_append_left _ h
    · exact List.mem_append_right _ (List.mem_append_left _ h)
  have ho2 : o ∈ opsOf m' := by
    unfold opsOf
    exact List.mem_append_right _ (List.mem_append_right _ hc')
  by_cases e : m = m'
  · subst e
    have h1 := hnd'.1 m hm
    unfold opsOf at h1
    rw [← List.append_assoc, List.nodup_append] at h1
    exact h1.2.2 ho hc'
  · have hsym : Symmetric (fun a b : machine => List.Disjoint (opsOf a) (opsOf b)) :=
      fun a b h => h.symm
    exact (hnd'.2.forall hsym hm hm' e) ho1 ho2

/-- Completed operations of a job are closed under predecessors. -/
theorem completed_downward {sched : List Operation} {ms : List machine} (hi : Inv sched ms)
    (j : Int) : ∀ (d : Nat) (n : Int), (j, n) ∈ completedOps ms → 1 ≤ n - d →
      (j, n - d) ∈ completedOps ms := by
  intro d
  induction d with
  | zero => intro n h _; simpa using h
  | succ d ih =>
    intro n h hle
    have h1 := ih n h (by push_cast at hle; omega)
    obtain ⟨m, hm, hc⟩ := List.mem_flatMap.mp h1
    have := hi.prec m hm (j, n - d) (List.mem_append_right _ hc) (by simp only; push_cast at hle; omega)
    simp only at this
    have e : n - (d : Int) - 1 = n - ((d + 1 : Nat) : Int) := by push_cast; omega
    rw [e] at this
    exact this

/-- The operation with which an acting machine is occupied in this tick. -/
theorem acts_operation {sched : List Operation} {ms : List machine}
    (hi : Inv sched ms) (m : machine) (hm : m ∈ ms) (ha : acts ms m = true) :
    ∃ o, o ∈ m.Queue ++ current m ∧ (o.2 = 1 ∨ (o.1, o.2 - 1) ∈ completedOps ms) := by
  unfold acts at ha
  by_cases hT : 0 < m.TimeLeft
  · have hcur : m.CurrentTask ∈ current m := by simp [current, hT]
    refine ⟨m.CurrentTask, List.mem_append_right _ hcur, ?_⟩
    by_cases h1 : m.CurrentTask.2 = 1
    · exact Or.inl h1
    · exact Or.inr (hi.prec m hm _ (List.mem_append_left _ hcur) h1)
  · cases hq : m.Queue with
    | nil => simp [hT, hq] at ha
    | cons q rest =>
      simp only [hT, hq, decide_False, Bool.false_or] at ha
      exact ⟨q, List.mem_append_left _ (List.mem_cons_self _ _), (okToQueue_iff q ms).mp ha⟩

/-- When all operations belong to one job, at most one machine acts in a tick. -/
theorem acts_le_one {shop : Shop} {sched : List Operation} {ms : List machine}
    (hs : SchedOK shop sched) (hi : Inv sched ms) (j0 : Int)
    (hjob : ∀ o ∈ sched, o.1 = j0 ∧ 1 ≤ o.2) : ms.countP (acts ms) ≤ 1 := by
  apply countP_le_one_of_pairwise
  have hnd' : (ms.flatMap opsOf).Nodup := hi.perm.symm.nodup hs.nodup
  rw [List.nodup_flatMap] at hnd'
  refine hnd'.2.imp_of_mem ?_
  intro a b ha hb hdis hact
  obtain ⟨oa, hoa, hpa⟩ := acts_operation hi a ha hact.1
  obtain ⟨ob, hob, hpb⟩ := acts_operation hi b hb hact.2
  have mem_ops : ∀ m ∈ ms, ∀ o ∈ m.Queue ++ current m, o ∈ opsOf m := by
    intro m _ o ho
    unfold opsOf
    rcases List.mem_append.mp ho with h | h
    · exact List.mem_append_left _ h
    · exact List.mem_append_right _ (List.mem_append_left _ h)
  have hoa' := mem_ops a ha oa hoa
  have hob' := mem_ops b hb ob hob
  have hsa : oa ∈ sched := hi.perm.subset (List.mem_flatMap.mpr ⟨a, ha, hoa'⟩)
  have hsb : ob ∈ sched := hi.perm.subset (List.mem_flatMap.mpr ⟨b, hb, hob'⟩)
  have hne : oa ≠ ob := by
    intro e
    exact hdis hoa' (e ▸ hob')
  obtain ⟨ja, na⟩ := oa
  obtain ⟨jb, nb⟩ := ob
  have h1 := hjob _ hsa
  have h2 := hjob _ hsb
  simp only at h1 h2 hpa hpb
  obtain ⟨e1, hna⟩ := h1
  obtain ⟨e2, hnb⟩ := h2
  have e12 : ja = jb := e1.trans e2.symm
  have hnn : na ≠ nb := by
    intro e; exact hne (by rw [e, e12])
  rcases lt_or_gt_of_ne hnn with hlt | hgt
  · -- `na < nb`: the predecessor of `(jb, nb)` is completed, hence so is `(ja, na)`
    have hpred : (jb, nb - 1) ∈ completedOps ms := by
      rcases hpb with h | h
      · omega
      · exact h
    have := completed_downward hi jb (nb - 1 - na).toNat (nb - 1) hpred (by omega)
    have e : nb - 1 - ((nb - 1 - na).toNat : Int) = na := by omega
    rw [e, ← e12] at this
    exact not_completed_of_pending hs.nodup hi a ha _ hoa this
  · have hpred : (ja, na - 1) ∈ completedOps ms := by
      rcases hpa with h | h
      · omega
      · exact h
    have := completed_downward hi ja (na - 1 - nb).toNat (na - 1) hpred (by omega)
    have e : na - 1 - ((na - 1 - nb).toNat : Int) = nb := by omega
    rw [e, e12] at this
    exact not_completed_of_pending hs.nodup hi b hb _ hob this

theorem totalWork_eq_zero_of_allDone (shop : Shop) {sched : List Operation} {ms : List machine}
    (hi : Inv sched ms) (hd : allDone ms = true) : totalWork shop ms = 0 := by
  unfold totalWork
  have : ∀ m ∈ ms, work shop m = 0 := by
    intro m hm
    have h1 := work_le_zero_of_allDone shop hd m hm
    have h2 := work_nonneg shop m (hi.mach m hm)
    omega
  have h0 : ms.map (work shop) = ms.map (fun _ => (0 : Int)) :=
    List.map_congr_left this
  rw [h0]
  simp

/-- When at most one machine acts per tick, the loop returns after exactly as many ticks as
there is work. -/
theorem tickLoop_eq_totalWork {shop : Shop} {sched : List Operation} (hs : SchedOK shop sched)
    (hone : ∀ ms : List machine, Inv sched ms → ms.countP (acts ms) ≤ 1) :
    ∀ (n : Nat) (ms : List machine) (time : Int), Inv sched ms → totalWork shop ms = n →
      tickLoop shop (n + 1) time ms = Outcome.value (time + n) := by
  intro n
  induction n with
  | zero =>
    intro ms time hi hw
    cases hd : allDone ms with
    | true => rw [tickLoop_succ_of_done shop 0 time ms hd]; simp
    | false =>
      exfalso
      obtain ⟨m, hm, ha⟩ := hi.progress hs hd
      have h1 := totalWork_step hs hi
      have h2 := totalWork_nonneg shop (hi.step hs)
      have h3 : 0 < ms.countP (acts ms) := List.countP_pos_iff.mpr ⟨m, hm, ha⟩
      have h4 : (0 : Int) < (ms.countP (acts ms) : Int) := by exact_mod_cast h3
      simp at hw
      omega
  | succ n ih =>
    intro ms time hi hw
    cases hd : allDone ms with
    | true =>
      have := totalWork_eq_zero_of_allDone shop hi hd
      rw [this] at hw
      push_cast at hw; omega
    | false =>
      obtain ⟨m, hm, ha⟩ := hi.progress hs hd
      have h1 := totalWork_step hs hi
      have h3 : 0 < ms.countP (acts ms) := List.countP_pos_iff.mpr ⟨m, hm, ha⟩
      have h5 := hone ms hi
      have h6 : ms.countP (acts ms) = 1 := by omega
      rw [h6] at h1
      rw [tickLoop_succ_of_not_done hs hi (n + 1) time hd,
        ih (ms.map (stepOne shop ms)) (time + 1) (hi.step hs) (by push_cast at hw ⊢; omega)]
      congr 1
      push_cast; omega

theorem sum_work_eq (shop : Shop) (ms : List machine) :
    (ms.map (work shop)).sum =
      ((ms.flatMap (fun m => m.Queue)).map (cost shop)).sum +
        (ms.map (fun m => m.TimeLeft)).sum := by
  induction ms with
  | nil => simp
  | cons m ms ih =>
    simp only [List.map_cons, List.sum_cons, List.flatMap_cons, List.map_append, List.sum_append,
      ih, work]
    omega

theorem totalWork_initial (shop : Shop) (sched : List Operation)
    (h : ∀ o ∈ sched, ∃ t, taskOf shop o = some t ∧ 0 ≤ t.1 ∧ t.1 < shop.Machines) :
    totalWork shop (initialMachines shop sched) = (sched.map (cost shop)).sum := by
  have hi := initialMachines_inv shop sched h
  unfold totalWork
  rw [sum_work_eq]
  have hT : (initialMachines shop sched).map (fun m => m.TimeLeft) =
      (initialMachines shop sched).map (fun _ => (0 : Int)) := by
    apply List.map_congr_left
    intro m hm
    obtain ⟨k, _, rfl⟩ := List.mem_map.mp hm
    rfl
  have hQ : ((initialMachines shop sched).flatMap (fun m => m.Queue)).Perm sched := by
    refine (List.Perm.flatMap_left _ ?_).trans hi.perm
    intro m hm
    obtain ⟨k, _, rfl⟩ := List.mem_map.mp hm
    simp [opsOf, current, emptyMachine]
  rw [hT, (hQ.map (cost shop)).sum_eq]
  simp

theorem sum_cost_decode (shop : Shop) (gene : Gene) (hv : ValidGene shop gene)
    (hpos : DurationsPos shop) :
    ((decode gene).map (cost shop)).sum = totalDuration shop := by
  have e1 : (decode gene).map (cost shop) = ((decode gene).map (taskOf shop)).map costOfTask := by
    rw [List.map_map]
    apply List.map_congr_left
    intro o _
    cases h : taskOf shop o <;> simp [Function.comp, cost, duration, costOfTask, h]
  rw [e1, ((tasks_perm shop gene hv).map costOfTask).sum_eq, List.map_map]
  unfold totalDuration
  congr 1
  apply List.map_congr_left
  intro t ht
  obtain ⟨job, hjob, htj⟩ := List.mem_flatten.mp ht
  simp only [Function.comp, costOfTask]
  exact max_eq_right (hpos job hjob t htj)

/-- C8 (single-job makespan). For a shop with exactly one job whose tasks have durations at
least 1 and in-range machine indices, `totalTime` on the gene made of one `1` per task returns
the sum of the task durations. -/
theorem single_job_makespan (shop : Shop) (job : Job) (hjobs : shop.Jobs = [job])
    (hpos : DurationsPos shop) (hm : MachinesInRange shop) :
    ∃ fuel : Nat, ∀ k : Nat,
      totalTime (fuel + k) shop (List.replicate job.length 1) =
        Outcome.value ((job.map (fun (t : Task) => t.2)).sum) := by
  have hv : ValidGene shop (List.replicate job.length 1) := by
    constructor
    · intro x hx
      have := List.eq_of_mem_replicate hx
      subst this
      rw [hjobs]; simp
    · intro k hk
      rw [hjobs] at hk ⊢
      simp only [List.length_singleton, Nat.lt_one_iff] at hk
      subst hk
      simp
  have hs := decode_schedOK shop _ hv (durationsNonneg_of_pos shop hpos)
  have hr := decode_inRange shop _ hv hm
  have hi := initialMachines_inv shop _ hr
  have hjob : ∀ o ∈ decode (List.replicate job.length 1), o.1 = 1 ∧ 1 ≤ o.2 := by
    intro o ho
    obtain ⟨h1, h2⟩ := (mem_decode _ o).mp ho
    refine ⟨?_, h1⟩
    by_contra hne1
    have : (List.replicate job.length (1 : Int)).count o.1 = 0 := by
      apply List.count_eq_zero.mpr
      intro hmem
      exact hne1 (List.eq_of_mem_replicate hmem)
    rw [this] at h2
    simp at h2; omega
  have hTD : totalDuration shop = (job.map (fun (t : Task) => t.2)).sum := by
    unfold totalDuration
    rw [hjobs]
    simp
  have hw0 : totalWork shop (initialMachines shop (decode (List.replicate job.length 1))) =
      (job.map (fun (t : Task) => t.2)).sum := by
    rw [totalWork_initial shop _ hr, sum_cost_decode shop _ hv hpos, hTD]
  have hnn : 0 ≤ (job.map (fun (t : Task) => t.2)).sum := by
    have h0 := totalWork_nonneg shop hi
    rw [hw0] at h0
    exact h0
  have hw : totalWork shop (initialMachines shop (decode (List.replicate job.length 1))) =
      (((job.map (fun (t : Task) => t.2)).sum).toNat : Int) := by
    rw [hw0]; omega
  refine ⟨((job.map (fun (t : Task) => t.2)).sum).toNat + 1, ?_⟩
  intro k
  rw [totalTime_eq_tickLoop shop _ _ hv hm]
  have h := tickLoop_eq_totalWork hs (fun ms hinv => acts_le_one hs hinv 1 hjob)
    ((job.map (fun (t : Task) => t.2)).sum).toNat _ 0 hi hw
  have e : (0 : Int) + (((job.map (fun (t : Task) => t.2)).sum).toNat : Int) =
      (job.map (fun (t : Task) => t.2)).sum := by omega
  rw [e] at h
  exact tickLoop_fuel_mono shop _ k 0 _ _ h

theorem single_job_makespan_witness :
    (∃ fuel : Nat, ∀ k : Nat,
      totalTime (fuel + k) unitShop (List.replicate ([(0, 5)] : Job).length 1) =
        Outcome.value ((([(0, 5)] : Job).map (fun (t : Task) => t.2)).sum)) ∧
    (([(0, 5)] : Job).map (fun (t : Task) => t.2)).sum = 5 ∧
    (∃ fuel : Nat, ∀ k : Nat,
      totalTime (fuel + k) chainShop (List.replicate ([(0, 2), (1, 3)] : Job).length 1) =
        Outcome.value ((([(0, 2), (1, 3)] : Job).map (fun (t : Task) => t.2)).sum)) ∧
    (([(0, 2), (1, 3)] : Job).map (fun (t : Task) => t.2)).sum = 5 :=
  ⟨single_job_makespan unitShop [(0, 5)] rfl (by decide) (by decide), by decide,
   single_job_makespan chainShop [(0, 2), (1, 3)] rfl (by decide) (by decide), by decide⟩

/-! ## Ranges of the random positions -/

theorem swapDraws_eq (L : Nat) (r1 r2 : Nat) (h : 2 ≤ L) :
    swapDraws (L : Int) r1 r2 =
      some (((r1 % (L - 1) : Nat) : Int), ((r2 % (L - 1) : Nat) : Int)) := by
  unfold swapDraws
  have en : ((L : Int) - 1) = ((L - 1 : Nat) : Int) := by omega
  rw [en, Intn_eq _ r1 (by omega), Intn_eq _ r2 (by omega)]

/-- C11 (amended). Whenever `Mutate` performs a swap on a gene of length `L ≥ 2`, the two
drawn positions `i1`, `i2` lie in `[0, L-1)`, i.e. each is at most `L-2`, and the result is
the gene with the values at `i1` and `i2` exchanged. -/
theorem Mutate_positions (g : Gene) (r0 r1 r2 : Nat) (hg : 2 ≤ g.length) (h0 : r0 % 9 = 0) :
    ∃ i1 i2 : Nat, swapDraws (g.length : Int) r1 r2 = some ((i1 : Int), (i2 : Int)) ∧
      i1 < g.length - 1 ∧ i2 < g.length - 1 ∧
      ∃ (h1 : i1 < g.length) (h2 : i2 < g.length),
        Mutate g r0 r1 r2 = some ((g.set i1 g[i2]).set i2 g[i1]) := by
  have h1 : r1 % (g.length - 1) < g.length - 1 := Nat.mod_lt _ (by omega)
  have h2 : r2 % (g.length - 1) < g.length - 1 := Nat.mod_lt _ (by omega)
  exact ⟨r1 % (g.length - 1), r2 % (g.length - 1), swapDraws_eq g.length r1 r2 hg, h1, h2,
    by omega, by omega, Mutate_eq_swap g r0 r1 r2 hg h0 (by omega) (by omega)⟩

theorem Mutate_positions_witness :
    ∃ i1 i2 : Nat, swapDraws (([1, 2, 3] : Gene).length : Int) 1 0 = some ((i1 : Int), (i2 : Int)) ∧
      i1 < ([1, 2, 3] : Gene).length - 1 ∧ i2 < ([1, 2, 3] : Gene).length - 1 ∧
      ∃ (h1 : i1 < ([1, 2, 3] : Gene).length) (h2 : i2 < ([1, 2, 3] : Gene).length),
        Mutate [1, 2, 3] 0 1 0 =
          some ((([1, 2, 3] : Gene).set i1 ([1, 2, 3] : Gene)[i2]).set i2 ([1, 2, 3] : Gene)[i1]) :=
  Mutate_positions [1, 2, 3] 0 1 0 (by decide) (by decide)

/-- C11, counterexample. On the gene `[1, 2, 3]` (length `L = 3`) the draws `0, 1, 0` make
`Mutate` swap the positions 1 and 0, and position `1 = L-2` is not in `[0, L-2)`. -/
theorem Mutate_swaps_position_before_last :
    swapDraws (([1, 2, 3] : Gene).length : Int) 1 0 = some (1, 0) ∧
    Mutate [1, 2, 3] 0 1 0 = some [2, 1, 3] ∧
    ¬ ((1 : Int) < (([1, 2, 3] : Gene).length : Int) - 2) := by
  decide

/-- C12 (amended). For parents of length `L ≥ 3` and every outcome of the draws, the cut
points used by `Crossover` satisfy `1 ≤ s1 ≤ s2 ≤ L-2`; they are equal when both draws agree,
and then the copied substring is empty and the child is `b`. -/
theorem cutPoints_range (a b : Gene) (r1 r2 : Nat) (ha : 3 ≤ a.length) :
    ∃ s1 s2 : Nat, cutPoints (a.length : Int) r1 r2 = some ((s1 : Int), (s2 : Int)) ∧
      1 ≤ s1 ∧ s1 ≤ s2 ∧ s2 ≤ a.length - 2 ∧
      (r1 % (a.length - 2) = r2 % (a.length - 2) → s1 = s2 ∧ Crossover a b r1 r2 = some b) := by
  have hm : r1 % (a.length - 2) < a.length - 2 := Nat.mod_lt _ (by omega)
  have hm2 : r2 % (a.length - 2) < a.length - 2 := Nat.mod_lt _ (by omega)
  refine ⟨min (r1 % (a.length - 2)) (r2 % (a.length - 2)) + 1,
    max (r1 % (a.length - 2)) (r2 % (a.length - 2)) + 1, cutPoints_eq _ _ _ ha, by omega, ?_, ?_, ?_⟩
  · have := min_le_max (a := r1 % (a.length - 2)) (b := r2 % (a.length - 2)); omega
  · have := max_lt hm hm2; omega
  · intro e
    refine ⟨by rw [e]; simp, ?_⟩
    rw [Crossover_eq a b r1 r2 ha, e]
    have hnil : (a.take (r2 % (a.length - 2) + 1)).drop (r2 % (a.length - 2) + 1) = [] :=
      List.drop_eq_nil_of_le (by simp)
    simp [hnil]

theorem cutPoints_range_witness :
    ∃ s1 s2 : Nat, cutPoints (([1, 2, 3, 1, 2, 3] : Gene).length : Int) 0 2 =
        some ((s1 : Int), (s2 : Int)) ∧
      1 ≤ s1 ∧ s1 ≤ s2 ∧ s2 ≤ ([1, 2, 3, 1, 2, 3] : Gene).length - 2 ∧
      (0 % (([1, 2, 3, 1, 2, 3] : Gene).length - 2) = 2 % (([1, 2, 3, 1, 2, 3] : Gene).length - 2) →
        s1 = s2 ∧ Crossover [1, 2, 3, 1, 2, 3] [3, 3, 2, 2, 1, 1] 0 2 = some [3, 3, 2, 2, 1, 1]) :=
  cutPoints_range [1, 2, 3, 1, 2, 3] [3, 3, 2, 2, 1, 1] 0 2 (by decide)

/-- C12, counterexample. For the parents `[1,2,3,1,2,3]` and `[3,3,2,2,1,1]` and equal draws
the cut points are `s1 = s2 = 2`: they are not strictly ordered, the copied substring is empty
and the child is the second parent. -/
theorem cutPoints_can_coincide :
    cutPoints (([1, 2, 3, 1, 2, 3] : Gene).length : Int) 1 5 = some (2, 2) ∧
    slice ([1, 2, 3, 1, 2, 3] : Gene) 2 2 = some [] ∧
    Crossover [1, 2, 3, 1, 2, 3] [3, 3, 2, 2, 1, 1] 1 5 = some [3, 3, 2, 2, 1, 1] := by
  decide

/-! ## Dispatch order -/

theorem Visited.completedOps_eq {shop : Shop} {ms : List machine} {visited : List Nat}
    {acc : List machine} (h : Visited shop ms visited acc) :
    completedOps acc = completedOps ms := by
  apply completedOps_eq_of_map
  apply List.ext_getElem?
  intro i
  rw [List.getElem?_map, List.getElem?_map, h.2 i]
  by_cases hi : i ∈ visited
  · rw [if_pos hi]
    cases ms[i]? with
    | none => rfl
    | some m => simp [dispatchOne_completed]
  · rw [if_neg hi]

theorem dispatchIn_visited (shop : Shop) (ms : List machine) (hv : QueuesValid shop ms) :
    ∀ (rest visited : List Nat) (acc : List machine), Visited shop ms visited acc →
      (∀ i ∈ rest, i < ms.length) → (∀ i ∈ rest, i ∉ visited) → rest.Nodup →
      ∃ acc', rest.foldlM (dispatchAt shop) acc = some acc' ∧
        Visited shop ms (visited ++ rest) acc' := by
  intro rest
  induction rest with
  | nil =>
    intro visited acc h _ _ _
    exact ⟨acc, rfl, by simpa using h⟩
  | cons k rest ih =>
    intro visited acc h hlt hnot hnd
    have hk : k < ms.length := hlt k (List.mem_cons_self _ _)
    have hkv : k ∉ visited := hnot k (List.mem_cons_self _ _)
    have hget : acc[k]? = some ms[k] := by
      rw [h.2 k, if_neg hkv, List.getElem?_eq_getElem hk]
    rw [List.foldlM_cons, dispatchAt_eq shop acc k ms[k] hget (hv _ (List.getElem_mem hk)),
      dispatchOne_congr shop acc ms _ h.completedOps_eq]
    simp only [Option.bind_eq_bind, Option.some_bind]
    have hstep : Visited shop ms (visited ++ [k]) (acc.set k (dispatchOne shop ms ms[k])) := by
      refine ⟨by rw [List.length_set]; exact h.1, ?_⟩
      intro i
      rw [List.getElem?_set]
      by_cases e : k = i
      · subst e
        have : k < acc.length := by rw [h.1]; exact hk
        simp [this, List.getElem?_eq_getElem hk]
      · rw [if_neg e, h.2 i]
        have : i ∈ visited ++ [k] ↔ i ∈ visited := by
          simp only [List.mem_append, List.mem_singleton]
          constructor
          · rintro (h1 | h1)
            · exact h1
            · exact absurd h1.symm e
          · exact Or.inl
        simp only [this]
    rw [List.nodup_cons] at hnd
    obtain ⟨acc', h1, h2⟩ := ih (visited ++ [k]) _ hstep
      (fun i hi => hlt i (List.mem_cons_of_mem _ hi))
      (by
        intro i hi hmem
        rcases List.mem_append.mp hmem with h3 | h3
        · exact hnot i (List.mem_cons_of_mem _ hi) h3
        · rw [List.mem_singleton] at h3
          subst h3
          exact hnd.1 hi)
      hnd.2
    refine ⟨acc', h1, ?_⟩
    rw [List.append_assoc] at h2
    exact h2

/-- Visiting every machine once, in any order, gives the simultaneous dispatch. -/
theorem dispatchIn_eq_dispatchAll (shop : Shop) (ms : List machine) (hv : QueuesValid shop ms)
    (order : List Nat) (hp : order.Perm (List.range ms.length)) :
    dispatchIn shop order ms = some (dispatchAll shop ms) := by
  have hmem : ∀ i, i ∈ order ↔ i < ms.length := by
    intro i
    rw [hp.mem_iff, List.mem_range]
  obtain ⟨acc', h1, h2⟩ := dispatchIn_visited shop ms hv order [] ms
    ⟨rfl, fun i => by simp⟩ (fun i hi => (hmem i).mp hi) (fun i _ => by simp)
    (hp.symm.nodup (List.nodup_range _))
  unfold dispatchIn dispatchAll
  rw [h1]
  congr 1
  apply List.ext_getElem?
  intro i
  rw [h2.2 i, List.getElem?_map]
  by_cases hi : i < ms.length
  · rw [if_pos (by simpa using (hmem i).mpr hi)]
  · rw [if_neg (by simpa using fun h => hi ((hmem i).mp h))]
    rw [List.getElem?_eq_none_iff.mpr (by omega)]
    rfl

/-- C16 (dispatch is order-independent within a tick). For the machines `ms` at the head of
any iteration of the tick loop of `totalTime`: the dispatch decision for a machine depends on
the other machines only through the completed lists; visiting the machines in index order (as
the code does) gives the same machines as evaluating all decisions simultaneously on the
start-of-tick state; and so does visiting them in any other order. -/
theorem dispatch_order_independent (shop : Shop) (gene : Gene) (ms0 ms : List machine)
    (k : Nat) (h0 : initMachines shop (decode gene) = some ms0)
    (hk : stateAt shop ms0 k = some ms) :
    (∀ (others : List machine) (m : machine), completedOps others = completedOps ms →
      dispatchOne shop others m = dispatchOne shop ms m) ∧
    dispatch shop ms = some (dispatchAll shop ms) ∧
    ∀ order : List Nat, order.Perm (List.range ms.length) →
      dispatchIn shop order ms = some (dispatchAll shop ms) := by
  obtain ⟨hs, rfl⟩ := initMachines_some shop (decode gene) ms0 h0
  have hv := (stateAt_queuesIn shop (decode gene) hs k ms hk).toQueuesValid hs
  refine ⟨fun others m h => dispatchOne_congr shop others ms m h, ?_, ?_⟩
  · exact dispatchIn_eq_dispatchAll shop ms hv _ (List.Perm.refl _)
  · intro order hp
    exact dispatchIn_eq_dispatchAll shop ms hv order hp

theorem dispatch_order_independent_witness :
    (∀ (others : List machine) (m : machine), completedOps others = completedOps chainStart →
      dispatchOne chainShop others m = dispatchOne chainShop chainStart m) ∧
    dispatch chainShop chainStart = some (dispatchAll chainShop chainStart) ∧
    ∀ order : List Nat, order.Perm (List.range chainStart.length) →
      dispatchIn chainShop order chainStart = some (dispatchAll chainShop chainStart) :=
  dispatch_order_independent chainShop [1, 1] chainStart chainStart 0 (by decide) (by decide)

/-! ## Makespan upper bound -/

theorem stateAt_inv {shop : Shop} {sched : List Operation} (hs : SchedOK shop sched)
    (hr : ∀ o ∈ sched, ∃ t, taskOf shop o = some t ∧ 0 ≤ t.1 ∧ t.1 < shop.Machines) :
    ∀ (k : Nat) (ms : List machine),
      stateAt shop (initialMachines shop sched) k = some ms → Inv sched ms := by
  intro k
  induction k with
  | zero =>
    intro ms h
    simp only [stateAt, Option.some.injEq] at h
    subst h
    exact initialMachines_inv shop sched hr
  | succ k ih =>
    intro ms' h
    obtain ⟨ms, hk, _, rfl⟩ := stateAt_step shop sched hr k ms' h
    exact (ih ms hk).step hs

/-- A machine that acts holds a positive time left after the dispatch phase, when every
duration is at least 1. -/
theorem busy_after_dispatch {shop : Shop} {sched : List Operation} {ms : List machine}
    (hi : Inv sched ms) (hpos : ∀ o ∈ sched, 1 ≤ duration shop o) (m : machine) (hm : m ∈ ms)
    (ha : acts ms m = true) : 0 < (dispatchOne shop ms m).TimeLeft := by
  unfold acts at ha
  by_cases hT : 0 < m.TimeLeft
  · have hne : m.TimeLeft ≠ 0 := by omega
    unfold dispatchOne
    cases hq : m.Queue with
    | nil => simpa using hT
    | cons q rest => simpa [hne] using hT
  · have h0 : m.TimeLeft = 0 := by
      have := (hi.mach m hm).timeLeft_nonneg
      omega
    cases hq : m.Queue with
    | nil => simp [hT, hq] at ha
    | cons q rest =>
      simp only [hT, hq, decide_False, Bool.false_or] at ha
      have hqs : q ∈ sched := (hi.queue m hm).subset (by rw [hq]; exact List.mem_cons_self _ _)
      have hd := hpos q hqs
      unfold duration at hd
      unfold dispatchOne
      cases ht : taskOf shop q with
      | none => rw [ht] at hd; simp at hd
      | some t =>
        rw [ht] at hd
        simp only at hd
        simp only [hq, h0, ha, ht]
        simp
        omega

theorem duration_pos_of_mem_decode (shop : Shop) (gene : Gene) (hv : ValidGene shop gene)
    (hpos : DurationsPos shop) : ∀ o ∈ decode gene, 1 ≤ duration shop o := by
  intro o ho
  obtain ⟨job, hjob, t, ht, hto⟩ := taskOf_of_mem_decode shop gene hv o ho
  unfold duration
  rw [hto]
  exact hpos job hjob t ht

/-- C20 (makespan upper bound). For every shop with in-range machine indices and all
durations at least 1, and every gene satisfying the occurrence-count invariant: at the head of
every iteration of the tick loop in which the loop does not return, some machine is executing
a task once the dispatch phase is over; `totalTime` returns a makespan `t`, and `t` is at most
the sum of the durations of all tasks of all jobs. -/
theorem totalTime_le_totalDuration (shop : Shop) (gene : Gene) (hm : MachinesInRange shop)
    (hpos : DurationsPos shop) (hv : ValidGene shop gene) :
    (∀ (k : Nat) (ms : List machine),
      stateAt shop (initialMachines shop (decode gene)) k = some ms → allDone ms = false →
        ∃ m ∈ dispatchAll shop ms, 0 < m.TimeLeft) ∧
    initMachines shop (decode gene) = some (initialMachines shop (decode gene)) ∧
    ∃ t : Int, (∀ k : Nat, totalTime (fuelBound shop gene + k) shop gene = Outcome.value t) ∧
      0 ≤ t ∧ t ≤ totalDuration shop := by
  have hs := decode_schedOK shop gene hv (durationsNonneg_of_pos shop hpos)
  have hr := decode_inRange shop gene hv hm
  have hi := initialMachines_inv shop (decode gene) hr
  refine ⟨?_, initMachines_eq shop (decode gene) hr, ?_⟩
  · intro k ms hk hnd
    have hik := stateAt_inv hs hr k ms hk
    obtain ⟨m, hmem, ha⟩ := hik.progress hs hnd
    exact ⟨dispatchOne shop ms m, List.mem_map_of_mem _ hmem,
      busy_after_dispatch hik (duration_pos_of_mem_decode shop gene hv hpos) m hmem ha⟩
  · have hnn := totalWork_nonneg shop hi
    have hw : totalWork shop (initialMachines shop (decode gene)) = totalDuration shop := by
      rw [totalWork_initial shop _ hr, sum_cost_decode shop gene hv hpos]
    obtain ⟨t, ht, h0, h1⟩ := tickLoop_terminates hs
      (totalWork shop (initialMachines shop (decode gene))).toNat _ 0 hi (by omega)
    refine ⟨t, ?_, h0, by omega⟩
    intro k
    rw [totalTime_eq_tickLoop shop gene _ hv hm]
    exact tickLoop_fuel_mono shop _ k 0 _ t ht

theorem totalTime_le_totalDuration_witness :
    (∀ (k : Nat) (ms : List machine),
      stateAt example_ (initialMachines example_ (decode [1, 1, 2, 2, 3, 1, 2, 3])) k = some ms →
        allDone ms = false → ∃ m ∈ dispatchAll example_ ms, 0 < m.TimeLeft) ∧
    initMachines example_ (decode [1, 1, 2, 2, 3, 1, 2, 3]) =
      some (initialMachines example_ (decode [1, 1, 2, 2, 3, 1, 2, 3])) ∧
    ∃ t : Int, (∀ k : Nat, totalTime (fuelBound example_ [1, 1, 2, 2, 3, 1, 2, 3] + k) example_
        [1, 1, 2, 2, 3, 1, 2, 3] = Outcome.value t) ∧
      0 ≤ t ∧ t ≤ totalDuration example_ :=
  totalTime_le_totalDuration example_ [1, 1, 2, 2, 3, 1, 2, 3] (by decide) (by decide)
    (by decide)

/-! ## The initial population -/

theorem foldl_append_singleton (n : Nat) (x : Int) (gene : Gene) :
    (List.range n).foldl (fun g _ => g ++ [x]) gene = gene ++ List.replicate n x := by
  induction n with
  | zero => simp
  | succ n ih =>
    rw [List.range_succ, List.foldl_append, ih]
    simp [List.replicate_succ', List.append_assoc]

theorem canonical_foldl (jobs : List Job) : ∀ (n : Nat) (acc : Gene),
    (jobs.enumFrom n).foldl
      (fun gene p => (List.range p.2.length).foldl (fun g _ => g ++ [(p.1 : Int) + 1]) gene) acc
      = acc ++ geneFrom ((n : Int) + 1) jobs := by
  induction jobs with
  | nil => intro n acc; simp [geneFrom]
  | cons job rest ih =>
    intro n acc
    rw [List.enumFrom_cons, List.foldl_cons, ih (n + 1)]
    simp only [foldl_append_singleton, geneFrom, List.append_assoc]
    push_cast
    rfl

theorem canonicalGene_eq (shop : Shop) : canonicalGene shop = geneFrom 1 shop.Jobs := by
  unfold canonicalGene List.enum
  rw [canonical_foldl shop.Jobs 0 []]
  simp

theorem mem_geneFrom (jobs : List Job) : ∀ (j x : Int), x ∈ geneFrom j jobs →
    j ≤ x ∧ x < j + jobs.length := by
  induction jobs with
  | nil => intro j x h; simp [geneFrom] at h
  | cons job rest ih =>
    intro j x h
    simp only [geneFrom, List.mem_append] at h
    rcases h with h | h
    · have := List.eq_of_mem_replicate h
      subst this
      simp only [List.length_cons]; push_cast; omega
    · have := ih (j + 1) x h
      simp only [List.length_cons]; push_cast; omega

theorem count_geneFrom (jobs : List Job) : ∀ (j : Int) (k : Nat), k < jobs.length →
    (geneFrom j jobs).count (j + k) = (jobs.getD k []).length := by
  induction jobs with
  | nil => intro j k h; simp at h
  | cons job rest ih =>
    intro j k h
    simp only [geneFrom, List.count_append]
    cases k with
    | zero =>
      have h0 : (geneFrom (j + 1) rest).count j = 0 := by
        apply List.count_eq_zero.mpr
        intro hm
        have := (mem_geneFrom rest (j + 1) j hm).1
        omega
      simp [h0]
    | succ k =>
      have hne : (j == j + ((k + 1 : Nat) : Int)) = false := by
        simp; omega
      have h1 : (List.replicate job.length j).count (j + ((k + 1 : Nat) : Int)) = 0 := by
        rw [List.count_replicate, hne]; rfl
      have e : j + ((k + 1 : Nat) : Int) = (j + 1) + (k : Int) := by push_cast; omega
      rw [h1, e, ih (j + 1) k (by simpa using h)]
      simp

theorem canonicalGene_valid (shop : Shop) : ValidGene shop (canonicalGene shop) := by
  rw [canonicalGene_eq]
  constructor
  · intro x hx
    have := mem_geneFrom shop.Jobs 1 x hx
    omega
  · intro k hk
    have := count_geneFrom shop.Jobs 1 k hk
    rw [show (1 : Int) + (k : Int) = (k : Int) + 1 by omega] at this
    exact this

theorem ValidGene.of_perm {shop : Shop} {g g' : Gene} (h : ValidGene shop g)
    (hp : g'.Perm g) : ValidGene shop g' := by
  constructor
  · intro x hx
    exact h.1 x (hp.subset hx)
  · intro k hk
    rw [hp.count_eq]
    exact h.2 k hk

theorem swap_perm (g : List Int) (i1 i2 : Nat) (h1 : i1 < g.length) (h2 : i2 < g.length) :
    ((g.set i1 g[i2]).set i2 g[i1]).Perm g :=
  List.perm_iff_count.mpr (fun j => count_swap g i1 i2 h1 h2 j)

theorem shuffleFrom_perm (draws : Nat → Nat) : ∀ (i : Nat) (g : Gene), i ≤ g.length →
    ∃ g', shuffleFrom draws i g = some g' ∧ g'.Perm g := by
  intro i
  induction i with
  | zero => intro g _; exact ⟨g, rfl, List.Perm.refl _⟩
  | succ i ih =>
    intro g hi
    have hlt : i < g.length := by omega
    have hm : draws (i + 1) % (i + 1) < i + 1 := Nat.mod_lt _ (by omega)
    have hidx : Intn ((i : Int) + 1) (draws (i + 1)) =
        some (((draws (i + 1) % (i + 1) : Nat)) : Int) := by
      have := Intn_eq (i + 1) (draws (i + 1)) (by omega)
      push_cast at this ⊢
      exact this
    have hlt2 : draws (i + 1) % (i + 1) < g.length := by omega
    unfold shuffleFrom
    rw [hidx]
    simp only [index_natCast, Int.toNat_ofNat, List.getElem?_eq_getElem hlt,
      List.getElem?_eq_getElem hlt2]
    obtain ⟨g', h1, h2⟩ := ih ((g.set i g[draws (i + 1) % (i + 1)]).set
      (draws (i + 1) % (i + 1)) g[i]) (by simp; omega)
    exact ⟨g', h1, h2.trans (swap_perm g i _ hlt hlt2)⟩

theorem shuffle_perm (g : Gene) (draws : Nat → Nat) :
    ∃ g', shuffle g draws = some g' ∧ g'.Perm g :=
  shuffleFrom_perm draws g.length g (le_refl _)

theorem sum_cost_decode_max (shop : Shop) (gene : Gene) (hv : ValidGene shop gene) :
    ((decode gene).map (cost shop)).sum = (shop.Jobs.flatten.map (fun (t : Task) => max 1 t.2)).sum := by
  have e1 : (decode gene).map (cost shop) = ((decode gene).map (taskOf shop)).map costOfTask := by
    rw [List.map_map]
    apply List.map_congr_left
    intro o _
    cases h : taskOf shop o <;> simp [Function.comp, cost, duration, costOfTask, h]
  rw [e1, ((tasks_perm shop gene hv).map costOfTask).sum_eq, List.map_map]
  rfl

/-- On a valid gene `totalTime` returns one and the same makespan for every fuel from
`workBound` on. -/
theorem totalTime_returns (shop : Shop) (gene : Gene) (hm : MachinesInRange shop)
    (hd : DurationsNonneg shop) (hv : ValidGene shop gene) :
    ∃ t : Int, 0 ≤ t ∧ ∀ k : Nat, totalTime (workBound shop + k) shop gene = Outcome.value t := by
  have hs := decode_schedOK shop gene hv hd
  have hr := decode_inRange shop gene hv hm
  have hi := initialMachines_inv shop (decode gene) hr
  have hnn := totalWork_nonneg shop hi
  have hw : totalWork shop (initialMachines shop (decode gene)) =
      (shop.Jobs.flatten.map (fun (t : Task) => max 1 t.2)).sum := by
    rw [totalWork_initial shop _ hr, sum_cost_decode_max shop gene hv]
  obtain ⟨t, ht, h0, _⟩ := tickLoop_terminates hs
    (totalWork shop (initialMachines shop (decode gene))).toNat _ 0 hi (by omega)
  refine ⟨t, h0, ?_⟩
  intro k
  rw [totalTime_eq_tickLoop shop gene _ hv hm]
  have e : workBound shop = (totalWork shop (initialMachines shop (decode gene))).toNat + 1 := by
    unfold workBound; rw [hw]
  rw [e]
  exact tickLoop_fuel_mono shop _ k 0 _ t ht

theorem initialiseFrom_spec (shop : Shop) (draws : Nat → Nat → Nat)
    (hm : MachinesInRange shop) (hd : DurationsNonneg shop) :
    ∀ (n k0 : Nat), ∃ new : List GeneAndFitness, new.length = n ∧
      (∀ m ∈ new, m.DNA.Perm (canonicalGene shop) ∧ ValidGene shop m.DNA ∧
        ∀ k : Nat, totalTime (workBound shop + k) shop m.DNA = Outcome.value m.Fitness) ∧
      ∀ (k : Nat) (acc : List GeneAndFitness),
        initialiseFrom (workBound shop + k) shop draws n k0 acc = Result.done (acc ++ new) := by
  intro n
  induction n with
  | zero =>
    intro k0
    exact ⟨[], rfl, by simp, by intro k acc; simp [initialiseFrom]⟩
  | succ n ih =>
    intro k0
    obtain ⟨gene, hsh, hperm⟩ := shuffle_perm (canonicalGene shop) (draws k0)
    have hv : ValidGene shop gene := (canonicalGene_valid shop).of_perm hperm
    obtain ⟨t, _, ht⟩ := totalTime_returns shop gene hm hd hv
    obtain ⟨new, hlen, hP, hrun⟩ := ih (k0 + 1)
    refine ⟨{ DNA := gene, Fitness := t } :: new, by simp [hlen], ?_, ?_⟩
    · intro m hmem
      rcases List.mem_cons.mp hmem with rfl | h
      · exact ⟨hperm, hv, ht⟩
      · exact hP m h
    · intro k acc
      unfold initialiseFrom
      rw [hsh]
      simp only [ht k]
      rw [hrun k]
      simp

theorem negativeShop_running (fuel : Nat) :
    totalTime fuel negativeShop [1, 1] = Outcome.running := by
  have h0 : initMachines negativeShop (decode [1, 1]) = some negativeStart := by decide
  unfold totalTime
  rw [h0]
  simp only
  cases fuel with
  | zero => rfl
  | succ n =>
    have h1 : allDone negativeStart = false := by decide
    have h2 : tick negativeShop negativeStart = some stuckMachines := by decide
    unfold tickLoop
    simp only [h1, h2]
    exact stuck_forever n _

/-- C13 (amended). For every shop whose machine indices are in range and whose durations
are non-negative, every `populationCount` and every outcome of the shuffle draws,
`initialisePopulation` returns (for every fuel from `workBound` on) exactly
`populationCount` entries (none for a negative count); every entry's gene is a rearrangement
of the canonical gene and satisfies the occurrence-count invariant, and its fitness is the
makespan returned by `totalTime`. -/
theorem initialisePopulation_spec (shop : Shop) (populationCount : Int)
    (draws : Nat → Nat → Nat) (hm : MachinesInRange shop) (hd : DurationsNonneg shop) :
    ∃ population : List GeneAndFitness,
      (∀ k : Nat, initialisePopulation (workBound shop + k) shop populationCount draws =
        Result.done population) ∧
      population.length = populationCount.toNat ∧
      ∀ m ∈ population, m.DNA.Perm (canonicalGene shop) ∧ ValidGene shop m.DNA ∧
        ∀ k : Nat, totalTime (workBound shop + k) shop m.DNA = Outcome.value m.Fitness := by
  obtain ⟨new, hlen, hP, hrun⟩ := initialiseFrom_spec shop draws hm hd populationCount.toNat 0
  refine ⟨new, ?_, hlen, hP⟩
  intro k
  unfold initialisePopulation
  rw [hrun k []]
  simp

theorem initialisePopulation_spec_witness :
    ∃ population : List GeneAndFitness,
      (∀ k : Nat, initialisePopulation (workBound dataset + k) dataset 50 (fun k i => k * i) =
        Result.done population) ∧
      population.length = (50 : Int).toNat ∧
      ∀ m ∈ population, m.DNA.Perm (canonicalGene dataset) ∧ ValidGene dataset m.DNA ∧
        ∀ k : Nat, totalTime (workBound dataset + k) dataset m.DNA = Outcome.value m.Fitness :=
  initialisePopulation_spec dataset 50 (fun k i => k * i) (by decide) (by decide)

/-- C13, counterexample. For the shop with the single job `[(0,-1),(0,1)]` the call
`initialisePopulation(shop, 1)` never returns, whatever the fuel, because `totalTime` does
not terminate on the only gene `[1, 1]`; for a shop whose task names a machine that does not
exist the call panics. In neither case is a population of one entry returned. -/
theorem initialisePopulation_can_fail :
    (∀ fuel : Nat,
      initialisePopulation fuel negativeShop 1 (fun _ _ => 0) = Result.running) ∧
    (∀ fuel : Nat,
      initialisePopulation fuel noMachineShop 1 (fun _ _ => 0) = Result.panic) := by
  constructor
  · intro fuel
    have h1 : shuffle (canonicalGene negativeShop) (fun _ => 0) = some [1, 1] := by decide
    have e : ((1 : Int).toNat) = 0 + 1 := by decide
    unfold initialisePopulation
    rw [e]
    unfold initialiseFrom
    simp only [h1, negativeShop_running fuel]
  · intro fuel
    have h1 : shuffle (canonicalGene noMachineShop) (fun _ => 0) = some [1] := by decide
    have h2 : initMachines noMachineShop (decode [1]) = none := by decide
    have h3 : totalTime fuel noMachineShop [1] = Outcome.panic := by
      unfold totalTime; rw [h2]
    have e : ((1 : Int).toNat) = 0 + 1 := by decide
    unfold initialisePopulation
    rw [e]
    unfold initialiseFrom
    simp only [h1, h3]

/-! ## The breed loop -/

theorem Crossover_perm (a b : Gene) (r1 r2 : Nat) (ha : 3 ≤ a.length)
    (hcount : ∀ j : Int, a.count j = b.count j) :
    ∃ c : Gene, Crossover a b r1 r2 = some c ∧ c.Perm a := by
  refine ⟨_, Crossover_eq a b r1 r2 ha, ?_⟩
  set sub := (a.take (max (r1 % (a.length - 2)) (r2 % (a.length - 2)) + 1)).drop
      (min (r1 % (a.length - 2)) (r2 % (a.length - 2)) + 1) with hsub
  have hsl : sub.Sublist a := (List.drop_sublist _ _).trans (List.take_sublist _ _)
  apply List.perm_iff_count.mpr
  intro j
  have h1 : sub.count j ≤ a.count j := hsl.count_le j
  rw [List.count_append, count_diff_eq, ← hcount j]
  omega

theorem Mutate_perm (g : Gene) (r0 r1 r2 : Nat) (hg : 2 ≤ g.length) :
    ∃ g' : Gene, Mutate g r0 r1 r2 = some g' ∧ g'.Perm g := by
  have h1 : r1 % (g.length - 1) < g.length - 1 := Nat.mod_lt _ (by omega)
  have h2 : r2 % (g.length - 1) < g.length - 1 := Nat.mod_lt _ (by omega)
  by_cases h0 : r0 % 9 = 0
  · exact ⟨_, Mutate_eq_swap g r0 r1 r2 hg h0 (by omega) (by omega),
      swap_perm g _ _ (by omega) (by omega)⟩
  · exact ⟨g, Mutate_eq_self g r0 r1 r2 (by omega), List.Perm.refl _⟩

theorem count_eq_of_valid {shop : Shop} {a b : Gene} (ha : ValidGene shop a)
    (hb : ValidGene shop b) (j : Int) : a.count j = b.count j := by
  rw [taskCount_of_valid shop a ha j, taskCount_of_valid shop b hb j]

theorem parentsAt_of_guard (next : List GeneAndFitness) (i : Nat) (h : i < next.length / 2) :
    ∃ p1 p2, next[i]? = some p1 ∧ next[i * 2]? = some p2 ∧ parentsAt next i = some (p1, p2) := by
  have h1 : i < next.length := by omega
  have h2 : i * 2 < next.length := by omega
  refine ⟨next[i], next[i * 2], List.getElem?_eq_getElem h1, List.getElem?_eq_getElem h2, ?_⟩
  unfold parentsAt
  rw [List.getElem?_eq_getElem h1, List.getElem?_eq_getElem h2]

/-- The body of the breed loop appends one well-formed child. -/
theorem breedBody_spec (shop : Shop) (hm : MachinesInRange shop) (hd : DurationsNonneg shop)
    (d : Nat → Nat) (i : Nat) (next : List GeneAndFitness)
    (hwf : ∀ m ∈ next, WellFormed shop m) (hg : i < next.length / 2) :
    ∃ child : GeneAndFitness, WellFormed shop child ∧
      ∀ k : Nat, breedBody (workBound shop + k) shop d i next = Result.done (next ++ [child]) := by
  obtain ⟨p1, p2, h1, h2, hp⟩ := parentsAt_of_guard next i hg
  have w1 := hwf p1 (List.getElem?_mem h1)
  have w2 := hwf p2 (List.getElem?_mem h2)
  obtain ⟨c, hc, hcp⟩ := Crossover_perm p1.DNA p2.DNA (d 0) (d 1) w1.2.1
    (count_eq_of_valid w1.1 w2.1)
  have hclen : c.length = p1.DNA.length := hcp.length_eq
  have hl1 : 3 ≤ p1.DNA.length := w1.2.1
  obtain ⟨c', hc', hcp'⟩ := Mutate_perm c (d 2) (d 3) (d 4) (by omega)
  have hv : ValidGene shop c' := w1.1.of_perm (hcp'.trans hcp)
  obtain ⟨t, _, ht⟩ := totalTime_returns shop c' hm hd hv
  refine ⟨{ DNA := c', Fitness := t }, ⟨hv, ?_, workBound shop, ht 0⟩, ?_⟩
  · have := hcp'.length_eq
    simp only
    omega
  · intro k
    unfold breedBody
    rw [hp]
    simp only [hc, hc', ht k]

/-- The breed loop from iteration `i` on, when the pool started with `n` members. -/
theorem breedLoop_spec (shop : Shop) (hm : MachinesInRange shop) (hd : DurationsNonneg shop)
    (draws : Nat → Nat → Nat) (n : Nat) :
    ∀ (r i : Nat) (next : List GeneAndFitness), r = n - 1 - i → next.length = n + i →
      (∀ m ∈ next, WellFormed shop m) →
      ∃ cs : List GeneAndFitness, cs.length = r ∧ (∀ c ∈ cs, WellFormed shop c) ∧
        ∀ k steps : Nat,
          (r < steps →
            breedLoop (workBound shop + k) shop draws steps i next = Result.done (next ++ cs)) ∧
          (steps ≤ r →
            breedLoop (workBound shop + k) shop draws steps i next = Result.running) := by
  intro r
  induction r with
  | zero =>
    intro i next hr hlen hwf
    have hg : ¬ (i < next.length / 2) := by omega
    refine ⟨[], rfl, by simp, ?_⟩
    intro k steps
    constructor
    · intro hs
      obtain ⟨s, rfl⟩ : ∃ s, steps = s + 1 := ⟨steps - 1, by omega⟩
      simp [breedLoop, hg]
    · intro hs
      have : steps = 0 := by omega
      subst this
      rfl
  | succ r ih =>
    intro i next hr hlen hwf
    have hg : i < next.length / 2 := by omega
    obtain ⟨child, hcw, hbody⟩ := breedBody_spec shop hm hd (draws i) i next hwf hg
    obtain ⟨cs, hcl, hcsw, hrun⟩ := ih (i + 1) (next ++ [child]) (by omega)
      (by simp; omega)
      (by
        intro m hmem
        rcases List.mem_append.mp hmem with h | h
        · exact hwf m h
        · rw [List.mem_singleton] at h; subst h; exact hcw)
    refine ⟨child :: cs, by simp [hcl], ?_, ?_⟩
    · intro c hc
      rcases List.mem_cons.mp hc with rfl | h
      · exact hcw
      · exact hcsw c h
    · intro k steps
      constructor
      · intro hs
        obtain ⟨s, rfl⟩ : ∃ s, steps = s + 1 := ⟨steps - 1, by omega⟩
        unfold breedLoop
        rw [if_pos hg, hbody k]
        simp only
        rw [(hrun k s).1 (by omega)]
        simp
      · intro hs
        cases steps with
        | zero => rfl
        | succ s =>
          unfold breedLoop
          rw [if_pos hg, hbody k]
          simp only
          exact (hrun k s).2 (by omega)

theorem examplePool_wellFormed : ∀ m ∈ examplePool, WellFormed example_ m := by
  intro m hm
  have : m = { DNA := [1, 1, 2, 2, 3, 1, 2, 3], Fitness := 9 } := by
    simp only [examplePool, List.mem_cons, List.mem_singleton, List.not_mem_nil, or_false,
      or_self] at hm
    exact hm
  subst this
  exact ⟨by decide, by decide, 100, by decide⟩

theorem breedBody_length (fuel : Nat) (shop : Shop) (d : Nat → Nat) (i : Nat)
    (next next' : List GeneAndFitness) (h : breedBody fuel shop d i next = Result.done next') :
    next'.length = next.length + 1 := by
  unfold breedBody at h
  split at h
  · cases h
  · split at h
    · cases h
    · split at h
      · cases h
      · split at h
        · simp only [Result.done.injEq] at h
          rw [← h]; simp
        · cases h
        · cases h

theorem breedStateAt_length (fuel : Nat) (shop : Shop) (draws : Nat → Nat → Nat)
    (pool : List GeneAndFitness) :
    ∀ (i : Nat) (next : List GeneAndFitness), breedStateAt fuel shop draws pool i = some next →
      next.length = pool.length + i := by
  intro i
  induction i with
  | zero => intro next h; simp only [breedStateAt, Option.some.injEq] at h; subst h; rfl
  | succ i ih =>
    intro next' h
    unfold breedStateAt at h
    cases hprev : breedStateAt fuel shop draws pool i with
    | none => rw [hprev] at h; simp at h
    | some next =>
      rw [hprev] at h
      simp only at h
      split_ifs at h with hg
      cases hb : breedBody fuel shop (draws i) i next with
      | done n' =>
        rw [hb] at h
        simp only [Option.some.injEq] at h
        subst h
        rw [breedBody_length fuel shop _ i next n' hb, ih next hprev]
        omega
      | panic => rw [hb] at h; simp at h
      | running => rw [hb] at h; simp at h

/-- The breed loop reaches every iteration up to `n - 1` on a well-formed pool of `n`. -/
theorem breedStateAt_reached (shop : Shop) (hm : MachinesInRange shop)
    (hd : DurationsNonneg shop) (draws : Nat → Nat → Nat) (pool : List GeneAndFitness)
    (hwf : ∀ m ∈ pool, WellFormed shop m) (k : Nat) :
    ∀ i : Nat, i + 1 ≤ pool.length →
      ∃ next, breedStateAt (workBound shop + k) shop draws pool i = some next ∧
        ∀ m ∈ next, WellFormed shop m := by
  intro i
  induction i with
  | zero => intro _; exact ⟨pool, rfl, hwf⟩
  | succ i ih =>
    intro hi
    obtain ⟨next, hs, hw⟩ := ih (by omega)
    have hlen := breedStateAt_length _ shop draws pool i next hs
    have hg : i < next.length / 2 := by omega
    obtain ⟨child, hcw, hbody⟩ := breedBody_spec shop hm hd (draws i) i next hw hg
    refine ⟨next ++ [child], ?_, ?_⟩
    · unfold breedStateAt
      rw [hs]
      simp only [if_pos hg, hbody k]
    · intro m hmem
      rcases List.mem_append.mp hmem with h | h
      · exact hw m h
      · rw [List.mem_singleton] at h; subst h; exact hcw

/-- The result of the breed loop is the pool at the head of the iteration at which the loop
condition fails. -/
theorem breedLoop_breedStateAt (fuel : Nat) (shop : Shop) (draws : Nat → Nat → Nat)
    (pool : List GeneAndFitness) :
    ∀ (steps i : Nat) (next res : List GeneAndFitness),
      breedStateAt fuel shop draws pool i = some next →
      breedLoop fuel shop draws steps i next = Result.done res →
        ∃ i', breedStateAt fuel shop draws pool i' = some res ∧ ¬ (i' < res.length / 2) := by
  intro steps
  induction steps with
  | zero => intro i next res _ h; simp [breedLoop] at h
  | succ s ih =>
    intro i next res hs h
    unfold breedLoop at h
    split_ifs at h with hg
    · cases hb : breedBody fuel shop (draws i) i next with
      | done n' =>
        rw [hb] at h
        simp only at h
        apply ih (i + 1) n' res _ h
        unfold breedStateAt
        rw [hs]
        simp only [if_pos hg, hb]
      | panic => rw [hb] at h; simp at h
      | running => rw [hb] at h; simp at h
    · simp only [Result.done.injEq] at h
      subst h
      exact ⟨i, hs, hg⟩

/-- C17 (breed count). A breed phase on a well-formed pool of `n` survivors (shop with
in-range machine indices and non-negative durations) leaves the `n` survivors unchanged and in
order, followed by `n - 1` children: `2n - 1` members for `n ≥ 1`, none for `n = 0`. The loop
condition is evaluated exactly `n` times (once for `n = 0`): with that many evaluations
allowed the loop returns, with fewer it is still running. -/
theorem breed_count (shop : Shop) (draws : Nat → Nat → Nat) (pool : List GeneAndFitness)
    (hm : MachinesInRange shop) (hd : DurationsNonneg shop)
    (hwf : ∀ m ∈ pool, WellFormed shop m) :
    ∃ children : List GeneAndFitness,
      children.length = pool.length - 1 ∧
      (1 ≤ pool.length → (pool ++ children).length = 2 * pool.length - 1) ∧
      (pool = [] → pool ++ children = []) ∧
      ∀ k steps : Nat,
        (pool.length - 1 < steps →
          breedLoop (workBound shop + k) shop draws steps 0 pool =
            Result.done (pool ++ children)) ∧
        (steps ≤ pool.length - 1 →
          breedLoop (workBound shop + k) shop draws steps 0 pool = Result.running) := by
  obtain ⟨cs, hlen, _, hrun⟩ := breedLoop_spec shop hm hd draws pool.length
    (pool.length - 1) 0 pool (by omega) (by omega) hwf
  refine ⟨cs, hlen, ?_, ?_, hrun⟩
  · intro h1
    rw [List.length_append, hlen]; omega
  · intro he
    subst he
    simp only [List.length_nil] at hlen
    simpa using hlen

theorem breed_count_witness :
    ∃ children : List GeneAndFitness,
      children.length = examplePool.length - 1 ∧
      (1 ≤ examplePool.length → (examplePool ++ children).length = 2 * examplePool.length - 1) ∧
      (examplePool = [] → examplePool ++ children = []) ∧
      ∀ k steps : Nat,
        (examplePool.length - 1 < steps →
          breedLoop (workBound example_ + k) example_ (fun _ _ => 0) steps 0 examplePool =
            Result.done (examplePool ++ children)) ∧
        (steps ≤ examplePool.length - 1 →
          breedLoop (workBound example_ + k) example_ (fun _ _ => 0) steps 0 examplePool =
            Result.running) :=
  breed_count example_ (fun _ _ => 0) examplePool (by decide) (by decide) examplePool_wellFormed

/-- C18 (breed pairing stays in bounds). At the head of every iteration `i` the breed loop
reaches, the pool has `n + i` members (`n` the number of survivors); when the loop condition
`i < len/2` holds, both parent indices `i` and `2i` are valid, so the parents are found. On a
well-formed pool of `n ≥ 4` survivors the loop executes an iteration `i` with `2i ≥ n`, whose
second parent is a child appended earlier in the same phase. -/
theorem breed_indices_valid (fuel : Nat) (shop : Shop) (draws : Nat → Nat → Nat)
    (pool : List GeneAndFitness) :
    (∀ (i : Nat) (next : List GeneAndFitness),
      breedStateAt fuel shop draws pool i = some next →
        next.length = pool.length + i ∧
        (i < next.length / 2 →
          ∃ p1 p2, next[i]? = some p1 ∧ next[i * 2]? = some p2 ∧
            parentsAt next i = some (p1, p2))) ∧
    (MachinesInRange shop → DurationsNonneg shop → (∀ m ∈ pool, WellFormed shop m) →
      4 ≤ pool.length → workBound shop ≤ fuel →
        ∃ (i : Nat) (next : List GeneAndFitness),
          breedStateAt fuel shop draws pool i = some next ∧
          i < next.length / 2 ∧ pool.length ≤ i * 2) := by
  constructor
  · intro i next h
    exact ⟨breedStateAt_length fuel shop draws pool i next h, parentsAt_of_guard next i⟩
  · intro hm hd hwf h4 hf
    obtain ⟨k, rfl⟩ : ∃ k, fuel = workBound shop + k := ⟨fuel - workBound shop, by omega⟩
    obtain ⟨next, hs, _⟩ := breedStateAt_reached shop hm hd draws pool hwf k
      (pool.length - 2) (by omega)
    have hlen := breedStateAt_length _ shop draws pool _ next hs
    exact ⟨pool.length - 2, next, hs, by omega, by omega⟩

theorem breed_indices_valid_witness :
    ∃ (i : Nat) (next : List GeneAndFitness),
      breedStateAt 100 example_ (fun _ _ => 0) examplePool i = some next ∧
      i < next.length / 2 ∧ examplePool.length ≤ i * 2 :=
  (breed_indices_valid 100 example_ (fun _ _ => 0) examplePool).2 (by decide) (by decide)
    examplePool_wellFormed (by decide) (by decide)

/-! ## Selection -/

theorem select_foldl (p : GeneAndFitness → Prop) [DecidablePred p] (l : List GeneAndFitness) :
    ∀ acc : List GeneAndFitness, acc.length ≤ 50 →
      l.foldl
        (fun nextGeneration x =>
          if p x then
            if nextGeneration.length < 50 then nextGeneration ++ [x] else nextGeneration
          else nextGeneration) acc =
        (acc ++ l.filter (fun x => decide (p x))).take 50 := by
  induction l with
  | nil =>
    intro acc h
    simp [List.take_of_length_le h]
  | cons x l ih =>
    intro acc h
    rw [List.foldl_cons]
    by_cases hp : p x
    · rw [if_pos hp]
      by_cases hlt : acc.length < 50
      · rw [if_pos hlt, ih _ (by simp; omega)]
        simp [List.filter_cons, hp]
      · have h50 : acc.length = 50 := by omega
        rw [if_neg hlt, ih _ h]
        rw [List.take_append_of_le_length (by omega), List.take_append_of_le_length (by omega)]
    · rw [if_neg hp, ih _ h]
      simp [List.filter_cons, hp]

theorem select_eq (prev : List GeneAndFitness) :
    select prev =
      (prev.filter
        (fun x => decide (belowMean (sumFitness prev) prev.length x.Fitness))).take 50 := by
  unfold select
  rw [select_foldl (fun x => belowMean (sumFitness prev) prev.length x.Fitness) prev [] (by simp)]
  simp

theorem sumFitness_eq (prev : List GeneAndFitness) :
    sumFitness prev = (prev.map (fun x => x.Fitness)).sum := by
  unfold sumFitness
  have : ∀ (l : List GeneAndFitness) (s : Int),
      l.foldl (fun sum x => sum + x.Fitness) s = s + (l.map (fun x => x.Fitness)).sum := by
    intro l
    induction l with
    | nil => intro s; simp
    | cons a l ih => intro s; rw [List.foldl_cons, ih]; simp; omega
  rw [this]; simp

theorem sum_le_length_mul (l : List Int) (M : Int) (h : ∀ x ∈ l, x ≤ M) :
    l.sum ≤ (l.length : Int) * M := by
  induction l with
  | nil => simp
  | cons a l ih =>
    have h1 := h a (List.mem_cons_self _ _)
    have h2 := ih (fun x hx => h x (List.mem_cons_of_mem _ hx))
    simp only [List.sum_cons, List.length_cons]
    push_cast
    nlinarith

/-- A member of maximal fitness is not below the selection threshold. -/
theorem not_belowMean_of_max (prev : List GeneAndFitness) (m : GeneAndFitness)
    (hm : m ∈ prev) (hmax : ∀ x ∈ prev, x.Fitness ≤ m.Fitness) :
    ¬ belowMean (sumFitness prev) prev.length m.Fitness := by
  unfold belowMean
  intro hb
  have hlen : 0 < prev.length := List.length_pos_of_mem hm
  have hs : sumFitness prev ≤ (prev.length : Int) * m.Fitness := by
    rw [sumFitness_eq]
    have := sum_le_length_mul (prev.map (fun x => x.Fitness)) m.Fitness (by
      intro x hx
      obtain ⟨y, hy, rfl⟩ := List.mem_map.mp hx
      exact hmax y hy)
    simpa using this
  have hq : ((sumFitness prev : Int) : ℚ) ≤ (prev.length : ℚ) * (m.Fitness : ℚ) := by
    exact_mod_cast hs
  have hpos : (0 : ℚ) < (prev.length : ℚ) := by exact_mod_cast hlen
  have h1 : ((sumFitness prev : Int) : ℚ) / (prev.length : ℚ) ≤ (m.Fitness : ℚ) := by
    rw [div_le_iff₀ hpos]
    linarith
  linarith

theorem exists_max_fitness (prev : List GeneAndFitness) (hne : prev ≠ []) :
    ∃ m ∈ prev, ∀ x ∈ prev, x.Fitness ≤ m.Fitness := by
  induction prev with
  | nil => exact absurd rfl hne
  | cons a l ih =>
    by_cases hl : l = []
    · subst hl
      exact ⟨a, List.mem_cons_self _ _, by simp⟩
    · obtain ⟨m, hm, hmax⟩ := ih hl
      by_cases hcmp : a.Fitness ≤ m.Fitness
      · refine ⟨m, List.mem_cons_of_mem _ hm, ?_⟩
        intro x hx
        rcases List.mem_cons.mp hx with rfl | h
        · exact hcmp
        · exact hmax x h
      · refine ⟨a, List.mem_cons_self _ _, ?_⟩
        intro x hx
        rcases List.mem_cons.mp hx with rfl | h
        · exact le_refl _
        · have := hmax x h
          omega

theorem breedLoop_nil (fuel steps : Nat) (shop : Shop) (draws : Nat → Nat → Nat) :
    breedLoop fuel shop draws (steps + 1) 0 [] = Result.done [] := by
  simp [breedLoop]

theorem select_nil : select [] = [] := rfl

theorem evolve_nil (fuel steps : Nat) (shop : Shop) (draws : Nat → Nat → Nat → Nat) :
    ∀ g : Nat, evolve fuel (steps + 1) shop draws g [] = Result.done [] := by
  intro g
  induction g with
  | zero => rfl
  | succ g ih =>
    unfold evolve
    rw [ih]
    simp only [generation, select_nil, breedLoop_nil]

/-- C19 (selection never keeps everyone and can wipe out the population). With the mean
taken as the exact rational `sum/len`: in a non-empty population a member of maximal fitness
is never selected, and the number of members with fitness at most `mean - 0.7`, hence the
number of survivors, is strictly less than the population size; a population whose members
all have the same fitness is followed by an empty generation; an empty population stays
empty in every later generation. -/
theorem selection_never_keeps_everyone :
    (∀ prev : List GeneAndFitness, prev ≠ [] →
      (∀ m ∈ prev, (∀ x ∈ prev, x.Fitness ≤ m.Fitness) →
        ¬ belowMean (sumFitness prev) prev.length m.Fitness) ∧
      prev.countP (fun x => decide (belowMean (sumFitness prev) prev.length x.Fitness)) <
        prev.length ∧
      (select prev).length < prev.length) ∧
    (∀ (prev : List GeneAndFitness) (f : Int), (∀ x ∈ prev, x.Fitness = f) →
      select prev = [] ∧
      ∀ (fuel steps : Nat) (shop : Shop) (draws : Nat → Nat → Nat),
        generation fuel (steps + 1) shop draws prev = Result.done []) ∧
    (∀ (fuel steps : Nat) (shop : Shop) (draws : Nat → Nat → Nat → Nat) (g : Nat),
      evolve fuel (steps + 1) shop draws g [] = Result.done []) := by
  refine ⟨?_, ?_, ?_⟩
  · intro prev hne
    have hcount : prev.countP
        (fun x => decide (belowMean (sumFitness prev) prev.length x.Fitness)) < prev.length := by
      obtain ⟨m, hm, hmax⟩ := exists_max_fitness prev hne
      have hle := List.countP_le_length
        (fun x => decide (belowMean (sumFitness prev) prev.length x.Fitness)) (l := prev)
      rcases Nat.lt_or_ge (prev.countP
        (fun x => decide (belowMean (sumFitness prev) prev.length x.Fitness))) prev.length
        with h | h
      · exact h
      · exfalso
        have heq := List.countP_eq_length.mp (le_antisymm hle h) m hm
        exact not_belowMean_of_max prev m hm hmax (by simpa using heq)
    refine ⟨fun m hm hmax => not_belowMean_of_max prev m hm hmax, hcount, ?_⟩
    rw [select_eq, List.length_take, ← List.countP_eq_length_filter]
    omega
  · intro prev f hall
    have hsel : select prev = [] := by
      rw [select_eq]
      have : prev.filter
          (fun x => decide (belowMean (sumFitness prev) prev.length x.Fitness)) = [] := by
        apply List.filter_eq_nil_iff.mpr
        intro m hm
        have := not_belowMean_of_max prev m hm (by
          intro x hx
          rw [hall x hx, hall m hm])
        simpa using this
      rw [this]; rfl
    refine ⟨hsel, ?_⟩
    intro fuel steps shop draws
    unfold generation
    rw [hsel, breedLoop_nil]
  · intro fuel steps shop draws g
    exact evolve_nil fuel steps shop draws g

theorem selection_never_keeps_everyone_witness :
    select examplePool = [] ∧
    ∀ (fuel steps : Nat) (shop : Shop) (draws : Nat → Nat → Nat),
      generation fuel (steps + 1) shop draws examplePool = Result.done [] :=
  selection_never_keeps_everyone.2.1 examplePool 9 (by decide)

/-! ## Generations -/

theorem select_sublist (prev : List GeneAndFitness) : (select prev).Sublist prev := by
  rw [select_eq]
  exact (List.take_sublist _ _).trans (List.filter_sublist _)

theorem select_length_le (prev : List GeneAndFitness) : (select prev).length ≤ 50 := by
  rw [select_eq, List.length_take]
  omega

theorem select_length_lt (prev : List GeneAndFitness) (hne : prev ≠ []) :
    (select prev).length < prev.length := by
  obtain ⟨m, hm, hmax⟩ := exists_max_fitness prev hne
  have hnot := not_belowMean_of_max prev m hm hmax
  rw [select_eq, List.length_take]
  have hle := List.length_filter_le
    (fun x => decide (belowMean (sumFitness prev) prev.length x.Fitness)) prev
  rcases Nat.lt_or_ge (prev.filter
    (fun x => decide (belowMean (sumFitness prev) prev.length x.Fitness))).length prev.length
    with h | h
  · omega
  · exfalso
    have heq : prev.filter
        (fun x => decide (belowMean (sumFitness prev) prev.length x.Fitness)) = prev :=
      List.filter_eq_self.mpr (by
        rw [← List.countP_eq_length, List.countP_eq_length_filter]
        omega)
    have := (List.filter_eq_self.mp heq) m hm
    exact hnot (by simpa using this)

/-- One generation on a well-formed population: it returns the survivors followed by one
child less than there are survivors, all well formed. -/
theorem generation_spec (shop : Shop) (hm : MachinesInRange shop) (hd : DurationsNonneg shop)
    (draws : Nat → Nat → Nat) (prev : List GeneAndFitness)
    (hwf : ∀ m ∈ prev, WellFormed shop m) :
    ∃ children : List GeneAndFitness,
      children.length = (select prev).length - 1 ∧
      (∀ m ∈ select prev ++ children, WellFormed shop m) ∧
      ∀ k steps : Nat, 50 ≤ steps →
        generation (workBound shop + k) steps shop draws prev =
          Result.done (select prev ++ children) := by
  have hsw : ∀ m ∈ select prev, WellFormed shop m :=
    fun m h => hwf m ((select_sublist prev).subset h)
  obtain ⟨cs, hlen, hcw, hrun⟩ := breedLoop_spec shop hm hd draws (select prev).length
    ((select prev).length - 1) 0 (select prev) (by omega) (by omega) hsw
  refine ⟨cs, hlen, ?_, ?_⟩
  · intro m hmem
    rcases List.mem_append.mp hmem with h | h
    · exact hsw m h
    · exact hcw m h
  · intro k steps hs
    unfold generation
    have := select_length_le prev
    exact (hrun k steps).1 (by omega)

theorem generation_length_le (prev children : List GeneAndFitness)
    (h : children.length = (select prev).length - 1) :
    (select prev ++ children).length ≤ 99 ∧
      (prev.length ≤ 50 → (select prev ++ children).length ≤ 97) := by
  have h50 := select_length_le prev
  rw [List.length_append, h]
  refine ⟨by omega, ?_⟩
  intro hp
  by_cases hne : prev = []
  · subst hne
    simp [select_nil]
  · have := select_length_lt prev hne
    omega

/-- The population after `g` generations from a well-formed population. -/
theorem evolve_spec (shop : Shop) (hm : MachinesInRange shop) (hd : DurationsNonneg shop)
    (draws : Nat → Nat → Nat → Nat) (population : List GeneAndFitness)
    (hwf : ∀ m ∈ population, WellFormed shop m) :
    ∀ g : Nat, ∃ pop : List GeneAndFitness,
      (∀ m ∈ pop, WellFormed shop m) ∧
      (pop.length ≤ 99 ∨ (g = 0 ∧ pop = population)) ∧
      ∀ k steps : Nat, 50 ≤ steps →
        evolve (workBound shop + k) steps shop draws g population = Result.done pop := by
  intro g
  induction g with
  | zero => exact ⟨population, hwf, Or.inr ⟨rfl, rfl⟩, fun k steps _ => rfl⟩
  | succ g ih =>
    obtain ⟨prev, hpw, _, hrun⟩ := ih
    obtain ⟨children, hlen, hcw, hgen⟩ := generation_spec shop hm hd (draws g) prev hpw
    refine ⟨select prev ++ children, hcw, Or.inl (generation_length_le prev children hlen).1, ?_⟩
    intro k steps hs
    unfold evolve
    rw [hrun k steps hs]
    exact hgen k steps hs

theorem wellFormed_of_initial (shop : Shop) (m : GeneAndFitness)
    (h3 : 3 ≤ (canonicalGene shop).length)
    (h : m.DNA.Perm (canonicalGene shop) ∧ ValidGene shop m.DNA ∧
      ∀ k : Nat, totalTime (workBound shop + k) shop m.DNA = Outcome.value m.Fitness) :
    WellFormed shop m := by
  refine ⟨h.2.1, ?_, workBound shop, h.2.2 0⟩
  rw [h.1.length_eq]
  exact h3

theorem datasetPool_wellFormed : ∀ m ∈ datasetPool, WellFormed dataset m := by
  intro m hm
  simp only [datasetPool, List.mem_cons, List.mem_singleton, List.not_mem_nil, or_false] at hm
  rcases hm with rfl | rfl
  · exact ⟨by decide, by decide, 100, by decide⟩
  · exact ⟨by decide, by decide, 100, by decide⟩

/-- C15 (population well-formedness is an invariant of the evolution loop). If every member
of the current population has a gene satisfying the occurrence-count invariant for `dataset`
(length at least 3) and a fitness equal to `totalTime(dataset, gene)`, then one generation
step (select, breed by `Crossover` then `Mutate`, replace) returns a population in which every
member, survivor or child, again has these properties; and the population returned by
`initialisePopulation(dataset, 50)` has them, for every outcome of the draws. -/
theorem population_wellFormed_invariant (draws : Nat → Nat → Nat)
    (prev : List GeneAndFitness) (hwf : ∀ m ∈ prev, WellFormed dataset m) :
    (∃ next : List GeneAndFitness,
      (∀ k steps : Nat, 50 ≤ steps →
        generation (workBound dataset + k) steps dataset draws prev = Result.done next) ∧
      ∀ m ∈ next, WellFormed dataset m) ∧
    (∀ draws0 : Nat → Nat → Nat, ∃ population : List GeneAndFitness,
      (∀ k : Nat, initialisePopulation (workBound dataset + k) dataset 50 draws0 =
        Result.done population) ∧
      ∀ m ∈ population, WellFormed dataset m) := by
  constructor
  · obtain ⟨children, _, hcw, hgen⟩ :=
      generation_spec dataset (by decide) (by decide) draws prev hwf
    exact ⟨select prev ++ children, hgen, hcw⟩
  · intro draws0
    obtain ⟨new, _, hP, hrun⟩ :=
      initialiseFrom_spec dataset draws0 (by decide) (by decide) (50 : Int).toNat 0
    refine ⟨new, ?_, ?_⟩
    · intro k
      unfold initialisePopulation
      rw [hrun k []]
      simp
    · intro m hmem
      exact wellFormed_of_initial dataset m (by decide) (hP m hmem)

theorem population_wellFormed_invariant_witness :
    (∃ next : List GeneAndFitness,
      (∀ k steps : Nat, 50 ≤ steps →
        generation (workBound dataset + k) steps dataset (fun _ _ => 0) datasetPool =
          Result.done next) ∧
      ∀ m ∈ next, WellFormed dataset m) ∧
    (∀ draws0 : Nat → Nat → Nat, ∃ population : List GeneAndFitness,
      (∀ k : Nat, initialisePopulation (workBound dataset + k) dataset 50 draws0 =
        Result.done population) ∧
      ∀ m ∈ population, WellFormed dataset m) :=
  population_wellFormed_invariant (fun _ _ => 0) datasetPool datasetPool_wellFormed

/-! ## Population size -/

theorem initialiseFrom_replicate (fuel : Nat) (shop : Shop) (draws : Nat → Nat → Nat)
    (g : Gene) (f : Int) (hf : totalTime fuel shop g = Outcome.value f) (m : Nat) :
    ∀ (n k0 : Nat) (acc : List GeneAndFitness),
      (∀ k, k0 ≤ k → k < k0 + n → shuffle (canonicalGene shop) (draws k) = some g) →
      initialiseFrom fuel shop draws (n + m) k0 acc =
        initialiseFrom fuel shop draws m (k0 + n)
          (acc ++ List.replicate n { DNA := g, Fitness := f }) := by
  intro n
  induction n with
  | zero => intro k0 acc _; simp
  | succ n ih =>
    intro k0 acc h
    have e : n + 1 + m = (n + m) + 1 := by omega
    have step : initialiseFrom fuel shop draws (n + m + 1) k0 acc =
        initialiseFrom fuel shop draws (n + m) (k0 + 1)
          (acc ++ [{ DNA := g, Fitness := f }]) := by
      simp only [initialiseFrom, h k0 (Nat.le_refl _) (by omega), hf]
    rw [e, step, ih (k0 + 1) _ (fun k h1 h2 => h k (by omega) (by omega))]
    have e2 : k0 + 1 + n = k0 + (n + 1) := by omega
    rw [e2, List.replicate_succ, List.append_assoc]
    rfl

theorem skewed_initial :
    initialisePopulation 100 dataset 50 skewedDraws = Result.done skewedPopulation := by
  unfold initialisePopulation
  have e : (50 : Int).toNat = 26 + 24 := by decide
  rw [e, initialiseFrom_replicate 100 dataset skewedDraws
    [1, 1, 1, 2, 2, 2, 2, 2, 3, 3, 3, 3, 4, 4, 4, 4, 1] 22 (by decide) 24 26 0 []]
  · have e2 : 24 = 24 + 0 := rfl
    rw [e2, initialiseFrom_replicate 100 dataset skewedDraws
      [1, 1, 1, 1, 2, 2, 2, 2, 2, 3, 3, 3, 3, 4, 4, 4, 4] 28 (by decide) 0 24 (0 + 26)]
    · rfl
    · intro k h1 h2
      have : skewedDraws k = fun i => i - 1 := by
        funext i
        have : ¬ k < 26 := by omega
        simp [skewedDraws, this]
      rw [this]
      decide
  · intro k h1 h2
    have : skewedDraws k = fun _ => 0 := by
      funext i
      have : k < 26 := by omega
      simp [skewedDraws, this]
    rw [this]
    decide

theorem skewed_wellFormed : ∀ m ∈ skewedPopulation, WellFormed dataset m := by
  intro m hm
  simp only [skewedPopulation, List.mem_append, List.mem_replicate] at hm
  rcases hm with ⟨_, rfl⟩ | ⟨_, rfl⟩
  · exact ⟨by decide, by decide, 100, by decide⟩
  · exact ⟨by decide, by decide, 100, by decide⟩

theorem skewed_select :
    select skewedPopulation = List.replicate 26
      { DNA := [1, 1, 1, 2, 2, 2, 2, 2, 3, 3, 3, 3, 4, 4, 4, 4, 1], Fitness := 22 } := by
  have hs : sumFitness skewedPopulation = 1244 := by decide
  have hl : skewedPopulation.length = 50 := by decide
  have h1 : belowMean 1244 50 22 := by unfold belowMean; norm_num
  have h2 : ¬ belowMean 1244 50 28 := by unfold belowMean; norm_num
  rw [select_eq, hs, hl]
  unfold skewedPopulation
  rw [List.filter_append, List.filter_replicate, List.filter_replicate]
  simp [h1, h2]

theorem skewed_generation :
    ∃ next : List GeneAndFitness,
      generation 100 100 dataset (fun _ _ => 0) skewedPopulation = Result.done next ∧
      next.length = 51 := by
  obtain ⟨children, hlen, _, hgen⟩ := generation_spec dataset (by decide) (by decide)
    (fun _ _ => 0) skewedPopulation skewed_wellFormed
  have hw : workBound dataset + 66 = 100 := by decide
  refine ⟨select skewedPopulation ++ children, ?_, ?_⟩
  · have := hgen 66 100 (by omega)
    rw [hw] at this
    exact this
  · rw [List.length_append, hlen, skewed_select]
    simp

/-- C14 (counterexample). The population cap of 50 does not hold. `skewedPopulation` is a
population `initialisePopulation(dataset, 50)` can return (26 members of fitness 22, 24 of
fitness 28: mean 24.88, threshold 24.18); one generation step on it selects 26 survivors and
breeds 25 children, so the population at the start of the second generation has 51 members. -/
theorem generation_exceeds_fifty :
    initialisePopulation 100 dataset 50 skewedDraws = Result.done skewedPopulation ∧
    skewedPopulation.length = 50 ∧
    (select skewedPopulation).length = 26 ∧
    ∃ next : List GeneAndFitness,
      generation 100 100 dataset (fun _ _ => 0) skewedPopulation = Result.done next ∧
      evolve 100 100 dataset (fun _ _ _ => 0) 1 skewedPopulation = Result.done next ∧
      next.length = 51 ∧ ¬ (next.length ≤ 50) := by
  refine ⟨skewed_initial, by decide, by rw [skewed_select]; rfl, ?_⟩
  obtain ⟨next, hgen, hlen⟩ := skewed_generation
  refine ⟨next, hgen, ?_, hlen, by omega⟩
  simp only [evolve]
  exact hgen

theorem breedStateAt_le (fuel : Nat) (shop : Shop) (draws : Nat → Nat → Nat)
    (pool : List GeneAndFitness) :
    ∀ (i : Nat) (next : List GeneAndFitness), breedStateAt fuel shop draws pool i = some next →
      i = 0 ∨ i + 1 ≤ pool.length := by
  intro i
  cases i with
  | zero => intro _ _; exact Or.inl rfl
  | succ i =>
    intro next' h
    right
    unfold breedStateAt at h
    cases hprev : breedStateAt fuel shop draws pool i with
    | none => rw [hprev] at h; simp at h
    | some next =>
      rw [hprev] at h
      simp only at h
      have hlen := breedStateAt_length fuel shop draws pool i next hprev
      split_ifs at h with hg
      omega

theorem generation_length_bound (fuel steps : Nat) (shop : Shop) (draws : Nat → Nat → Nat)
    (prev next : List GeneAndFitness)
    (h : generation fuel steps shop draws prev = Result.done next) :
    next.length ≤ 2 * (select prev).length - 1 ∧ next.length ≤ 99 ∧
      (prev.length ≤ 50 → next.length ≤ 97) := by
  unfold generation at h
  obtain ⟨i, hs, _⟩ := breedLoop_breedStateAt fuel shop draws (select prev) steps 0
    (select prev) next rfl h
  have hlen := breedStateAt_length fuel shop draws (select prev) i next hs
  have hi := breedStateAt_le fuel shop draws (select prev) i next hs
  have h50 := select_length_le prev
  have hb : next.length ≤ 2 * (select prev).length - 1 := by
    rcases hi with h0 | h1
    · subst h0
      by_cases hp : prev = []
      · subst hp; rw [select_nil] at hlen; simp at hlen; simp [hlen]
      · omega
    · omega
  refine ⟨hb, by omega, ?_⟩
  intro hp
  by_cases hne : prev = []
  · subst hne
    rw [select_nil] at hb
    simp at hb
    simp [hb]
  · have := select_length_lt prev hne
    omega

/-- C14 (population bound, amended). One generation step (select, breed, replace) applied to
any population yields, whenever it returns, at most `2s - 1` members for `s ≤ 50` survivors,
hence at most 99 members, and at most 97 when the population has at most 50 members. On a
well-formed population of a shop with machines in range and non-negative durations the step
does return such a population. Starting from the population of 50 that
`initialisePopulation(dataset, 50)` returns, the population at the start of every generation
exists and has at most 99 members. -/
theorem population_size_bound :
    (∀ (fuel steps : Nat) (shop : Shop) (draws : Nat → Nat → Nat)
        (prev next : List GeneAndFitness),
      generation fuel steps shop draws prev = Result.done next →
        (select prev).length ≤ 50 ∧ next.length ≤ 2 * (select prev).length - 1 ∧
        next.length ≤ 99 ∧ (prev.length ≤ 50 → next.length ≤ 97)) ∧
    (∀ (shop : Shop), MachinesInRange shop → DurationsNonneg shop →
      ∀ (draws : Nat → Nat → Nat) (prev : List GeneAndFitness),
        (∀ m ∈ prev, WellFormed shop m) →
        ∃ next : List GeneAndFitness,
          (∀ k steps : Nat, 50 ≤ steps →
            generation (workBound shop + k) steps shop draws prev = Result.done next) ∧
          next.length ≤ 99 ∧ (prev.length ≤ 50 → next.length ≤ 97)) ∧
    (∀ (draws0 : Nat → Nat → Nat) (draws : Nat → Nat → Nat → Nat) (g : Nat),
      ∃ initial population : List GeneAndFitness,
        (∀ k : Nat, initialisePopulation (workBound dataset + k) dataset 50 draws0 =
          Result.done initial) ∧
        initial.length = 50 ∧
        (∀ k steps : Nat, 50 ≤ steps →
          evolve (workBound dataset + k) steps dataset draws g initial =
            Result.done population) ∧
        population.length ≤ 99) := by
  refine ⟨?_, ?_, ?_⟩
  · intro fuel steps shop draws prev next h
    obtain ⟨h1, h2, h3⟩ := generation_length_bound fuel steps shop draws prev next h
    exact ⟨select_length_le prev, h1, h2, h3⟩
  · intro shop hm hd draws prev hwf
    obtain ⟨children, hlen, _, hgen⟩ := generation_spec shop hm hd draws prev hwf
    have hb := generation_length_le prev children hlen
    exact ⟨select prev ++ children, hgen, hb.1, hb.2⟩
  · intro draws0 draws g
    obtain ⟨new, hlen, hP, hrun⟩ :=
      initialiseFrom_spec dataset draws0 (by decide) (by decide) (50 : Int).toNat 0
    have hwf : ∀ m ∈ new, WellFormed dataset m :=
      fun m hmem => wellFormed_of_initial dataset m (by decide) (hP m hmem)
    have h50 : new.length = 50 := by rw [hlen]; rfl
    obtain ⟨pop, _, hsize, hev⟩ := evolve_spec dataset (by decide) (by decide) draws new hwf g
    refine ⟨new, pop, ?_, h50, hev, ?_⟩
    · intro k
      unfold initialisePopulation
      rw [hrun k []]
      simp
    · rcases hsize with h | ⟨_, h⟩
      · exact h
      · rw [h, h50]; omega

theorem population_size_bound_witness :
    ∃ next : List GeneAndFitness,
      (∀ k steps : Nat, 50 ≤ steps →
        generation (workBound dataset + k) steps dataset (fun _ _ => 0) skewedPopulation =
          Result.done next) ∧
      next.length ≤ 99 ∧ (skewedPopulation.length ≤ 50 → next.length ≤ 97) :=
  population_size_bound.2.1 dataset (by decide) (by decide) (fun _ _ => 0) skewedPopulation
    skewed_wellFormed

end GeneticAlgorithms
